import Mathlib

/-! # RayWeek 2.0 : `camera.h`

A shallow embedding of the `camera` class of `RayWeek 2.0/RayWeek/camera.h`
(viewport set-up, ray generation, the recursive estimator `ray_color`, the
per-worker loop `render_section` and the row dispatcher
`render_image_multithreaded`), followed by theorems about it.

Conventions of the embedding.

* A C++ `int` is a Lean `Int`.  Signed overflow is undefined in C++.  The
  pixel count `image_width * image_height`, which overflows for images that
  can be configured, is computed with `int_mul_checked`: an overflow has no
  result (`none`).  The other `int` operations are written with `wrap_int`
  (two's complement wrap-around); the statements about them carry the range
  of their operands as hypotheses.  Division by zero has no result (`none`).
* A run that the language leaves undefined, or that ends in an exception
  (an overflowing pixel count, a `resize` to a negative count, an access to
  `framebuffer` outside its bounds, a division of `int`s by zero) has no
  result: `render_image_multithreaded` is `none` there.
* A C++ `double` is an element of an ordered field `K`, and the arithmetic on
  it is exact, with two exceptions.  The quotient `image_width / aspect_ratio`,
  whose integer part becomes the image height, is rounded to the nearest
  `double` (`round_to_double`) before it is truncated.  And `ray_color_checked`
  is `ray_color` with the division inside `unit_vector` checked: where the
  C++ quotient is not a number the function has no result.  Infinities and
  the limited exponent range of a `double` are not represented.
* `hittable.h`, `material.h`, `vec3.h` and `rtweekend.h` are not part of the
  sources at hand.  The vector algebra is written out in the usual way, and
  everything else that comes from them (`pi`, `tan`, `sqrt`, the random source,
  the scene query and the material scatter function) is a parameter.
* The hidden state of the random source is an explicit value `g : G` that is
  threaded through every call that may draw from it.
* The worker threads are run one after the other, in the order of their
  creation.  Which entries a worker writes does not depend on that order; the
  colours do, through the random source.
-/

namespace RayWeek

/-! ## Machine integers -/

/-- Largest value of a 32-bit `int`. -/
def INT_MAX : Int := 2147483647

/-- Smallest value of a 32-bit `int`. -/
def INT_MIN : Int := -2147483648

/-- Two's complement reduction of an integer to the range of a 32-bit `int`. -/
def wrap_int (x : Int) : Int := (x + 2147483648) % 4294967296 - 2147483648

/-- The `int` sum `a + b`. -/
def int_add (a b : Int) : Int := wrap_int (a + b)

/-- The `int` difference `a - b`. -/
def int_sub (a b : Int) : Int := wrap_int (a - b)

/-- The `int` product `a * b`. -/
def int_mul (a b : Int) : Int := wrap_int (a * b)

/-- The `int` product `a * b` where it may leave the range: signed overflow is
undefined, so the product has no result then. -/
def int_mul_checked (a b : Int) : Option Int :=
  if INT_MIN ≤ a * b ∧ a * b ≤ INT_MAX then some (a * b) else none

/-- The `int` quotient `a / b`: truncation toward zero, no result when `b = 0`. -/
def int_div (a b : Int) : Option Int :=
  if b = 0 then none else some (wrap_int (Int.tdiv a b))

/-- Conversion of an `int` to `size_t` (64 bits, unsigned). -/
def int_to_size_t (x : Int) : Nat := (x % 18446744073709551616).toNat

/-- The values taken by the counter of `for (int x = lo; x < hi; ++x)` when the
body leaves `x` alone. -/
def int_loop (lo hi : Int) : List Int :=
  (List.range (hi - lo).toNat).map fun (k : Nat) => lo + (k : Int)

/-! ## Row partition of `render_image_multithreaded` -/

/-- `int start_row = t * rows_per_thread;` -/
def start_row (rows_per_thread t : Int) : Int := int_mul t rows_per_thread

/-- `int end_row = (t == num_threads - 1) ? image_height : (t + 1) * rows_per_thread;` -/
def end_row (image_height num_threads rows_per_thread t : Int) : Int :=
  if t = int_sub num_threads 1 then image_height
  else int_mul (int_add t 1) rows_per_thread

/-- `int rows_per_thread = image_height / num_threads;` -/
def rows_per_thread (image_height num_threads : Int) : Option Int :=
  int_div image_height num_threads

/-- The pairs `(start_row, end_row)` handed to the workers, in the order
`t = 0, 1, ..., num_threads - 1` in which the threads are created. -/
def thread_ranges (image_height num_threads : Int) : Option (List (Int × Int)) :=
  match rows_per_thread image_height num_threads with
  | none => none
  | some rpt =>
    some ((int_loop 0 num_threads).map fun t =>
      (start_row rpt t, end_row image_height num_threads rpt t))

/-! ## Vectors, rays and the collaborators -/

/-- The class `vec3`: three `double` coordinates. -/
structure vec3 (K : Type) where
  x : K
  y : K
  z : K
deriving DecidableEq

/-- `color` is an alias of `vec3`. -/
abbrev color (K : Type) := vec3 K

/-- `point3` is an alias of `vec3`. -/
abbrev point3 (K : Type) := vec3 K

section algebra

variable {K : Type} [LinearOrderedField K]

/-- `u + v` on vectors. -/
def vec3.add (a b : vec3 K) : vec3 K := ⟨a.x + b.x, a.y + b.y, a.z + b.z⟩

/-- `u - v` on vectors. -/
def vec3.sub (a b : vec3 K) : vec3 K := ⟨a.x - b.x, a.y - b.y, a.z - b.z⟩

/-- `-v` on vectors. -/
def vec3.neg (a : vec3 K) : vec3 K := ⟨-a.x, -a.y, -a.z⟩

/-- `t * v`, a `double` times a vector. -/
def vec3.smul (t : K) (a : vec3 K) : vec3 K := ⟨t * a.x, t * a.y, t * a.z⟩

/-- `u * v` on vectors: the component-wise product. -/
def vec3.mul (a b : vec3 K) : vec3 K := ⟨a.x * b.x, a.y * b.y, a.z * b.z⟩

/-- `v / t`, defined in `vec3.h` as `(1/t) * v`. -/
def vec3.div (a : vec3 K) (t : K) : vec3 K := vec3.smul (1 / t) a

instance : Add (vec3 K) := ⟨vec3.add⟩
instance : Sub (vec3 K) := ⟨vec3.sub⟩
instance : Neg (vec3 K) := ⟨vec3.neg⟩
instance : Mul (vec3 K) := ⟨vec3.mul⟩
instance : HMul K (vec3 K) (vec3 K) := ⟨vec3.smul⟩
instance : HMul (vec3 K) K (vec3 K) := ⟨fun a t => vec3.smul t a⟩
instance : HDiv (vec3 K) K (vec3 K) := ⟨vec3.div⟩

/-- `dot(u, v)`. -/
def dot (a b : vec3 K) : K := a.x * b.x + a.y * b.y + a.z * b.z

/-- `cross(u, v)`. -/
def cross (a b : vec3 K) : vec3 K :=
  ⟨a.y * b.z - a.z * b.y, a.z * b.x - a.x * b.z, a.x * b.y - a.y * b.x⟩

/-- `v.length_squared()`. -/
def vec3.length_squared (a : vec3 K) : K := a.x * a.x + a.y * a.y + a.z * a.z

/-- `v[k]` for `k = 0, 1, 2`. -/
def vec3.get (a : vec3 K) (k : Nat) : K :=
  match k with
  | 0 => a.x
  | 1 => a.y
  | _ => a.z

end algebra

/-- The class `ray`: origin, direction and time. -/
structure ray (K : Type) where
  orig : point3 K
  dir : vec3 K
  tm : K
deriving DecidableEq

/-- `r.direction()`. -/
def ray.direction {K : Type} (r : ray K) : vec3 K := r.dir

/-- `r.origin()`. -/
def ray.origin {K : Type} (r : ray K) : point3 K := r.orig

/-- The class `interval`; `max = none` stands for the constant `infinity`. -/
structure interval (K : Type) where
  min : K
  max : Option K
deriving DecidableEq

/-- The class `hit_record`; `mat` identifies the material of the surface. -/
structure hit_record (K M : Type) where
  p : point3 K
  normal : vec3 K
  mat : M
  t : K
  front_face : Bool

/-- What `camera.h` takes from `rtweekend.h`, `vec3.h` and `material.h`:
the constant `pi`, the functions `std::tan` and `std::sqrt`, the two random
draws, and `rec.mat->scatter(r, rec, attenuation, scattered)`, whose result is
`some (attenuation, scattered)` when the C++ function returns `true`. -/
structure library (K G M : Type) where
  pi : K
  tan : K → K
  sqrt : K → K
  random_double : G → K × G
  random_in_unit_disk : G → vec3 K × G
  scatter : M → ray K → hit_record K M → G → Option (color K × ray K) × G

/-- The abstract class `hittable`: `world.hit(r, ray_t, rec)`, whose result is
`some rec` when the C++ function returns `true`. -/
structure hittable (K G M : Type) where
  hit : ray K → interval K → G → Option (hit_record K M) × G

section helpers

variable {K G M : Type} [LinearOrderedField K]

/-- `degrees_to_radians(degrees)`, that is `degrees * pi / 180.0`. -/
def degrees_to_radians (lib : library K G M) (degrees : K) : K :=
  degrees * lib.pi / 180

/-- `v.length()`. -/
def vec3.length (lib : library K G M) (a : vec3 K) : K :=
  lib.sqrt a.length_squared

/-- `unit_vector(v)`, that is `v / v.length()`.  For a vector of length zero
the C++ quotient is not a number, whereas the quotient of the field is zero:
the value is meaningful only for a vector of non-zero length, and
`ray_color_checked` below makes the check. -/
def unit_vector (lib : library K G M) (a : vec3 K) : vec3 K :=
  a / vec3.length lib a

end helpers

/-! ## The class `camera` -/

/-- The data members of `camera`: the public configuration followed by the
private members that `initialize` fills in. -/
structure camera (K : Type) where
  aspect_ratio : K
  image_width : Int
  samples_per_pixel : Int
  max_depth : Int
  vfov : K
  lookfrom : point3 K
  lookat : point3 K
  vup : vec3 K
  defocus_angle : K
  focus_dist : K
  image_height : Int
  pixel_samples_scale : K
  center : point3 K
  pixel00_loc : point3 K
  pixel_delta_u : vec3 K
  pixel_delta_v : vec3 K
  u : vec3 K
  v : vec3 K
  w : vec3 K
  defocus_disk_u : vec3 K
  defocus_disk_v : vec3 K

section camera_methods

variable {K G M : Type} [LinearOrderedField K] [FloorRing K]

/-- Rounding of a real to the nearest integer, a tie going to the even one. -/
def round_half_even (x : K) : Int :=
  let f := Int.floor x
  if x - (f : K) < 1 / 2 then f
  else if 1 / 2 < x - (f : K) then f + 1
  else if f % 2 = 0 then f else f + 1

/-- The `double` nearest to the real `x` (IEEE 754 binary64, round to nearest,
ties to even): `x` is scaled by the power of two that brings it into
`[2^52, 2^53)`, rounded to an integer, and scaled back.  The exponent is not
limited: no overflow to infinity, no subnormal numbers. -/
def round_to_double (x : K) : K :=
  if x = 0 then 0
  else
    let e : Int := Int.log 2 |x| - 52
    (round_half_even (x / (2 : K) ^ e) : K) * (2 : K) ^ e

/-- The conversion `int(x)` of a `double`: truncation toward zero. -/
def double_to_int (x : K) : Int :=
  wrap_int (if 0 ≤ x then Int.floor x else Int.ceil x)

/-- `camera::initialize` (the bare name is reserved in Lean).  The quotient
`image_width / aspect_ratio` is the `double` quotient, that is the exact one
rounded to the nearest `double`. -/
def initialize_camera (lib : library K G M) (c : camera K) : camera K :=
  let image_height := double_to_int (round_to_double ((c.image_width : K) / c.aspect_ratio))
  let image_height := if image_height < 1 then 1 else image_height
  let pixel_samples_scale := 1 / (c.samples_per_pixel : K)
  let center := c.lookfrom
  let theta := degrees_to_radians lib c.vfov
  let h := lib.tan (theta / 2)
  let viewport_height := 2 * h * c.focus_dist
  let viewport_width := viewport_height * ((c.image_width : K) / (image_height : K))
  let w := unit_vector lib (c.lookfrom - c.lookat)
  let u := unit_vector lib (cross c.vup w)
  let v := cross w u
  let viewport_u := viewport_width * u
  let viewport_v := viewport_height * (-v)
  let pixel_delta_u := viewport_u / (c.image_width : K)
  let pixel_delta_v := viewport_v / (image_height : K)
  let viewport_upper_left :=
    center - (c.focus_dist * w) - viewport_u / (2 : K) - viewport_v / (2 : K)
  let pixel00_loc := viewport_upper_left + (0.5 : K) * (pixel_delta_u + pixel_delta_v)
  let defocus_radius :=
    c.focus_dist * lib.tan (degrees_to_radians lib (c.defocus_angle / 2))
  { c with
    image_height := image_height
    pixel_samples_scale := pixel_samples_scale
    center := center
    pixel00_loc := pixel00_loc
    pixel_delta_u := pixel_delta_u
    pixel_delta_v := pixel_delta_v
    u := u
    v := v
    w := w
    defocus_disk_u := u * defocus_radius
    defocus_disk_v := v * defocus_radius }

/-- `camera::sample_square`: two draws, taken here in the order in which they
are written (`x` first). -/
def sample_square (lib : library K G M) (g : G) : vec3 K × G :=
  let (a, g1) := lib.random_double g
  let (b, g2) := lib.random_double g1
  (⟨a - 0.5, b - 0.5, 0⟩, g2)

/-- `camera::defocus_disk_sample`. -/
def defocus_disk_sample (lib : library K G M) (c : camera K) (g : G) : point3 K × G :=
  let (p, g1) := lib.random_in_unit_disk g
  (c.center + (p.get 0 * c.defocus_disk_u) + (p.get 1 * c.defocus_disk_v), g1)

/-- `camera::get_ray`. -/
def get_ray (lib : library K G M) (c : camera K) (i j : Int) (g : G) : ray K × G :=
  let (offset, g1) := sample_square lib g
  let pixel_sample := c.pixel00_loc
    + (((i : K) + offset.x) * c.pixel_delta_u)
    + (((j : K) + offset.y) * c.pixel_delta_v)
  let (ray_origin, g2) :=
    if c.defocus_angle ≤ 0 then (c.center, g1) else defocus_disk_sample lib c g1
  let ray_direction := pixel_sample - ray_origin
  let (ray_time, g3) := lib.random_double g2
  (⟨ray_origin, ray_direction, ray_time⟩, g3)

/-- What one call of `ray_color` yields: the colour returned, the state of the
random source afterwards, and how many times the call (with its recursive
calls) ran `world.hit` and `scatter`. -/
structure radiance (K G : Type) where
  value : color K
  g : G
  hits : Nat
  scatters : Nat

/-- `camera::ray_color`.  The camera `c` is the object the method is called on;
the method reads none of its members. -/
def ray_color (lib : library K G M) (c : camera K) (r : ray K) (depth : Int)
    (world : hittable K G M) (g : G) : radiance K G :=
  if h : depth ≤ 0 then
    ⟨⟨0, 0, 0⟩, g, 0, 0⟩
  else
    match world.hit r ⟨0.001, none⟩ g with
    | (some rec, g1) =>
      match lib.scatter rec.mat r rec g1 with
      | (some (attenuation, scattered), g2) =>
        let sub := ray_color lib c scattered (int_sub depth 1) world g2
        ⟨attenuation * sub.value, sub.g, sub.hits + 1, sub.scatters + 1⟩
      | (none, g2) => ⟨⟨0, 0, 0⟩, g2, 1, 1⟩
    | (none, g1) =>
      let unit_direction := unit_vector lib r.direction
      let a := 0.5 * (unit_direction.y + 1.0)
      ⟨(1.0 - a) * (⟨1.0, 1.0, 1.0⟩ : color K) + a * (⟨0.5, 0.7, 1.0⟩ : color K), g1, 1, 0⟩
termination_by depth.toNat
decreasing_by
  unfold int_sub wrap_int
  omega

/-- `camera::ray_color` with its one division checked.  `unit_vector` divides
the direction of a ray that hits nothing by its length; when that length is
zero the quotient is not a number (NaN), and neither is any colour computed
from it, up to the colour returned by the outermost call: there is no
result.  Otherwise the result is that of `ray_color`. -/
def ray_color_checked (lib : library K G M) (c : camera K) (r : ray K) (depth : Int)
    (world : hittable K G M) (g : G) : Option (radiance K G) :=
  if h : depth ≤ 0 then
    some ⟨⟨0, 0, 0⟩, g, 0, 0⟩
  else
    match world.hit r ⟨0.001, none⟩ g with
    | (some rec, g1) =>
      match lib.scatter rec.mat r rec g1 with
      | (some (attenuation, scattered), g2) =>
        match ray_color_checked lib c scattered (int_sub depth 1) world g2 with
        | some sub => some ⟨attenuation * sub.value, sub.g, sub.hits + 1, sub.scatters + 1⟩
        | none => none
      | (none, g2) => some ⟨⟨0, 0, 0⟩, g2, 1, 1⟩
    | (none, g1) =>
      if vec3.length lib r.direction = 0 then none
      else
        let unit_direction := unit_vector lib r.direction
        let a := 0.5 * (unit_direction.y + 1.0)
        some ⟨(1.0 - a) * (⟨1.0, 1.0, 1.0⟩ : color K) + a * (⟨0.5, 0.7, 1.0⟩ : color K), g1, 1, 0⟩
termination_by depth.toNat
decreasing_by
  unfold int_sub wrap_int
  omega

/-- The innermost loop of `render_section`:
`for (sample = 0; sample < samples_per_pixel; ++sample)` around
`get_ray(i, j)` and `pixel_color += ray_color(r, max_depth, world)`,
started from `pixel_color(0, 0, 0)`. -/
def pixel_loop (lib : library K G M) (c : camera K) (world : hittable K G M)
    (i j : Int) (g : G) : color K × G :=
  (int_loop 0 c.samples_per_pixel).foldl
    (fun (acc : color K × G) _ =>
      let (r, g1) := get_ray lib c i j acc.2
      let res := ray_color lib c r c.max_depth world g1
      (acc.1 + res.value, res.g))
    (⟨0, 0, 0⟩, g)

/-- The body of the column loop of `render_section`: the assignment
`framebuffer[pixel_index] = pixel_samples_scale * pixel_color`, recorded as the
pair of the index and the value stored. -/
def render_pixel (lib : library K G M) (c : camera K) (world : hittable K G M)
    (i j : Int) (g : G) : (Int × color K) × G :=
  let (pixel_color, g1) := pixel_loop lib c world i j g
  let pixel_index := int_add (int_mul j c.image_width) i
  ((pixel_index, c.pixel_samples_scale * pixel_color), g1)

/-- The column loop `for (i = 0; i < image_width; ++i)` of `render_section`
for row `j`: the assignments it makes, in order. -/
def render_row (lib : library K G M) (c : camera K) (world : hittable K G M)
    (j : Int) (g : G) : List (Int × color K) × G :=
  (int_loop 0 c.image_width).foldl
    (fun (acc : List (Int × color K) × G) i =>
      let (wr, g1) := render_pixel lib c world i j acc.2
      (acc.1 ++ [wr], g1))
    ([], g)

/-- `camera::render_section(start, end, world)`: the assignments to
`framebuffer` it makes, in order, and the random source afterwards.  The
progress line written to `std::clog` is left out. -/
def render_section (lib : library K G M) (c : camera K) (start stop : Int)
    (world : hittable K G M) (g : G) : List (Int × color K) × G :=
  (int_loop start stop).foldl
    (fun (acc : List (Int × color K) × G) j =>
      let (ws, g1) := render_row lib c world j acc.2
      (acc.1 ++ ws, g1))
    ([], g)

/-- `framebuffer[pixel_index] = value`.  The index is converted to `size_t`;
outside the vector the assignment is undefined: no result. -/
def store (framebuffer : List (color K)) (wr : Int × color K) : Option (List (color K)) :=
  if int_to_size_t wr.1 < framebuffer.length then
    some (framebuffer.set (int_to_size_t wr.1) wr.2)
  else none

/-- The assignments of `log` made one after the other. -/
def store_all : List (Int × color K) → List (color K) → Option (List (color K))
  | [], framebuffer => some framebuffer
  | wr :: log, framebuffer =>
    match store framebuffer wr with
    | none => none
    | some framebuffer1 => store_all log framebuffer1

/-- The value of `framebuffer[pixel_index]`; outside the vector the access is
undefined: no result. -/
def load (framebuffer : List (color K)) (pixel_index : Int) : Option (color K) :=
  framebuffer[int_to_size_t pixel_index]?

/-- The values of `framebuffer` at the indices given, read one after the
other. -/
def load_all : List Int → List (color K) → Option (List (color K))
  | [], _ => some []
  | pixel_index :: rest, framebuffer =>
    match load framebuffer pixel_index with
    | none => none
    | some value =>
      match load_all rest framebuffer with
      | none => none
      | some values => some (value :: values)

/-- `framebuffer.resize(n)`: cut to `n` entries or fill up with `color()`. -/
def resize (framebuffer : List (color K)) (n : Nat) : List (color K) :=
  framebuffer.take n ++ List.replicate (n - framebuffer.length) ⟨0, 0, 0⟩

/-- The workers of `render_image_multithreaded`, one per row range, run one
after the other in the order of their creation: the assignments of each
worker, and the random source afterwards. -/
def run_workers (lib : library K G M) (c : camera K) (world : hittable K G M)
    (ranges : List (Int × Int)) (g : G) : List (List (Int × color K)) × G :=
  ranges.foldl
    (fun (acc : List (List (Int × color K)) × G) rg =>
      let (ws, g1) := render_section lib c rg.1 rg.2 world acc.2
      (acc.1 ++ [ws], g1))
    ([], g)

/-- What `render_image_multithreaded` leaves behind. -/
structure render_output (K G : Type) where
  header : String
  framebuffer : List (color K)
  written : List (color K)
  g : G

/-- `camera::render_image_multithreaded(world, num_threads)`, started with the
global `framebuffer` given.  `written` lists the arguments of the calls of
`write_color`, in order.  There is no result when the pixel count
`image_width * image_height` overflows, when it is negative (`resize` then
throws `std::length_error`, the count converted to `size_t` being beyond any
`max_size`), when `num_threads` is zero, or when a worker or the output loop
accesses `framebuffer` outside its bounds.  Memory and threads are taken to
be available in the amounts asked for. -/
def render_image_multithreaded (lib : library K G M) (c0 : camera K)
    (framebuffer : List (color K)) (world : hittable K G M) (num_threads : Int)
    (g : G) : Option (render_output K G) :=
  let c := initialize_camera lib c0
  let header := "P3\n" ++ toString c.image_width ++ " " ++ toString c.image_height ++ "\n255\n"
  match int_mul_checked c.image_width c.image_height with
  | none => none
  | some pixel_count =>
    if pixel_count < 0 then none
    else
      let fb := resize framebuffer (int_to_size_t pixel_count)
      match thread_ranges c.image_height num_threads with
      | none => none
      | some ranges =>
        let (logs, g1) := run_workers lib c world ranges g
        match store_all logs.flatten fb with
        | none => none
        | some fb1 =>
          match load_all
            ((int_loop 0 c.image_height).flatMap fun j =>
              (int_loop 0 c.image_width).map fun i => int_add (int_mul j c.image_width) i)
            fb1 with
          | none => none
          | some written => some ⟨header, fb1, written, g1⟩

end camera_methods



/-! ## Vocabulary of the statements -/

/-- The row ranges `ranges` follow one another from row `a` to row `b`: the
first starts at `a`, each ends where the next starts, the last ends at `b`,
and none has its end before its start. -/
def row_chain : Int → Int → List (Int × Int) → Prop
  | a, b, [] => a = b
  | a, b, rg :: rest => rg.1 = a ∧ rg.1 ≤ rg.2 ∧ row_chain rg.2 b rest

/-- Row `row` belongs to the range `rg = (start, end)`: `start ≤ row < end`. -/
def in_rows (rg : Int × Int) (row : Int) : Prop := rg.1 ≤ row ∧ row < rg.2

section samples

variable {K G M : Type} [LinearOrderedField K]

/-- The samples of pixel `(i, j)`: what `n` rounds of `get_ray(i, j)` followed
by `ray_color(r, max_depth, world)` yield, each round starting from the random
source left by the previous one.  Each entry is the ray generated and the
result of `ray_color` on it. -/
def pixel_samples (lib : library K G M) (c : camera K) (world : hittable K G M)
    (i j : Int) : Nat → G → List (ray K × radiance K G)
  | 0, _ => []
  | n + 1, g =>
    ((get_ray lib c i j g).1,
      ray_color lib c (get_ray lib c i j g).1 c.max_depth world (get_ray lib c i j g).2) ::
    pixel_samples lib c world i j n
      (ray_color lib c (get_ray lib c i j g).1 c.max_depth world (get_ray lib c i j g).2).g

/-- The random source after a list of samples taken from `g`. -/
def final_state (g : G) : List (ray K × radiance K G) → G
  | [] => g
  | s :: rest => final_state s.2.g rest

/-- The sum of a list of colours, added one after the other to `(0, 0, 0)`. -/
def color_sum (l : List (color K)) : color K :=
  l.foldl (fun acc col => acc + col) ⟨0, 0, 0⟩

end samples

section geometry_vocabulary

variable {K G M : Type} [LinearOrderedField K]

/-- The function `sqrt` of the library is the real square root: on every
`x ≥ 0` it returns the non-negative number whose square is `x`. -/
def sqrt_exact (lib : library K G M) : Prop :=
  ∀ x : K, 0 ≤ x → 0 ≤ lib.sqrt x ∧ lib.sqrt x * lib.sqrt x = x

/-- Every draw of `random_double` lies in `[0, 1)`. -/
def draws_in_unit_interval (lib : library K G M) : Prop :=
  ∀ g : G, 0 ≤ (lib.random_double g).1 ∧ (lib.random_double g).1 < 1

/-- The colour is non-negative in each channel. -/
def nonneg (col : color K) : Prop := 0 ≤ col.x ∧ 0 ≤ col.y ∧ 0 ≤ col.z

/-- The vectors `u`, `v`, `w` have unit length and are pairwise orthogonal. -/
def orthonormal (u v w : vec3 K) : Prop :=
  dot u u = 1 ∧ dot v v = 1 ∧ dot w w = 1 ∧ dot u v = 0 ∧ dot v w = 0 ∧ dot w u = 0

/-- The local `viewport_height` of `initialize`. -/
def viewport_height (lib : library K G M) (c : camera K) : K :=
  2 * lib.tan (degrees_to_radians lib c.vfov / 2) * c.focus_dist

/-- The background gradient of `ray_color` for a ray of direction `d`: the
blend weight `a = 0.5 * (y + 1)`, `y` the vertical component of
`unit_vector(d)`. -/
def blend_weight (lib : library K G M) (d : vec3 K) : K :=
  0.5 * ((unit_vector lib d).y + 1)

/-- The background gradient of `ray_color` for a ray of direction `d`:
`(1 - a) * (1, 1, 1) + a * (0.5, 0.7, 1.0)`. -/
def background (lib : library K G M) (d : vec3 K) : color K :=
  ⟨(1 - blend_weight lib d) * 1 + blend_weight lib d * 0.5,
    (1 - blend_weight lib d) * 1 + blend_weight lib d * 0.7,
    (1 - blend_weight lib d) * 1 + blend_weight lib d * 1⟩

end geometry_vocabulary

section viewport_vocabulary

variable {K G M : Type} [LinearOrderedField K] [FloorRing K]

/-- The local `viewport_width` of `initialize`. -/
def viewport_width (lib : library K G M) (c : camera K) : K :=
  viewport_height lib c * ((c.image_width : K) / ((initialize_camera lib c).image_height : K))

/-- The local `viewport_u` of `initialize`. -/
def viewport_u (lib : library K G M) (c : camera K) : vec3 K :=
  viewport_width lib c * (initialize_camera lib c).u

/-- The local `viewport_v` of `initialize`. -/
def viewport_v (lib : library K G M) (c : camera K) : vec3 K :=
  viewport_height lib c * (-(initialize_camera lib c).v)

/-- The local `viewport_upper_left` of `initialize`. -/
def viewport_upper_left (lib : library K G M) (c : camera K) : point3 K :=
  (initialize_camera lib c).center - (c.focus_dist * (initialize_camera lib c).w)
    - viewport_u lib c / (2 : K) - viewport_v lib c / (2 : K)

omit [FloorRing K] in
/-- The local `pixel_sample` of `get_ray` for the jitter `offset`. -/
def pixel_sample (c : camera K) (i j : Int) (offset : vec3 K) : point3 K :=
  c.pixel00_loc
    + (((i : K) + offset.x) * c.pixel_delta_u)
    + (((j : K) + offset.y) * c.pixel_delta_v)

end viewport_vocabulary

section assignments

variable {K G M : Type} [LinearOrderedField K]

/-- The pixels `(i, j)` of the rows `start ≤ j < stop`, in the order of the two
outer loops of `render_section`: row by row, and in each row from column `0`
to column `image_width - 1`. -/
def section_pixels (start stop image_width : Int) : List (Int × Int) :=
  (int_loop start stop).flatMap fun j => (int_loop 0 image_width).map fun i => (i, j)

/-- The samples behind the pixels of `pixels`, pixel by pixel: each pixel with
its `n` rounds of `get_ray` followed by `ray_color`, the first round of a
pixel starting from the random source that the last round of the pixel before
has left. -/
def section_trace (lib : library K G M) (c : camera K) (world : hittable K G M) (n : Nat) :
    List (Int × Int) → G → List ((Int × Int) × List (ray K × radiance K G))
  | [], _ => []
  | p :: rest, g =>
    (p, pixel_samples lib c world p.1 p.2 n g) ::
      section_trace lib c world n rest (final_state g (pixel_samples lib c world p.1 p.2 n g))

/-- The random source after the samples of `section_trace`. -/
def trace_state (g : G) : List ((Int × Int) × List (ray K × radiance K G)) → G
  | [] => g
  | e :: rest => trace_state (final_state g e.2) rest

/-- The assignment that the samples `e.2` of the pixel `e.1 = (i, j)` lead to:
index `j * image_width + i`, value `pixel_samples_scale` times the sum of the
sampled colours. -/
def assignment_of (c : camera K) (e : (Int × Int) × List (ray K × radiance K G)) :
    Int × color K :=
  (int_add (int_mul e.1.2 c.image_width) e.1.1,
    c.pixel_samples_scale * color_sum (e.2.map fun s => s.2.value))

end assignments

/-! ## Concrete inputs -/

/-- A library over the rationals.  The state of the random source counts the
draws; `random_double` cycles through `0, 1/4, 1/2, 3/4`; the material `true`
scatters along the surface normal with attenuation `1/2`, the material `false`
absorbs.  `tan` and `sqrt` are rational stand-ins that are exact at the
arguments used below (`tan (pi/4) = 1`, `sqrt 1 = 1`). -/
def demo_library : library ℚ Nat Bool where
  pi := 4
  tan := fun x => x
  sqrt := fun x => x
  random_double := fun g => (((g % 4 : Nat) : ℚ) / 4, g + 1)
  random_in_unit_disk := fun g => (⟨0, 0, 0⟩, g + 1)
  scatter := fun m _ rec g =>
    (if m then some (⟨1 / 2, 1 / 2, 1 / 2⟩, ⟨rec.p, rec.normal, 0⟩) else none, g + 1)

/-- The camera with the default member values of `camera.h`; the private
members, which the class leaves uninitialised, are zero. -/
def default_camera : camera ℚ where
  aspect_ratio := 1
  image_width := 100
  samples_per_pixel := 10
  max_depth := 10
  vfov := 90
  lookfrom := ⟨0, 0, 0⟩
  lookat := ⟨0, 0, -1⟩
  vup := ⟨0, 1, 0⟩
  defocus_angle := 0
  focus_dist := 10
  image_height := 0
  pixel_samples_scale := 0
  center := ⟨0, 0, 0⟩
  pixel00_loc := ⟨0, 0, 0⟩
  pixel_delta_u := ⟨0, 0, 0⟩
  pixel_delta_v := ⟨0, 0, 0⟩
  u := ⟨0, 0, 0⟩
  v := ⟨0, 0, 0⟩
  w := ⟨0, 0, 0⟩
  defocus_disk_u := ⟨0, 0, 0⟩
  defocus_disk_v := ⟨0, 0, 0⟩

/-- The camera with the default member values of `camera.h` over any field;
the private members are zero. -/
def standard_camera (K : Type) [LinearOrderedField K] : camera K where
  aspect_ratio := 1
  image_width := 100
  samples_per_pixel := 10
  max_depth := 10
  vfov := 90
  lookfrom := ⟨0, 0, 0⟩
  lookat := ⟨0, 0, -1⟩
  vup := ⟨0, 1, 0⟩
  defocus_angle := 0
  focus_dist := 10
  image_height := 0
  pixel_samples_scale := 0
  center := ⟨0, 0, 0⟩
  pixel00_loc := ⟨0, 0, 0⟩
  pixel_delta_u := ⟨0, 0, 0⟩
  pixel_delta_v := ⟨0, 0, 0⟩
  u := ⟨0, 0, 0⟩
  v := ⟨0, 0, 0⟩
  w := ⟨0, 0, 0⟩
  defocus_disk_u := ⟨0, 0, 0⟩
  defocus_disk_v := ⟨0, 0, 0⟩

/-- The default camera with `focus_dist = -10`. -/
def camera_focus_behind (K : Type) [LinearOrderedField K] : camera K :=
  { standard_camera K with focus_dist := -10 }

/-- A library with the given `pi`, `tan` and `sqrt`, in which every random
draw is `0` and every material absorbs. -/
def plain_library (K : Type) [LinearOrderedField K] (pi : K) (tan sqrt : K → K) :
    library K Unit Unit where
  pi := pi
  tan := tan
  sqrt := sqrt
  random_double := fun g => (0, g)
  random_in_unit_disk := fun g => (⟨0, 0, 0⟩, g)
  scatter := fun _ _ _ g => (none, g)

/-- A library with the given `pi`, `tan` and `sqrt`, in which every random
draw is `0` and every material scatters straight up, in the direction
`(0, 1, 0)`, with attenuation `(1/2, 1/2, 1/2)`. -/
def grey_library (K : Type) [LinearOrderedField K] (pi : K) (tan sqrt : K → K) :
    library K Unit Unit where
  pi := pi
  tan := tan
  sqrt := sqrt
  random_double := fun g => (0, g)
  random_in_unit_disk := fun g => (⟨0, 0, 0⟩, g)
  scatter := fun _ _ rec g => (some (⟨1 / 2, 1 / 2, 1 / 2⟩, ⟨rec.p, ⟨0, 1, 0⟩, 0⟩), g)

/-- The camera of the 4 by 2 scenario: at the origin, looking at `(0, 0, -1)`,
`vup = (0, 1, 0)`, `vfov = 90`, `image_width = 4`, `aspect_ratio = 2`, one
sample per pixel, `defocus_angle = 0`, with the given `focus_dist` and
`max_depth`. -/
def scenario_camera (K : Type) [LinearOrderedField K] (focus_dist : K) (max_depth : Int) :
    camera K :=
  { standard_camera K with
    image_width := 4
    aspect_ratio := 2
    samples_per_pixel := 1
    max_depth := max_depth
    focus_dist := focus_dist }

/-- The default camera with a 4 by 2 image (`image_width = 4`,
`aspect_ratio = 2`). -/
def camera_4x2 : camera ℚ :=
  { default_camera with image_width := 4, aspect_ratio := 2 }

/-- The default camera with `image_width = 65536` (and `aspect_ratio = 1`, so
that the image is 65536 by 65536). -/
def camera_65536 : camera ℚ :=
  { default_camera with image_width := 65536 }

/-- The default camera with `image_width = 7` and `aspect_ratio = 4`. -/
def camera_7_by_4 : camera ℚ :=
  { default_camera with image_width := 7, aspect_ratio := 4 }

/-- The default camera with `image_width = 3` and `aspect_ratio = 0.1`, that is
the `double` nearest to one tenth, `3602879701896397 / 2^55`. -/
def camera_3_by_tenth : camera ℚ :=
  { default_camera with image_width := 3, aspect_ratio := 3602879701896397 / 36028797018963968 }

/-- The default camera with `focus_dist = 0`. -/
def camera_focus_0 (K : Type) [LinearOrderedField K] : camera K :=
  { standard_camera K with focus_dist := 0 }

/-- The default camera with `image_width = 0`. -/
def camera_width_0 : camera ℚ :=
  { default_camera with image_width := 0 }

/-- A scene without surfaces, over any field. -/
def void_world (K : Type) : hittable K Unit Unit where
  hit := fun _ _ g => (none, g)

/-- A scene without surfaces: no ray hits anything. -/
def empty_world : hittable ℚ Nat Bool where
  hit := fun _ _ g => (none, g)

/-- A scene in which every ray hits a surface of material `m` at the ray's
origin. -/
def wall_world (m : Bool) : hittable ℚ Nat Bool where
  hit := fun r _ g => (some ⟨r.orig, ⟨0, 0, 1⟩, m, 1, true⟩, g)

/-! ## Integer arithmetic inside the `int` range -/

theorem wrap_int_of_range (x : Int) (h1 : INT_MIN ≤ x) (h2 : x ≤ INT_MAX) :
    wrap_int x = x := by
  unfold wrap_int
  unfold INT_MIN at h1
  unfold INT_MAX at h2
  omega

theorem mem_int_loop (lo hi x : Int) : x ∈ int_loop lo hi ↔ lo ≤ x ∧ x < hi := by
  unfold int_loop
  simp only [List.mem_map, List.mem_range]
  constructor
  · rintro ⟨k, hk, rfl⟩
    omega
  · rintro ⟨h1, h2⟩
    exact ⟨(x - lo).toNat, by omega, by omega⟩

theorem length_int_loop (lo hi : Int) : (int_loop lo hi).length = (hi - lo).toNat := by
  simp [int_loop]

/-- The quotient `image_height / num_threads` for a positive thread count. -/
theorem rows_per_thread_eq (image_height num_threads : Int) (h0 : 0 ≤ image_height)
    (hmax : image_height ≤ INT_MAX) (hn : 1 ≤ num_threads) :
    rows_per_thread image_height num_threads = some (image_height / num_threads) := by
  have hq0 : 0 ≤ image_height / num_threads := Int.ediv_nonneg h0 (by omega)
  have hq1 : image_height / num_threads ≤ image_height :=
    Int.ediv_le_self _ h0
  unfold rows_per_thread int_div
  rw [if_neg (by omega), Int.tdiv_eq_ediv h0 (by omega)]
  rw [wrap_int_of_range _ (by unfold INT_MIN; omega) (by omega)]

theorem quot_mul_le (a n : Int) (hn : 1 ≤ n) : a / n * n ≤ a :=
  Int.ediv_mul_le a (by omega)

theorem lt_quot_mul_add (a n : Int) (hn : 1 ≤ n) : a < a / n * n + n := by
  have := Int.lt_ediv_add_one_mul_self a (show 0 < n by omega)
  linarith

/-- Below the last worker, `t * q` stays below `image_height`. -/
theorem mul_quot_le (a n t : Int) (ha : 0 ≤ a) (hn : 1 ≤ n) (ht0 : 0 ≤ t) (ht : t ≤ n) :
    0 ≤ t * (a / n) ∧ t * (a / n) ≤ a := by
  have hq0 : 0 ≤ a / n := Int.ediv_nonneg ha (by omega)
  have h1 := quot_mul_le a n hn
  constructor
  · exact Int.mul_nonneg ht0 hq0
  · have : t * (a / n) ≤ n * (a / n) := Int.mul_le_mul_of_nonneg_right ht hq0
    linarith


/-! ## The row partition -/

theorem start_row_eq (h n t : Int) (h0 : 0 ≤ h) (hmax : h ≤ INT_MAX) (hn : 1 ≤ n)
    (ht0 : 0 ≤ t) (ht : t ≤ n) : start_row (h / n) t = t * (h / n) := by
  have hb := mul_quot_le h n t h0 hn ht0 ht
  unfold start_row int_mul
  exact wrap_int_of_range _ (by unfold INT_MIN; omega) (by omega)

theorem end_row_last (h n q : Int) (hn : 1 ≤ n) (hnmax : n ≤ INT_MAX) :
    end_row h n q (n - 1) = h := by
  unfold end_row int_sub
  rw [wrap_int_of_range _ (by unfold INT_MIN; omega) (by omega)]
  simp

theorem end_row_inner (h n t : Int) (h0 : 0 ≤ h) (hmax : h ≤ INT_MAX) (hn : 1 ≤ n)
    (hnmax : n ≤ INT_MAX) (ht0 : 0 ≤ t) (ht : t < n - 1) :
    end_row h n (h / n) t = (t + 1) * (h / n) := by
  have hb := mul_quot_le h n (t + 1) h0 hn (by omega) (by omega)
  unfold end_row int_sub int_mul int_add
  rw [wrap_int_of_range (n - 1) (by unfold INT_MIN; omega) (by omega)]
  rw [if_neg (by omega)]
  rw [wrap_int_of_range (t + 1) (by unfold INT_MIN; omega) (by omega)]
  exact wrap_int_of_range _ (by unfold INT_MIN; omega) (by omega)

/-- The ranges of the workers `k, k+1, ..., n-1` follow one another from row
`k * (h / n)` to row `h`. -/
theorem row_chain_from (h n : Int) (h0 : 0 ≤ h) (hmax : h ≤ INT_MAX) (hn : 1 ≤ n)
    (hnmax : n ≤ INT_MAX) (len : Nat) :
    ∀ k : Nat, (k : Int) + len + 1 = n →
      row_chain ((k : Int) * (h / n)) h
        ((List.range' k (len + 1)).map fun (t : Nat) =>
          (start_row (h / n) (t : Int), end_row h n (h / n) (t : Int))) := by
  induction len with
  | zero =>
    intro k hk
    have hkn : (k : Int) = n - 1 := by
      simp only [Nat.cast_zero] at hk
      omega
    have hs := start_row_eq h n (n - 1) h0 hmax hn (by omega) (by omega)
    have hb := mul_quot_le h n (n - 1) h0 hn (by omega) (by omega)
    have he := end_row_last h n (h / n) hn hnmax
    show row_chain _ h [(start_row (h / n) (k : Int), end_row h n (h / n) (k : Int))]
    rw [hkn, hs, he]
    exact ⟨rfl, hb.2, rfl⟩
  | succ m ih =>
    intro k hk
    have hk2 : (k : Int) + m + 2 = n := by push_cast at hk; omega
    have hs := start_row_eq h n k h0 hmax hn (by omega) (by omega)
    have he := end_row_inner h n k h0 hmax hn hnmax (by omega) (by omega)
    have hq0 : 0 ≤ h / n := Int.ediv_nonneg h0 (by omega)
    have step := ih (k + 1) (by push_cast; omega)
    rw [List.range'_succ, List.map_cons]
    refine ⟨hs, ?_, ?_⟩
    · show start_row (h / n) (k : Int) ≤ end_row h n (h / n) (k : Int)
      rw [hs, he]
      nlinarith
    · show row_chain (end_row h n (h / n) (k : Int)) h _
      rw [he]
      have e : ((k : Int) + 1) = ((k + 1 : Nat) : Int) := by push_cast; rfl
      rw [e]
      exact step

/-- For a positive thread count the ranges handed out follow one another from
row `0` to row `image_height`. -/
theorem thread_ranges_chain (h n : Int) (h0 : 0 ≤ h) (hmax : h ≤ INT_MAX) (hn : 1 ≤ n)
    (hnmax : n ≤ INT_MAX) :
    ∃ ranges, thread_ranges h n = some ranges ∧ ranges.length = n.toNat ∧
      row_chain 0 h ranges := by
  refine ⟨(int_loop 0 n).map fun t => (start_row (h / n) t, end_row h n (h / n) t), ?_, ?_, ?_⟩
  · unfold thread_ranges
    rw [rows_per_thread_eq h n h0 hmax hn]
  · simp [length_int_loop]
  · obtain ⟨m, hm⟩ : ∃ m : Nat, n.toNat = m + 1 := ⟨n.toNat - 1, by omega⟩
    have key := row_chain_from h n h0 hmax hn hnmax m 0 (by omega)
    unfold int_loop
    rw [List.map_map, Int.sub_zero, hm, List.range_eq_range']
    have e : ((fun t => (start_row (h / n) t, end_row h n (h / n) t)) ∘
        fun (k : Nat) => (0 : Int) + (k : Int)) =
        fun (t : Nat) => (start_row (h / n) (t : Int), end_row h n (h / n) (t : Int)) := by
      funext t
      simp
    rw [e]
    simpa using key

/-! ### Consequences of ranges following one another -/

theorem row_chain_le (l : List (Int × Int)) : ∀ a b, row_chain a b l → a ≤ b := by
  induction l with
  | nil =>
    intro a b hc
    exact le_of_eq hc
  | cons rg rest ih =>
    intro a b hc
    obtain ⟨h1, h2, h3⟩ := hc
    have := ih _ _ h3
    omega

theorem row_chain_bounds (l : List (Int × Int)) :
    ∀ a b, row_chain a b l → ∀ rg ∈ l, a ≤ rg.1 ∧ rg.1 ≤ rg.2 ∧ rg.2 ≤ b := by
  induction l with
  | nil =>
    intro a b _ rg hrg
    simp at hrg
  | cons r rest ih =>
    intro a b hc rg hrg
    obtain ⟨h1, h2, h3⟩ := hc
    rcases List.mem_cons.mp hrg with e | hmem
    · subst e
      have := row_chain_le rest _ _ h3
      omega
    · have := ih _ _ h3 rg hmem
      omega

theorem row_chain_sum (l : List (Int × Int)) :
    ∀ a b, row_chain a b l → (l.map fun rg => rg.2 - rg.1).sum = b - a := by
  induction l with
  | nil =>
    intro a b hc
    have e : a = b := hc
    simp [e]
  | cons r rest ih =>
    intro a b hc
    obtain ⟨h1, _, h3⟩ := hc
    rw [List.map_cons, List.sum_cons, ih _ _ h3]
    omega

theorem row_chain_pairwise (l : List (Int × Int)) :
    ∀ a b, row_chain a b l → l.Pairwise fun r1 r2 => r1.2 ≤ r2.1 := by
  induction l with
  | nil =>
    intro a b _
    exact List.Pairwise.nil
  | cons r rest ih =>
    intro a b hc
    obtain ⟨_, _, h3⟩ := hc
    refine List.Pairwise.cons ?_ (ih _ _ h3)
    intro r2 hr2
    exact (row_chain_bounds rest _ _ h3 r2 hr2).1

theorem row_chain_disjoint (l : List (Int × Int)) (a b : Int) (hc : row_chain a b l) :
    l.Pairwise fun r1 r2 => ∀ row, ¬ (in_rows r1 row ∧ in_rows r2 row) := by
  refine (row_chain_pairwise l a b hc).imp ?_
  intro r1 r2 h row hboth
  unfold in_rows at hboth
  omega

theorem row_chain_cover (l : List (Int × Int)) :
    ∀ a b, row_chain a b l → ∀ row, a ≤ row → row < b → ∃ rg ∈ l, in_rows rg row := by
  induction l with
  | nil =>
    intro a b hc row h1 h2
    have e : a = b := hc
    omega
  | cons r rest ih =>
    intro a b hc row h1 h2
    obtain ⟨e1, _, h3⟩ := hc
    by_cases hr : row < r.2
    · exact ⟨r, List.mem_cons_self _ _, by unfold in_rows; omega⟩
    · obtain ⟨rg, hrg, hin⟩ := ih _ _ h3 row (by omega) h2
      exact ⟨rg, List.mem_cons_of_mem _ hrg, hin⟩

/-- Ranges that follow one another from `a` to `b` hold every row of `[a, b)`
at exactly one position of the list. -/
theorem row_chain_exactly_one (l : List (Int × Int)) (a b : Int) (hc : row_chain a b l)
    (row : Int) (h1 : a ≤ row) (h2 : row < b) :
    ∃! t : Fin l.length, in_rows (l.get t) row := by
  obtain ⟨rg, hrg, hin⟩ := row_chain_cover l a b hc row h1 h2
  obtain ⟨t, ht⟩ := List.get_of_mem hrg
  have hint : in_rows (l.get t) row := by rw [ht]; exact hin
  refine ⟨t, hint, ?_⟩
  intro s hs
  have hp := List.pairwise_iff_get.mp (row_chain_disjoint l a b hc)
  by_contra hne
  rcases lt_or_gt_of_ne hne with hlt | hgt
  · exact hp s t hlt row ⟨hs, hint⟩
  · exact hp t s hgt row ⟨hint, hs⟩

/-- The ranges handed out, written without machine arithmetic. -/
theorem thread_ranges_formula (h n : Int) (h0 : 0 ≤ h) (hmax : h ≤ INT_MAX) (hn : 1 ≤ n)
    (hnmax : n ≤ INT_MAX) :
    thread_ranges h n = some ((List.range n.toNat).map fun (t : Nat) =>
      ((t : Int) * (h / n), if (t : Int) = n - 1 then h else ((t : Int) + 1) * (h / n))) := by
  unfold thread_ranges
  rw [rows_per_thread_eq h n h0 hmax hn]
  unfold int_loop
  simp only [List.map_map, Int.sub_zero, Option.some.injEq]
  apply List.map_congr_left
  intro t ht
  have ht2 : (t : Int) < n := by
    have := List.mem_range.mp ht
    omega
  simp only [Function.comp, Int.zero_add]
  rw [start_row_eq h n t h0 hmax hn (by omega) (by omega)]
  by_cases hl : (t : Int) = n - 1
  · rw [if_pos hl, hl, end_row_last h n _ hn hnmax]
  · rw [if_neg hl, end_row_inner h n t h0 hmax hn hnmax (by omega) (by omega)]

/-! ## C1 : the row partition -/

/-- C1.  Row partition of `render_image_multithreaded`: for an `int`
`image_height ≥ 1` and `1 ≤ num_threads ≤ image_height`, the division
`image_height / num_threads` is defined (not by zero) and is the floor
quotient; the ranges `[start_row, end_row)` computed for
`t = 0, ..., num_threads - 1` are `[t * q, (t + 1) * q)` with the last one
ending at `image_height`; they follow one another from row `0` to row
`image_height` (contiguous), are pairwise disjoint, every row of
`[0, image_height)` lies in exactly one of them, and their sizes sum to
`image_height`. -/
theorem row_partition (image_height num_threads : Int)
    (hh : 1 ≤ image_height) (hmax : image_height ≤ INT_MAX)
    (hn : 1 ≤ num_threads) (hle : num_threads ≤ image_height) :
    ∃ ranges : List (Int × Int),
      rows_per_thread image_height num_threads = some (image_height / num_threads) ∧
      thread_ranges image_height num_threads = some ranges ∧
      ranges = ((List.range num_threads.toNat).map fun (t : Nat) =>
        ((t : Int) * (image_height / num_threads),
          if (t : Int) = num_threads - 1 then image_height
          else ((t : Int) + 1) * (image_height / num_threads))) ∧
      row_chain 0 image_height ranges ∧
      (ranges.Pairwise fun r1 r2 => ∀ row, ¬ (in_rows r1 row ∧ in_rows r2 row)) ∧
      (∀ row, 0 ≤ row → row < image_height →
        ∃! t : Fin ranges.length, in_rows (ranges.get t) row) ∧
      (ranges.map fun rg => rg.2 - rg.1).sum = image_height := by
  have h0 : 0 ≤ image_height := by omega
  have hnmax : num_threads ≤ INT_MAX := by omega
  obtain ⟨ranges, hr, _, hc⟩ := thread_ranges_chain image_height num_threads h0 hmax hn hnmax
  have hf := thread_ranges_formula image_height num_threads h0 hmax hn hnmax
  refine ⟨ranges, rows_per_thread_eq image_height num_threads h0 hmax hn, hr, ?_, hc,
    row_chain_disjoint ranges 0 image_height hc, ?_, ?_⟩
  · rw [hr] at hf
    exact Option.some.inj hf
  · intro row h1 h2
    exact row_chain_exactly_one ranges 0 image_height hc row h1 h2
  · rw [row_chain_sum ranges 0 image_height hc]
    omega

/-- C1 at `image_height = 101`, `num_threads = 7`. -/
theorem row_partition_witness :
    ((1 : Int) ≤ 101 ∧ (101 : Int) ≤ INT_MAX ∧ (1 : Int) ≤ 7 ∧ (7 : Int) ≤ 101) ∧
    ∃ ranges : List (Int × Int),
      rows_per_thread 101 7 = some (101 / 7) ∧
      thread_ranges 101 7 = some ranges ∧
      ranges = ((List.range (7 : Int).toNat).map fun (t : Nat) =>
        ((t : Int) * (101 / 7),
          if (t : Int) = 7 - 1 then 101 else ((t : Int) + 1) * (101 / 7))) ∧
      row_chain 0 101 ranges ∧
      (ranges.Pairwise fun r1 r2 => ∀ row, ¬ (in_rows r1 row ∧ in_rows r2 row)) ∧
      (∀ row, 0 ≤ row → row < 101 →
        ∃! t : Fin ranges.length, in_rows (ranges.get t) row) ∧
      (ranges.map fun rg => rg.2 - rg.1).sum = 101 :=
  ⟨by decide, row_partition 101 7 (by decide) (by decide) (by decide) (by decide)⟩

/-! ## C3 : the remainder rows -/

/-- C3.  Remainder rows go to the final worker: for `int`s `image_height ≥ 1`
and `num_threads ≥ 1`, `num_threads` ranges are handed out, every worker but
the last gets exactly `⌊image_height / num_threads⌋` rows, and the last worker
gets `⌊image_height / num_threads⌋ + image_height mod num_threads` rows. -/
theorem remainder_rows_to_last (image_height num_threads : Int)
    (hh : 1 ≤ image_height) (hmax : image_height ≤ INT_MAX)
    (hn : 1 ≤ num_threads) (hnmax : num_threads ≤ INT_MAX) :
    ∃ ranges : List (Int × Int),
      thread_ranges image_height num_threads = some ranges ∧
      ranges.length = num_threads.toNat ∧
      ∀ t : Fin ranges.length,
        (t.val + 1 < ranges.length →
          (ranges.get t).2 - (ranges.get t).1 = image_height / num_threads) ∧
        (t.val + 1 = ranges.length →
          (ranges.get t).2 - (ranges.get t).1 =
            image_height / num_threads + image_height % num_threads) := by
  have h0 : 0 ≤ image_height := by omega
  have hf := thread_ranges_formula image_height num_threads h0 hmax hn hnmax
  refine ⟨_, hf, by simp, ?_⟩
  intro t
  have hlen : t.val < num_threads.toNat := by
    have := t.isLt
    simpa using this
  have hdiv := Int.ediv_add_emod image_height num_threads
  simp only [List.get_eq_getElem, List.getElem_map, List.getElem_range, List.length_map,
    List.length_range]
  constructor
  · intro ht
    rw [if_neg (by omega)]
    ring
  · intro ht
    have e : (t.val : Int) = num_threads - 1 := by omega
    rw [if_pos e, e]
    linear_combination (-1 : Int) * hdiv

/-- C3 at `image_height = 10`, `num_threads = 3`. -/
theorem remainder_rows_to_last_witness :
    ((1 : Int) ≤ 10 ∧ (10 : Int) ≤ INT_MAX ∧ (1 : Int) ≤ 3 ∧ (3 : Int) ≤ INT_MAX) ∧
    ∃ ranges : List (Int × Int),
      thread_ranges 10 3 = some ranges ∧
      ranges.length = (3 : Int).toNat ∧
      ∀ t : Fin ranges.length,
        (t.val + 1 < ranges.length →
          (ranges.get t).2 - (ranges.get t).1 = 10 / 3) ∧
        (t.val + 1 = ranges.length →
          (ranges.get t).2 - (ranges.get t).1 = 10 / 3 + 10 % 3) :=
  ⟨by decide, remainder_rows_to_last 10 3 (by decide) (by decide) (by decide) (by decide)⟩


/-! ## Counting loops -/

theorem int_loop_eq_range' (lo hi : Int) :
    int_loop lo hi = (List.range' 0 (hi - lo).toNat).map fun (k : Nat) => lo + (k : Int) := by
  unfold int_loop
  rw [List.range_eq_range']

theorem int_loop_append (a b c : Int) (hab : a ≤ b) (hbc : b ≤ c) :
    int_loop a b ++ int_loop b c = int_loop a c := by
  rw [int_loop_eq_range' a b, int_loop_eq_range' b c, int_loop_eq_range' a c]
  have e1 : (c - a).toNat = (c - b).toNat + (b - a).toNat := by omega
  rw [e1, ← List.range'_append 0 (b - a).toNat (c - b).toNat 1, List.map_append]
  congr 1
  rw [List.range'_eq_map_range (0 + 1 * (b - a).toNat), List.range'_eq_map_range 0,
    List.map_map, List.map_map]
  apply List.map_congr_left
  intro k _
  simp only [Function.comp]
  push_cast
  omega

theorem int_loop_empty (a b : Int) (h : b ≤ a) : int_loop a b = [] := by
  unfold int_loop
  have : (b - a).toNat = 0 := by omega
  rw [this]
  rfl

theorem int_loop_map_add (b w : Int) :
    (int_loop 0 w).map (fun i => b + i) = int_loop b (b + w) := by
  unfold int_loop
  rw [List.map_map]
  have : (b + w - b).toNat = (w - 0).toNat := by omega
  rw [this]
  apply List.map_congr_left
  intro k _
  simp

theorem int_loop_nodup (a b : Int) : (int_loop a b).Nodup := by
  unfold int_loop
  refine List.Nodup.map ?_ (List.nodup_range _)
  intro x y hxy
  simp only at hxy
  omega

/-! ## Loops that thread the random source -/

/-- What a state-threading loop has appended, seen through a projection that
does not depend on the state. -/
theorem foldl_thread_map {α β γ G : Type} (F : α → G → List β × G) (π : β → γ)
    (idx : α → List γ) (l : List α) :
    (∀ x ∈ l, ∀ g, (F x g).1.map π = idx x) →
    ∀ (init : List β) (g : G),
      ((l.foldl (fun (acc : List β × G) x => (acc.1 ++ (F x acc.2).1, (F x acc.2).2))
        (init, g)).1).map π = init.map π ++ l.flatMap idx := by
  induction l with
  | nil =>
    intro _ init g
    simp
  | cons x xs ih =>
    intro hF init g
    rw [List.foldl_cons, ih (fun y hy => hF y (List.mem_cons_of_mem _ hy)), List.map_append,
      hF x (List.mem_cons_self _ _), List.flatMap_cons, List.append_assoc]

/-- Every entry appended by a state-threading loop was returned by one of its
rounds. -/
theorem foldl_thread_mem {α β G : Type} (F : α → G → List β × G) (l : List α) :
    ∀ (init : List β) (g : G) (b : β),
      b ∈ (l.foldl (fun (acc : List β × G) x => (acc.1 ++ (F x acc.2).1, (F x acc.2).2))
        (init, g)).1 →
      b ∈ init ∨ ∃ x ∈ l, ∃ g1, b ∈ (F x g1).1 := by
  induction l with
  | nil =>
    intro init g b hb
    exact Or.inl hb
  | cons x xs ih =>
    intro init g b hb
    rw [List.foldl_cons] at hb
    rcases ih _ _ b hb with h | ⟨y, hy, g1, h⟩
    · rcases List.mem_append.mp h with h1 | h2
      · exact Or.inl h1
      · exact Or.inr ⟨x, List.mem_cons_self _ _, g, h2⟩
    · exact Or.inr ⟨y, List.mem_cons_of_mem _ hy, g1, h⟩

/-- Every round of a state-threading loop leaves what it returned in the
result. -/
theorem foldl_thread_round {α β G : Type} (F : α → G → List β × G) (l : List α) :
    ∀ (init : List β) (g : G),
      (∀ b ∈ init, b ∈ (l.foldl (fun (acc : List β × G) x =>
        (acc.1 ++ (F x acc.2).1, (F x acc.2).2)) (init, g)).1) ∧
      ∀ x ∈ l, ∃ g1, ∀ b ∈ (F x g1).1,
        b ∈ (l.foldl (fun (acc : List β × G) x => (acc.1 ++ (F x acc.2).1, (F x acc.2).2))
          (init, g)).1 := by
  induction l with
  | nil =>
    intro init g
    exact ⟨fun b hb => hb, fun x hx => absurd hx (List.not_mem_nil x)⟩
  | cons x xs ih =>
    intro init g
    obtain ⟨h1, h2⟩ := ih (init ++ (F x g).1) (F x g).2
    rw [List.foldl_cons]
    refine ⟨fun b hb => h1 b (List.mem_append_left _ hb), ?_⟩
    intro y hy
    rcases List.mem_cons.mp hy with e | hmem
    · subst e
      exact ⟨g, fun b hb => h1 b (List.mem_append_right _ hb)⟩
    · exact h2 y hmem

section indices

variable {K G M : Type} [LinearOrderedField K]

theorem render_row_eq (lib : library K G M) (c : camera K) (world : hittable K G M)
    (j : Int) (g : G) :
    render_row lib c world j g =
      (int_loop 0 c.image_width).foldl
        (fun (acc : List (Int × color K) × G) i =>
          (acc.1 ++ [(render_pixel lib c world i j acc.2).1],
            (render_pixel lib c world i j acc.2).2))
        ([], g) := rfl

theorem render_section_eq (lib : library K G M) (c : camera K) (start stop : Int)
    (world : hittable K G M) (g : G) :
    render_section lib c start stop world g =
      (int_loop start stop).foldl
        (fun (acc : List (Int × color K) × G) j =>
          (acc.1 ++ (render_row lib c world j acc.2).1, (render_row lib c world j acc.2).2))
        ([], g) := rfl

theorem run_workers_eq (lib : library K G M) (c : camera K) (world : hittable K G M)
    (ranges : List (Int × Int)) (g : G) :
    run_workers lib c world ranges g =
      ranges.foldl
        (fun (acc : List (List (Int × color K)) × G) rg =>
          (acc.1 ++ [(render_section lib c rg.1 rg.2 world acc.2).1],
            (render_section lib c rg.1 rg.2 world acc.2).2))
        ([], g) := rfl

theorem render_pixel_index (lib : library K G M) (c : camera K) (world : hittable K G M)
    (i j : Int) (g : G) :
    (render_pixel lib c world i j g).1.1 = int_add (int_mul j c.image_width) i := rfl

/-- The indices written for one row, when `(j + 1) * image_width` fits an `int`. -/
theorem render_row_indices (lib : library K G M) (c : camera K) (world : hittable K G M)
    (j : Int) (g : G) (hw : 0 ≤ c.image_width) (hj : 0 ≤ j)
    (hfit : (j + 1) * c.image_width ≤ INT_MAX) :
    (render_row lib c world j g).1.map Prod.fst =
      int_loop (j * c.image_width) ((j + 1) * c.image_width) := by
  have hjw : 0 ≤ j * c.image_width := Int.mul_nonneg hj hw
  have hexp : (j + 1) * c.image_width = j * c.image_width + c.image_width := by ring
  rw [render_row_eq]
  rw [foldl_thread_map
    (fun i g1 => ([(render_pixel lib c world i j g1).1], (render_pixel lib c world i j g1).2))
    Prod.fst (fun i => [j * c.image_width + i])]
  · rw [List.map_nil, List.nil_append, hexp, ← int_loop_map_add]
    generalize int_loop 0 c.image_width = l
    induction l with
    | nil => rfl
    | cons a t ih => rw [List.flatMap_cons, List.map_cons, ih]; rfl
  · intro i hi g1
    have hi2 := (mem_int_loop 0 c.image_width i).mp hi
    show [(render_pixel lib c world i j g1).1.1] = _
    rw [render_pixel_index]
    unfold int_add int_mul
    rw [wrap_int_of_range (j * c.image_width) (by unfold INT_MIN; omega) (by omega)]
    rw [wrap_int_of_range _ (by unfold INT_MIN; omega) (by omega)]

/-- Consecutive rows hold consecutive blocks of indices. -/
theorem rows_flatMap (w s : Int) (hw : 0 ≤ w) (n : Nat) :
    (List.range n).flatMap (fun (k : Nat) =>
      int_loop ((s + (k : Int)) * w) ((s + (k : Int) + 1) * w)) =
      int_loop (s * w) ((s + (n : Int)) * w) := by
  induction n with
  | zero =>
    simp only [List.range_zero, List.flatMap_nil, Nat.cast_zero, Int.add_zero]
    exact (int_loop_empty _ _ (le_refl _)).symm
  | succ m ih =>
    rw [List.range_succ, List.flatMap_append, ih, List.flatMap_singleton]
    have e : (s + ((m + 1 : Nat) : Int)) * w = (s + (m : Int) + 1) * w := by push_cast; ring
    rw [e]
    apply int_loop_append
    · have : 0 ≤ (m : Int) * w := Int.mul_nonneg (by omega) hw
      nlinarith
    · nlinarith

/-- The indices written by `render_section` for the rows `[start, stop)`, when
`stop * image_width` fits an `int`. -/
theorem render_section_indices (lib : library K G M) (c : camera K)
    (world : hittable K G M) (start stop : Int) (g : G) (hw : 0 ≤ c.image_width)
    (hs : 0 ≤ start) (hle : start ≤ stop) (hfit : stop * c.image_width ≤ INT_MAX) :
    (render_section lib c start stop world g).1.map Prod.fst =
      int_loop (start * c.image_width) (stop * c.image_width) := by
  rw [render_section_eq]
  rw [foldl_thread_map
    (fun j g1 => render_row lib c world j g1) Prod.fst
    (fun j => int_loop (j * c.image_width) ((j + 1) * c.image_width))]
  · rw [List.map_nil, List.nil_append]
    unfold int_loop
    rw [List.flatMap_map]
    have key := rows_flatMap c.image_width start hw (stop - start).toNat
    have e : start + ((stop - start).toNat : Int) = stop := by omega
    rw [e] at key
    unfold int_loop at key
    exact key
  · intro j hj g1
    have hj2 := (mem_int_loop start stop j).mp hj
    apply render_row_indices lib c world j g1 hw (by omega)
    have : (j + 1) * c.image_width ≤ stop * c.image_width :=
      Int.mul_le_mul_of_nonneg_right (by omega) hw
    omega

/-- The indices written by the workers, worker by worker, for row ranges that
follow one another from `a` to `b`. -/
theorem run_workers_indices (lib : library K G M) (c : camera K) (world : hittable K G M)
    (ranges : List (Int × Int)) (a b : Int) (g : G) (hc : row_chain a b ranges)
    (hw : 0 ≤ c.image_width) (ha : 0 ≤ a) (hfit : b * c.image_width ≤ INT_MAX) :
    (run_workers lib c world ranges g).1.map (List.map Prod.fst) =
      ranges.map fun rg => int_loop (rg.1 * c.image_width) (rg.2 * c.image_width) := by
  rw [run_workers_eq]
  rw [foldl_thread_map
    (fun (rg : Int × Int) g1 => ([(render_section lib c rg.1 rg.2 world g1).1],
      (render_section lib c rg.1 rg.2 world g1).2))
    (List.map Prod.fst)
    (fun rg => [int_loop (rg.1 * c.image_width) (rg.2 * c.image_width)])]
  · rw [List.map_nil, List.nil_append]
    generalize ranges = l
    induction l with
    | nil => rfl
    | cons x t ih => rw [List.flatMap_cons, List.map_cons, ih]; rfl
  · intro rg hrg g1
    have hb := row_chain_bounds ranges a b hc rg hrg
    show [(render_section lib c rg.1 rg.2 world g1).1.map Prod.fst] = _
    rw [render_section_indices lib c world rg.1 rg.2 g1 hw (by omega) hb.2.1]
    have : rg.2 * c.image_width ≤ b * c.image_width :=
      Int.mul_le_mul_of_nonneg_right hb.2.2 hw
    omega

/-- Blocks of indices for ranges that follow one another join into one block. -/
theorem row_chain_flatten (w : Int) (hw : 0 ≤ w) (l : List (Int × Int)) :
    ∀ a b, row_chain a b l →
      (l.map fun rg => int_loop (rg.1 * w) (rg.2 * w)).flatten = int_loop (a * w) (b * w) := by
  induction l with
  | nil =>
    intro a b hc
    have e : a = b := hc
    rw [e]
    exact (int_loop_empty _ _ (le_refl _)).symm
  | cons r rest ih =>
    intro a b hc
    obtain ⟨h1, h2, h3⟩ := hc
    rw [List.map_cons, List.flatten_cons, ih _ _ h3, h1]
    apply int_loop_append
    · rw [← h1]
      exact Int.mul_le_mul_of_nonneg_right h2 hw
    · exact Int.mul_le_mul_of_nonneg_right (row_chain_le rest _ _ h3) hw

end indices

/-! ## The framebuffer -/

section framebuffer

variable {K G M : Type} [LinearOrderedField K]

theorem length_resize (framebuffer : List (color K)) (n : Nat) :
    (resize framebuffer n).length = n := by
  unfold resize
  rw [List.length_append, List.length_take, List.length_replicate]
  omega

omit [LinearOrderedField K] in
theorem store_some (framebuffer : List (color K)) (wr : Int × color K)
    (h : int_to_size_t wr.1 < framebuffer.length) :
    store framebuffer wr = some (framebuffer.set (int_to_size_t wr.1) wr.2) := by
  unfold store
  rw [if_pos h]

omit [LinearOrderedField K] in
/-- An assignment that has a result was made inside the vector. -/
theorem store_eq_some (framebuffer fb1 : List (color K)) (wr : Int × color K)
    (h : store framebuffer wr = some fb1) :
    int_to_size_t wr.1 < framebuffer.length ∧
      fb1 = framebuffer.set (int_to_size_t wr.1) wr.2 := by
  unfold store at h
  by_cases hb : int_to_size_t wr.1 < framebuffer.length
  · rw [if_pos hb] at h
    exact ⟨hb, (Option.some.inj h).symm⟩
  · rw [if_neg hb] at h
    exact absurd h (by simp)

omit [LinearOrderedField K] in
theorem store_all_nil (framebuffer : List (color K)) :
    store_all [] framebuffer = some framebuffer := rfl

omit [LinearOrderedField K] in
/-- A list of assignments has a result exactly when the first one has and
the others, made after it, have. -/
theorem store_all_cons (wr : Int × color K) (log : List (Int × color K))
    (framebuffer fb1 : List (color K)) :
    store_all (wr :: log) framebuffer = some fb1 ↔
      ∃ fb2, store framebuffer wr = some fb2 ∧ store_all log fb2 = some fb1 := by
  rw [store_all]
  cases store framebuffer wr with
  | none => simp
  | some fb2 => simp

omit [LinearOrderedField K] in
theorem length_store (framebuffer fb1 : List (color K)) (wr : Int × color K)
    (h : store framebuffer wr = some fb1) : fb1.length = framebuffer.length := by
  rw [(store_eq_some framebuffer fb1 wr h).2]
  exact List.length_set _ _ _

omit [LinearOrderedField K] in
theorem length_store_all (log : List (Int × color K)) :
    ∀ framebuffer fb1 : List (color K), store_all log framebuffer = some fb1 →
      fb1.length = framebuffer.length := by
  induction log with
  | nil =>
    intro fb fb1 h
    rw [store_all_nil] at h
    rw [← Option.some.inj h]
  | cons wr rest ih =>
    intro fb fb1 h
    obtain ⟨fb2, h1, h2⟩ := (store_all_cons wr rest fb fb1).mp h
    rw [ih fb2 fb1 h2, length_store fb fb2 wr h1]

omit [LinearOrderedField K] in
/-- Assignments that are all inside the vector have a result. -/
theorem store_all_defined (log : List (Int × color K)) :
    ∀ framebuffer : List (color K),
      (∀ wr ∈ log, int_to_size_t wr.1 < framebuffer.length) →
      ∃ fb1, store_all log framebuffer = some fb1 := by
  induction log with
  | nil =>
    intro fb _
    exact ⟨fb, rfl⟩
  | cons wr rest ih =>
    intro fb h
    have h1 := store_some fb wr (h wr (List.mem_cons_self _ _))
    obtain ⟨fb1, h2⟩ := ih (fb.set (int_to_size_t wr.1) wr.2) (by
      intro w hw
      rw [List.length_set]
      exact h w (List.mem_cons_of_mem _ hw))
    exact ⟨fb1, (store_all_cons wr rest fb fb1).mpr ⟨_, h1, h2⟩⟩

omit [LinearOrderedField K] in
/-- Assignments that have a result were all made inside the vector. -/
theorem store_all_bounds (log : List (Int × color K)) :
    ∀ framebuffer fb1 : List (color K), store_all log framebuffer = some fb1 →
      ∀ wr ∈ log, int_to_size_t wr.1 < framebuffer.length := by
  induction log with
  | nil =>
    intro fb fb1 _ wr hwr
    exact absurd hwr (List.not_mem_nil wr)
  | cons w rest ih =>
    intro fb fb1 h wr hwr
    obtain ⟨fb2, h1, h2⟩ := (store_all_cons w rest fb fb1).mp h
    rcases List.mem_cons.mp hwr with e | hmem
    · rw [e]
      exact (store_eq_some fb fb2 w h1).1
    · rw [← length_store fb fb2 w h1]
      exact ih fb2 fb1 h2 wr hmem

/-- Reads that are all inside the vector have a result: the entries read. -/
theorem load_all_defined (idxs : List Int) (framebuffer : List (color K))
    (h : ∀ k ∈ idxs, int_to_size_t k < framebuffer.length) :
    load_all idxs framebuffer =
      some (idxs.map fun k => framebuffer.getD (int_to_size_t k) ⟨0, 0, 0⟩) := by
  induction idxs with
  | nil => rfl
  | cons k rest ih =>
    have hk := h k (List.mem_cons_self _ _)
    have e : load framebuffer k = some (framebuffer.getD (int_to_size_t k) ⟨0, 0, 0⟩) := by
      unfold load
      rw [List.getD_eq_getElem?_getD, List.getElem?_eq_getElem hk]
      rfl
    rw [load_all, e, ih (fun x hx => h x (List.mem_cons_of_mem _ hx))]
    rfl

/-- Reads that have a result were all made inside the vector. -/
theorem load_all_some (idxs : List Int) (framebuffer : List (color K)) :
    ∀ values : List (color K), load_all idxs framebuffer = some values →
      (∀ k ∈ idxs, int_to_size_t k < framebuffer.length) ∧
      values = idxs.map fun k => framebuffer.getD (int_to_size_t k) ⟨0, 0, 0⟩ := by
  induction idxs with
  | nil =>
    intro values h
    exact ⟨fun k hk => absurd hk (List.not_mem_nil k), (Option.some.inj h).symm⟩
  | cons k rest ih =>
    intro values h
    rw [load_all] at h
    cases hl : load framebuffer k with
    | none =>
      rw [hl] at h
      exact absurd h (by simp)
    | some value =>
      rw [hl] at h
      cases hr : load_all rest framebuffer with
      | none =>
        rw [hr] at h
        exact absurd h (by simp)
      | some vs =>
        rw [hr] at h
        obtain ⟨hb, hv⟩ := ih vs hr
        have hk : int_to_size_t k < framebuffer.length := by
          unfold load at hl
          by_contra hcon
          rw [List.getElem?_eq_none_iff.mpr (by omega)] at hl
          exact absurd hl (by simp)
        have hall : ∀ x ∈ k :: rest, int_to_size_t x < framebuffer.length := by
          intro x hx
          rcases List.mem_cons.mp hx with e | hm
          · rw [e]
            exact hk
          · exact hb x hm
        refine ⟨hall, ?_⟩
        have := load_all_defined (k :: rest) framebuffer hall
        rw [load_all, hl, hr] at this
        exact Option.some.inj (((Option.some.inj h).symm ▸ this : some values = _))

theorem int_to_size_t_of_nonneg (x : Int) (h0 : 0 ≤ x) (h1 : x ≤ INT_MAX) :
    int_to_size_t x = x.toNat := by
  unfold int_to_size_t
  unfold INT_MAX at h1
  rw [Int.emod_eq_of_lt h0 (by omega)]

/-- The workers' writes for a camera whose pixel count fits an `int`. -/
theorem run_workers_writes (lib : library K G M) (c : camera K) (world : hittable K G M)
    (num_threads : Int) (g : G) (hw : 1 ≤ c.image_width) (hh : 1 ≤ c.image_height)
    (hfit : c.image_width * c.image_height ≤ INT_MAX)
    (hn : 1 ≤ num_threads) (hnmax : num_threads ≤ INT_MAX) :
    ∃ ranges : List (Int × Int),
      thread_ranges c.image_height num_threads = some ranges ∧
      ranges.length = num_threads.toNat ∧
      row_chain 0 c.image_height ranges ∧
      (run_workers lib c world ranges g).1.map (List.map Prod.fst) =
        (ranges.map fun rg => int_loop (rg.1 * c.image_width) (rg.2 * c.image_width)) ∧
      (run_workers lib c world ranges g).1.flatten.map Prod.fst =
        int_loop 0 (c.image_width * c.image_height) := by
  have hhmax : c.image_height ≤ INT_MAX := by nlinarith
  obtain ⟨ranges, hr, hlen, hc⟩ :=
    thread_ranges_chain c.image_height num_threads (by omega) hhmax hn hnmax
  have hfit2 : c.image_height * c.image_width ≤ INT_MAX := by rw [Int.mul_comm]; exact hfit
  have hidx := run_workers_indices lib c world ranges 0 c.image_height g hc (by omega)
    (le_refl _) hfit2
  refine ⟨ranges, hr, hlen, hc, hidx, ?_⟩
  rw [List.map_flatten, hidx, row_chain_flatten c.image_width (by omega) ranges 0 _ hc,
    Int.zero_mul, Int.mul_comm]

/-- Reading a list at `0, 1, ..., length - 1` gives the list back. -/
theorem map_getD_int_loop (l : List (color K)) (n : Int) (hn : (l.length : Int) = n)
    (hmax : n ≤ INT_MAX) :
    (int_loop 0 n).map (fun k => l.getD (int_to_size_t k) ⟨0, 0, 0⟩) = l := by
  apply List.ext_getElem
  · rw [List.length_map, length_int_loop]
    omega
  · intro k h1 h2
    have h3 : k < (int_loop 0 n).length := by simpa using h1
    have hk : (int_loop 0 n)[k] = (k : Int) := by
      unfold int_loop
      simp
    rw [List.getElem_map, hk, int_to_size_t_of_nonneg _ (by omega) (by omega)]
    simp [List.getD_eq_getElem?_getD, h2]

end framebuffer

theorem rows_blocks (w start stop : Int) (hw : 0 ≤ w) (hle : start ≤ stop) :
    (int_loop start stop).flatMap (fun j => int_loop (j * w) ((j + 1) * w)) =
      int_loop (start * w) (stop * w) := by
  have key := rows_flatMap w start hw (stop - start).toNat
  have e : start + ((stop - start).toNat : Int) = stop := by omega
  rw [e] at key
  unfold int_loop
  rw [List.flatMap_map]
  unfold int_loop at key
  exact key

/-- The two output loops read the indices `0, 1, ..., image_width *
image_height - 1` in this order, when the pixel count fits an `int`. -/
theorem output_loops_read (α : Type) (F : Int → α) (w h : Int) (hw : 1 ≤ w) (hh : 0 ≤ h)
    (hfit : w * h ≤ INT_MAX) :
    ((int_loop 0 h).flatMap fun j =>
      (int_loop 0 w).map fun i => F (int_add (int_mul j w) i)) =
      (int_loop 0 (w * h)).map F := by
  have hrow : ∀ j ∈ int_loop 0 h,
      ((int_loop 0 w).map fun i => F (int_add (int_mul j w) i)) =
        (int_loop (j * w) ((j + 1) * w)).map F := by
    intro j hj
    have hj2 := (mem_int_loop 0 h j).mp hj
    have hexp : (j + 1) * w = j * w + w := by ring
    have hjw : 0 ≤ j * w := Int.mul_nonneg hj2.1 (by omega)
    have hle : (j + 1) * w ≤ h * w := Int.mul_le_mul_of_nonneg_right (by omega) (by omega)
    have hcomm : h * w = w * h := Int.mul_comm h w
    rw [hexp, ← int_loop_map_add, List.map_map]
    apply List.map_congr_left
    intro i hi
    have hi2 := (mem_int_loop 0 w i).mp hi
    simp only [Function.comp]
    unfold int_add int_mul
    rw [wrap_int_of_range (j * w) (by unfold INT_MIN; omega) (by omega)]
    rw [wrap_int_of_range _ (by unfold INT_MIN; omega) (by omega)]
  rw [List.flatMap_congr hrow, ← List.map_flatMap, rows_blocks w 0 h (by omega) hh,
    Int.zero_mul, Int.mul_comm h w]


/-! ## The derived image height -/

section height

variable {K G M : Type} [LinearOrderedField K] [FloorRing K]

theorem initialize_image_width (lib : library K G M) (c : camera K) :
    (initialize_camera lib c).image_width = c.image_width := rfl

theorem initialize_image_height (lib : library K G M) (c : camera K) :
    (initialize_camera lib c).image_height =
      if double_to_int (round_to_double ((c.image_width : K) / c.aspect_ratio)) < 1 then 1
      else double_to_int (round_to_double ((c.image_width : K) / c.aspect_ratio)) := rfl

theorem round_half_even_intCast (m : Int) : round_half_even ((m : Int) : K) = m := by
  unfold round_half_even
  simp only [Int.floor_intCast, sub_self]
  rw [if_pos (by norm_num)]

/-- A dyadic number with a numerator of at most 53 bits is a `double`:
rounding leaves it as it is. -/
theorem round_to_double_dyadic (z : Int) (k : Nat) (hz : |z| < 2 ^ 53) :
    round_to_double ((z : K) / 2 ^ k) = (z : K) / 2 ^ k := by
  by_cases h0 : z = 0
  · subst h0
    simp [round_to_double]
  have hzK : (z : K) ≠ 0 := by exact_mod_cast h0
  have hx : (z : K) / 2 ^ k ≠ 0 := div_ne_zero hzK (by positivity)
  unfold round_to_double
  rw [if_neg hx]
  set x : K := (z : K) / 2 ^ k with hxdef
  have hpos : 0 < |x| := abs_pos.mpr hx
  have h1 := Int.zpow_log_le_self (b := 2) (by norm_num) hpos
  have habs : |x| < (2 : K) ^ (53 - (k : Int)) := by
    rw [hxdef, abs_div, abs_of_pos (show (0 : K) < 2 ^ k by positivity)]
    rw [zpow_sub₀ (by norm_num), zpow_natCast]
    rw [div_lt_div_iff_of_pos_right (by positivity)]
    have : ((|z| : Int) : K) < ((2 ^ 53 : Int) : K) := by exact_mod_cast hz
    rw [Int.cast_abs] at this
    have h2 : ((2 ^ 53 : Int) : K) = 2 ^ 53 := by norm_num
    rw [h2] at this
    exact_mod_cast this
  have hlt : ((2 : Nat) : K) ^ Int.log 2 |x| < ((2 : Nat) : K) ^ (53 - (k : Int)) := by
    push_cast
    push_cast at h1
    exact lt_of_le_of_lt h1 habs
  have hL : Int.log 2 |x| < 53 - (k : Int) :=
    (zpow_lt_zpow_iff_right₀ (show (1 : K) < ((2 : Nat) : K) by norm_num)).mp hlt
  obtain ⟨n, hn⟩ : ∃ n : Nat, (n : Int) = 52 - (k : Int) - Int.log 2 |x| :=
    ⟨(52 - (k : Int) - Int.log 2 |x|).toNat, by omega⟩
  have he : Int.log 2 |x| - 52 = -((n : Int) + k) := by omega
  simp only [he]
  have hq : x / (2 : K) ^ (-((n : Int) + k)) = ((z * 2 ^ n : Int) : K) := by
    rw [hxdef, zpow_neg, zpow_add₀ (by norm_num), zpow_natCast, zpow_natCast]
    push_cast
    field_simp
    ring
  rw [hq, round_half_even_intCast]
  rw [hxdef, zpow_neg, zpow_add₀ (by norm_num), zpow_natCast, zpow_natCast]
  push_cast
  field_simp
  ring

/-- An integer of at most 53 bits is a `double`. -/
theorem round_to_double_intCast (z : Int) (hz : |z| < 2 ^ 53) :
    round_to_double (z : K) = (z : K) := by
  have h := round_to_double_dyadic (K := K) z 0 hz
  rw [pow_zero, div_one] at h
  exact h

/-- Rounding to a `double` keeps the sign of a non-negative number. -/
theorem round_to_double_nonneg (x : K) (h : 0 ≤ x) : 0 ≤ round_to_double x := by
  unfold round_to_double
  split
  · exact le_refl _
  · simp only
    have hp : (0 : K) < (2 : K) ^ (Int.log 2 |x| - 52) := zpow_pos (by norm_num) _
    apply mul_nonneg _ (le_of_lt hp)
    have hq : 0 ≤ x / (2 : K) ^ (Int.log 2 |x| - 52) := div_nonneg h (le_of_lt hp)
    have hf : 0 ≤ Int.floor (x / (2 : K) ^ (Int.log 2 |x| - 52)) := Int.floor_nonneg.mpr hq
    have : 0 ≤ round_half_even (x / (2 : K) ^ (Int.log 2 |x| - 52)) := by
      unfold round_half_even
      simp only
      split
      · exact hf
      · split
        · omega
        · split <;> omega
    exact_mod_cast this

/-- The binary exponent of a positive number. -/
theorem int_log_two_eq (x : K) (l : Int) (hx : 0 < x) (h1 : (2 : K) ^ l ≤ x)
    (h2 : x < (2 : K) ^ (l + 1)) : Int.log 2 x = l := by
  have a : l ≤ Int.log 2 x := by
    apply (Int.zpow_le_iff_le_log (b := 2) (by norm_num) hx).mp
    exact_mod_cast h1
  have b : Int.log 2 x < l + 1 := by
    apply (Int.lt_zpow_iff_log_lt (b := 2) (by norm_num) hx).mp
    exact_mod_cast h2
  omega

/-- `int(x)` of a non-negative `x` whose integer part fits an `int`. -/
theorem double_to_int_of_nonneg (x : K) (h0 : 0 ≤ x) (hfit : Int.floor x ≤ INT_MAX) :
    double_to_int x = Int.floor x := by
  unfold double_to_int
  rw [if_pos h0]
  have : 0 ≤ Int.floor x := Int.floor_nonneg.mpr h0
  exact wrap_int_of_range _ (by unfold INT_MIN; omega) hfit

/-- `int(x)` for an integer-valued `x` that fits an `int`. -/
theorem double_to_int_intCast (z : Int) (h0 : 0 ≤ z) (hfit : z ≤ INT_MAX) :
    double_to_int (z : K) = z := by
  rw [double_to_int_of_nonneg (z : K) (by exact_mod_cast h0) (by rw [Int.floor_intCast]; exact hfit),
    Int.floor_intCast]

/-- The image height when the exact quotient `image_width / aspect_ratio` is
an integer `z` with `1 ≤ z ≤ INT_MAX`: the quotient is a `double`, and the
height is `z`. -/
theorem initialize_height_of_integer (lib : library K G M) (c : camera K) (z : Int)
    (hq : (c.image_width : K) / c.aspect_ratio = (z : K)) (h1 : 1 ≤ z) (hfit : z ≤ INT_MAX) :
    (initialize_camera lib c).image_height = z := by
  have hz : |z| < 2 ^ 53 := by
    unfold INT_MAX at hfit
    rw [abs_of_nonneg (by omega)]
    omega
  rw [initialize_image_height, hq, round_to_double_intCast z hz,
    double_to_int_intCast z (by omega) hfit, if_neg (by omega)]

end height

theorem height_4x2 : (initialize_camera demo_library camera_4x2).image_height = 2 := by
  apply initialize_height_of_integer demo_library camera_4x2 2 _ (by decide) (by decide)
  show (((4 : Int) : ℚ) / 2) = ((2 : Int) : ℚ)
  norm_num


/-! ## C2 : who writes which framebuffer entry -/

section ownership

variable {K G M : Type} [LinearOrderedField K] [FloorRing K]

theorem int_mul_checked_some (a b n : Int) (h : int_mul_checked a b = some n) :
    n = a * b ∧ INT_MIN ≤ a * b ∧ a * b ≤ INT_MAX := by
  unfold int_mul_checked at h
  by_cases hb : INT_MIN ≤ a * b ∧ a * b ≤ INT_MAX
  · rw [if_pos hb] at h
    exact ⟨(Option.some.inj h).symm, hb⟩
  · rw [if_neg hb] at h
    exact absurd h (by simp)

theorem int_mul_checked_of_range (a b : Int) (h1 : INT_MIN ≤ a * b) (h2 : a * b ≤ INT_MAX) :
    int_mul_checked a b = some (a * b) := by
  unfold int_mul_checked
  rw [if_pos ⟨h1, h2⟩]

/-- A pixel count beyond the `int` range: `render_image_multithreaded` has no
result, whatever the framebuffer, the scene and the number of threads. -/
theorem render_overflow (lib : library K G M) (c0 : camera K)
    (framebuffer : List (color K)) (world : hittable K G M) (num_threads : Int) (g : G)
    (h : INT_MAX < (initialize_camera lib c0).image_width *
      (initialize_camera lib c0).image_height) :
    render_image_multithreaded lib c0 framebuffer world num_threads g = none := by
  have e : int_mul_checked (initialize_camera lib c0).image_width
      (initialize_camera lib c0).image_height = none := by
    unfold int_mul_checked
    rw [if_neg (by omega)]
  unfold render_image_multithreaded
  simp only [e]

/-- What a render that returns has done: the pixel count is inside the `int`
range, the workers' assignments were all made inside the resized framebuffer,
and so were the reads of the output loops. -/
theorem render_some (lib : library K G M) (c0 : camera K)
    (framebuffer : List (color K)) (world : hittable K G M) (num_threads : Int) (g : G)
    (out : render_output K G)
    (h : render_image_multithreaded lib c0 framebuffer world num_threads g = some out) :
    0 ≤ (initialize_camera lib c0).image_width * (initialize_camera lib c0).image_height ∧
    (initialize_camera lib c0).image_width * (initialize_camera lib c0).image_height
      ≤ INT_MAX ∧
    ∃ ranges : List (Int × Int),
      thread_ranges (initialize_camera lib c0).image_height num_threads = some ranges ∧
      store_all (run_workers lib (initialize_camera lib c0) world ranges g).1.flatten
        (resize framebuffer ((initialize_camera lib c0).image_width *
          (initialize_camera lib c0).image_height).toNat) = some out.framebuffer ∧
      load_all
        ((int_loop 0 (initialize_camera lib c0).image_height).flatMap fun j =>
          (int_loop 0 (initialize_camera lib c0).image_width).map fun i =>
            int_add (int_mul j (initialize_camera lib c0).image_width) i)
        out.framebuffer = some out.written := by
  unfold render_image_multithreaded at h
  simp only at h
  cases hm : int_mul_checked (initialize_camera lib c0).image_width
      (initialize_camera lib c0).image_height with
  | none =>
    rw [hm] at h
    exact absurd h (by simp)
  | some n =>
    rw [hm] at h
    simp only at h
    obtain ⟨hn, hmin, hmax⟩ := int_mul_checked_some _ _ _ hm
    by_cases hneg : n < 0
    · rw [if_pos hneg] at h
      exact absurd h (by simp)
    · rw [if_neg hneg] at h
      have hn0 : 0 ≤ n := by omega
      rw [int_to_size_t_of_nonneg n hn0 (by omega)] at h
      cases hr : thread_ranges (initialize_camera lib c0).image_height num_threads with
      | none =>
        rw [hr] at h
        exact absurd h (by simp)
      | some ranges =>
        rw [hr] at h
        simp only at h
        cases hst : store_all (run_workers lib (initialize_camera lib c0) world ranges g).1.flatten
            (resize framebuffer n.toNat) with
        | none =>
          rw [hst] at h
          exact absurd h (by simp)
        | some fb1 =>
          rw [hst] at h
          simp only at h
          cases hld : load_all
              ((int_loop 0 (initialize_camera lib c0).image_height).flatMap fun j =>
                (int_loop 0 (initialize_camera lib c0).image_width).map fun i =>
                  int_add (int_mul j (initialize_camera lib c0).image_width) i) fb1 with
          | none =>
            rw [hld] at h
            exact absurd h (by simp)
          | some written =>
            rw [hld] at h
            simp only at h
            have ho := Option.some.inj h
            subst ho
            rw [← hn]
            exact ⟨hn0, by omega, ranges, rfl, hst, hld⟩

/-- A render returns when the pixel count is inside the `int` range, the
number of threads is not zero, and the assignments of the workers and the
reads of the output loops are all inside the resized framebuffer. -/
theorem render_defined (lib : library K G M) (c0 : camera K)
    (framebuffer : List (color K)) (world : hittable K G M) (num_threads : Int) (g : G)
    (ranges : List (Int × Int))
    (h0 : 0 ≤ (initialize_camera lib c0).image_width * (initialize_camera lib c0).image_height)
    (hfit : (initialize_camera lib c0).image_width * (initialize_camera lib c0).image_height
      ≤ INT_MAX)
    (hr : thread_ranges (initialize_camera lib c0).image_height num_threads = some ranges)
    (hwrites : ∀ wr ∈ (run_workers lib (initialize_camera lib c0) world ranges g).1.flatten,
      int_to_size_t wr.1 < ((initialize_camera lib c0).image_width *
        (initialize_camera lib c0).image_height).toNat)
    (hreads : ∀ k ∈ ((int_loop 0 (initialize_camera lib c0).image_height).flatMap fun j =>
        (int_loop 0 (initialize_camera lib c0).image_width).map fun i =>
          int_add (int_mul j (initialize_camera lib c0).image_width) i),
      int_to_size_t k < ((initialize_camera lib c0).image_width *
        (initialize_camera lib c0).image_height).toNat) :
    ∃ out, render_image_multithreaded lib c0 framebuffer world num_threads g = some out := by
  obtain ⟨fb1, hst⟩ := store_all_defined
    (run_workers lib (initialize_camera lib c0) world ranges g).1.flatten
    (resize framebuffer ((initialize_camera lib c0).image_width *
      (initialize_camera lib c0).image_height).toNat)
    (by rw [length_resize]; exact hwrites)
  have hlen : fb1.length = ((initialize_camera lib c0).image_width *
      (initialize_camera lib c0).image_height).toNat := by
    rw [length_store_all _ _ _ hst, length_resize]
  have hld := load_all_defined _ fb1 (by rw [hlen]; exact hreads)
  have hm := int_mul_checked_of_range (initialize_camera lib c0).image_width
    (initialize_camera lib c0).image_height (by unfold INT_MIN; omega) hfit
  unfold render_image_multithreaded
  simp only [hm, hr]
  rw [if_neg (by omega), int_to_size_t_of_nonneg _ h0 hfit]
  simp only [hst, hld]
  exact ⟨_, rfl⟩

/-- The framebuffer that a render leaves behind has `image_width *
image_height` entries. -/
theorem render_framebuffer_length (lib : library K G M) (c0 : camera K)
    (framebuffer : List (color K)) (world : hittable K G M) (num_threads : Int) (g : G)
    (out : render_output K G)
    (h : render_image_multithreaded lib c0 framebuffer world num_threads g = some out) :
    (out.framebuffer.length : Int) =
      (initialize_camera lib c0).image_width * (initialize_camera lib c0).image_height := by
  obtain ⟨h0, _, ranges, _, hst, _⟩ := render_some lib c0 framebuffer world num_threads g out h
  rw [length_store_all _ _ _ hst, length_resize]
  omega

end ownership

section in_range

variable {K G M : Type} [LinearOrderedField K] [FloorRing K]

/-- A render whose pixel count is inside the `int` range, with at least one
thread, returns; the workers' assignments go to the indices
`0, 1, ..., image_width * image_height - 1`, and the output loops read the
framebuffer they leave, entry after entry. -/
theorem render_in_range (lib : library K G M) (c0 : camera K)
    (framebuffer : List (color K)) (world : hittable K G M) (num_threads : Int) (g : G)
    (hw : 1 ≤ (initialize_camera lib c0).image_width)
    (hh : 1 ≤ (initialize_camera lib c0).image_height)
    (hfit : (initialize_camera lib c0).image_width * (initialize_camera lib c0).image_height
      ≤ INT_MAX)
    (hn : 1 ≤ num_threads) (hnmax : num_threads ≤ INT_MAX) :
    ∃ (ranges : List (Int × Int)) (out : render_output K G),
      thread_ranges (initialize_camera lib c0).image_height num_threads = some ranges ∧
      ranges.length = num_threads.toNat ∧
      row_chain 0 (initialize_camera lib c0).image_height ranges ∧
      (run_workers lib (initialize_camera lib c0) world ranges g).1.map (List.map Prod.fst) =
        (ranges.map fun rg => int_loop (rg.1 * (initialize_camera lib c0).image_width)
          (rg.2 * (initialize_camera lib c0).image_width)) ∧
      (run_workers lib (initialize_camera lib c0) world ranges g).1.flatten.map Prod.fst =
        int_loop 0
          ((initialize_camera lib c0).image_width * (initialize_camera lib c0).image_height) ∧
      render_image_multithreaded lib c0 framebuffer world num_threads g = some out ∧
      store_all (run_workers lib (initialize_camera lib c0) world ranges g).1.flatten
        (resize framebuffer ((initialize_camera lib c0).image_width *
          (initialize_camera lib c0).image_height).toNat) = some out.framebuffer ∧
      (out.framebuffer.length : Int) =
        (initialize_camera lib c0).image_width * (initialize_camera lib c0).image_height ∧
      out.written = out.framebuffer := by
  obtain ⟨ranges, hr, hlen, hc, hidx, hall⟩ :=
    run_workers_writes lib (initialize_camera lib c0) world num_threads g hw hh hfit hn hnmax
  have hpos : 0 ≤ (initialize_camera lib c0).image_width *
      (initialize_camera lib c0).image_height := Int.mul_nonneg (by omega) (by omega)
  have hin : ∀ k ∈ int_loop 0 ((initialize_camera lib c0).image_width *
      (initialize_camera lib c0).image_height),
      int_to_size_t k < ((initialize_camera lib c0).image_width *
        (initialize_camera lib c0).image_height).toNat := by
    intro k hk
    have hb := (mem_int_loop _ _ _).mp hk
    rw [int_to_size_t_of_nonneg _ hb.1 (by omega)]
    omega
  have hreads := output_loops_read Int (fun k => k) (initialize_camera lib c0).image_width
    (initialize_camera lib c0).image_height hw (by omega) hfit
  rw [List.map_id'] at hreads
  beta_reduce at hreads
  obtain ⟨out, hout⟩ := render_defined lib c0 framebuffer world num_threads g ranges hpos hfit hr
    (by
      intro wr hwr
      apply hin
      rw [← hall]
      exact List.mem_map_of_mem _ hwr)
    (by
      rw [hreads]
      exact hin)
  obtain ⟨_, _, ranges1, hr1, hst, hld⟩ :=
    render_some lib c0 framebuffer world num_threads g out hout
  rw [hr] at hr1
  rw [← Option.some.inj hr1] at hst
  have hlenfb := render_framebuffer_length lib c0 framebuffer world num_threads g out hout
  refine ⟨ranges, out, hr, hlen, hc, hidx, hall, hout, hst, hlenfb, ?_⟩
  obtain ⟨_, hwritten⟩ := load_all_some _ _ _ hld
  rw [hwritten, hreads]
  exact map_getD_int_loop out.framebuffer _ hlenfb hfit

/-- Within the `int` range the code does what C2 says.  When
`image_width ≥ 1`, `image_height ≥ 1`, `image_width * image_height ≤ INT_MAX`
and `num_threads ≥ 1`, `render_image_multithreaded` returns with a framebuffer
of length `image_width * image_height`; there is one list of writes per
worker; the indices written by all workers, taken worker after worker, are
exactly `0, 1, ..., image_width * image_height - 1`, so every write is in
bounds, every index is written exactly once, and no two distinct workers write
the same index. -/
theorem framebuffer_write_ownership (lib : library K G M) (c0 : camera K)
    (framebuffer : List (color K)) (world : hittable K G M) (num_threads : Int) (g : G)
    (hw : 1 ≤ (initialize_camera lib c0).image_width)
    (hh : 1 ≤ (initialize_camera lib c0).image_height)
    (hfit : (initialize_camera lib c0).image_width * (initialize_camera lib c0).image_height
      ≤ INT_MAX)
    (hn : 1 ≤ num_threads) (hnmax : num_threads ≤ INT_MAX) :
    ∃ (ranges : List (Int × Int)) (out : render_output K G),
      thread_ranges (initialize_camera lib c0).image_height num_threads = some ranges ∧
      render_image_multithreaded lib c0 framebuffer world num_threads g = some out ∧
      (out.framebuffer.length : Int) =
        (initialize_camera lib c0).image_width * (initialize_camera lib c0).image_height ∧
      (run_workers lib (initialize_camera lib c0) world ranges g).1.length
        = num_threads.toNat ∧
      (run_workers lib (initialize_camera lib c0) world ranges g).1.flatten.map Prod.fst =
        int_loop 0
          ((initialize_camera lib c0).image_width * (initialize_camera lib c0).image_height) ∧
      (∀ wr ∈ (run_workers lib (initialize_camera lib c0) world ranges g).1.flatten,
        0 ≤ wr.1 ∧ int_to_size_t wr.1 < out.framebuffer.length) ∧
      (∀ k : Int, 0 ≤ k →
        k < (initialize_camera lib c0).image_width * (initialize_camera lib c0).image_height →
        ((run_workers lib (initialize_camera lib c0) world ranges g).1.flatten.map
          Prod.fst).count k = 1) ∧
      ((run_workers lib (initialize_camera lib c0) world ranges g).1.Pairwise
        fun l1 l2 => ∀ wr1 ∈ l1, ∀ wr2 ∈ l2, wr1.1 ≠ wr2.1) := by
  obtain ⟨ranges, out, hr, hlen, hc, hidx, hall, hout, _, hlenfb, _⟩ :=
    render_in_range lib c0 framebuffer world num_threads g hw hh hfit hn hnmax
  have hpos : 0 ≤ (initialize_camera lib c0).image_width *
      (initialize_camera lib c0).image_height := Int.mul_nonneg (by omega) (by omega)
  refine ⟨ranges, out, hr, hout, hlenfb, ?_, hall, ?_, ?_, ?_⟩
  · have := congrArg List.length hidx
    rw [List.length_map, List.length_map] at this
    rw [this, hlen]
  · intro wr hwr
    have hm : wr.1 ∈ int_loop 0 ((initialize_camera lib c0).image_width *
        (initialize_camera lib c0).image_height) := by
      rw [← hall]
      exact List.mem_map_of_mem _ hwr
    have hb := (mem_int_loop _ _ _).mp hm
    rw [int_to_size_t_of_nonneg _ hb.1 (by omega)]
    omega
  · intro k hk0 hk1
    rw [hall]
    exact List.count_eq_one_of_mem (int_loop_nodup _ _) ((mem_int_loop _ _ _).mpr ⟨hk0, hk1⟩)
  · have hp : ((run_workers lib (initialize_camera lib c0) world ranges g).1.map
        (List.map Prod.fst)).Pairwise fun l1 l2 => ∀ i ∈ l1, i ∉ l2 := by
      rw [hidx, List.pairwise_map]
      refine (row_chain_pairwise ranges 0 _ hc).imp ?_
      intro r1 r2 h12 i hi1 hi2
      have b1 := (mem_int_loop _ _ _).mp hi1
      have b2 := (mem_int_loop _ _ _).mp hi2
      have : r1.2 * (initialize_camera lib c0).image_width ≤
          r2.1 * (initialize_camera lib c0).image_width :=
        Int.mul_le_mul_of_nonneg_right h12 (by omega)
      omega
    rw [List.pairwise_map] at hp
    refine hp.imp ?_
    intro l1 l2 h wr1 h1 wr2 h2 e
    exact h wr1.1 (List.mem_map_of_mem _ h1) (e ▸ List.mem_map_of_mem _ h2)

end in_range

theorem height_65536 : (initialize_camera demo_library camera_65536).image_height = 65536 := by
  apply initialize_height_of_integer demo_library camera_65536 65536 _ (by decide) (by decide)
  show (((65536 : Int) : ℚ) / 1) = ((65536 : Int) : ℚ)
  norm_num

/-- The statement of C2 within the `int` range, at the 4 by 2 camera with two
workers. -/
theorem framebuffer_write_ownership_witness :
    (1 ≤ (initialize_camera demo_library camera_4x2).image_width ∧
      1 ≤ (initialize_camera demo_library camera_4x2).image_height ∧
      (initialize_camera demo_library camera_4x2).image_width *
        (initialize_camera demo_library camera_4x2).image_height ≤ INT_MAX ∧
      (1 : Int) ≤ 2 ∧ (2 : Int) ≤ INT_MAX) ∧
    ∃ (ranges : List (Int × Int)) (out : render_output ℚ Nat),
      thread_ranges (initialize_camera demo_library camera_4x2).image_height 2 = some ranges ∧
      render_image_multithreaded demo_library camera_4x2 [] empty_world 2 0 = some out ∧
      (out.framebuffer.length : Int) =
        (initialize_camera demo_library camera_4x2).image_width *
          (initialize_camera demo_library camera_4x2).image_height ∧
      (run_workers demo_library (initialize_camera demo_library camera_4x2) empty_world
        ranges 0).1.length = (2 : Int).toNat ∧
      (run_workers demo_library (initialize_camera demo_library camera_4x2) empty_world
        ranges 0).1.flatten.map Prod.fst =
        int_loop 0 ((initialize_camera demo_library camera_4x2).image_width *
          (initialize_camera demo_library camera_4x2).image_height) ∧
      (∀ wr ∈ (run_workers demo_library (initialize_camera demo_library camera_4x2)
          empty_world ranges 0).1.flatten,
        0 ≤ wr.1 ∧ int_to_size_t wr.1 < out.framebuffer.length) ∧
      (∀ k : Int, 0 ≤ k →
        k < (initialize_camera demo_library camera_4x2).image_width *
          (initialize_camera demo_library camera_4x2).image_height →
        ((run_workers demo_library (initialize_camera demo_library camera_4x2) empty_world
          ranges 0).1.flatten.map Prod.fst).count k = 1) ∧
      ((run_workers demo_library (initialize_camera demo_library camera_4x2) empty_world
          ranges 0).1.Pairwise
        fun l1 l2 => ∀ wr1 ∈ l1, ∀ wr2 ∈ l2, wr1.1 ≠ wr2.1) := by
  have hw : (initialize_camera demo_library camera_4x2).image_width = 4 := rfl
  have hh := height_4x2
  have h1 : 1 ≤ (initialize_camera demo_library camera_4x2).image_width := by rw [hw]; decide
  have h2 : 1 ≤ (initialize_camera demo_library camera_4x2).image_height := by rw [hh]; decide
  have h3 : (initialize_camera demo_library camera_4x2).image_width *
      (initialize_camera demo_library camera_4x2).image_height ≤ INT_MAX := by
    rw [hw, hh]; decide
  exact ⟨⟨h1, h2, h3, by decide, by decide⟩,
    framebuffer_write_ownership demo_library camera_4x2 [] empty_world 2 0 h1 h2 h3
      (by decide) (by decide)⟩

/-- C2.  The code at `image_width = 65536`, `aspect_ratio = 1`, one worker, an
empty framebuffer.  `initialize` derives `image_height = 65536`; both
dimensions are `≥ 1`.  The pixel count `image_width * image_height` is
`2^32`, beyond `INT_MAX`: the `int` product overflows, and the render has no
defined result, for any framebuffer, scene and number of threads; it does not
return with a framebuffer of `image_width * image_height` entries.  On a
machine that wraps, the product is `0`, `resize` leaves the framebuffer
empty, and the first assignment of the first worker, at index `0`, is outside
it. -/
theorem framebuffer_overflow_65536 :
    (initialize_camera demo_library camera_65536).image_width = 65536 ∧
    (initialize_camera demo_library camera_65536).image_height = 65536 ∧
    INT_MAX < (initialize_camera demo_library camera_65536).image_width *
      (initialize_camera demo_library camera_65536).image_height ∧
    int_mul_checked (initialize_camera demo_library camera_65536).image_width
      (initialize_camera demo_library camera_65536).image_height = none ∧
    (∀ (framebuffer : List (color ℚ)) (world : hittable ℚ Nat Bool) (num_threads : Int)
      (g : Nat),
      render_image_multithreaded demo_library camera_65536 framebuffer world num_threads g
        = none) ∧
    int_mul (initialize_camera demo_library camera_65536).image_width
      (initialize_camera demo_library camera_65536).image_height = 0 ∧
    resize ([] : List (color ℚ)) (int_to_size_t 0) = [] ∧
    (render_pixel demo_library (initialize_camera demo_library camera_65536) empty_world
      0 0 0).1.1 = 0 ∧
    store ([] : List (color ℚ))
      (render_pixel demo_library (initialize_camera demo_library camera_65536) empty_world
        0 0 0).1 = none := by
  have hw : (initialize_camera demo_library camera_65536).image_width = 65536 := rfl
  have hh := height_65536
  have hbig : INT_MAX < (initialize_camera demo_library camera_65536).image_width *
      (initialize_camera demo_library camera_65536).image_height := by
    rw [hw, hh]
    decide
  have hidx : (render_pixel demo_library (initialize_camera demo_library camera_65536)
      empty_world 0 0 0).1.1 = 0 := by
    rw [render_pixel_index, hw]
    decide
  refine ⟨hw, hh, hbig, ?_, ?_, ?_, rfl, hidx, ?_⟩
  · rw [hw, hh]
    decide
  · intro framebuffer world num_threads g
    exact render_overflow demo_library camera_65536 framebuffer world num_threads g hbig
  · rw [hw, hh]
    decide
  · unfold store
    rw [hidx]
    rfl


/-! ## The estimator `ray_color` -/

section estimator

variable {K G M : Type} [LinearOrderedField K]

/-- The first branch of `ray_color`. -/
theorem ray_color_exhausted (lib : library K G M) (c : camera K) (r : ray K) (depth : Int)
    (world : hittable K G M) (g : G) (h : depth ≤ 0) :
    ray_color lib c r depth world g = ⟨⟨0, 0, 0⟩, g, 0, 0⟩ := by
  rw [ray_color]
  simp only [h, dite_true]

/-- The body of `ray_color` at a positive depth. -/
theorem ray_color_positive (lib : library K G M) (c : camera K) (r : ray K) (depth : Int)
    (world : hittable K G M) (g : G) (h : 0 < depth) :
    ray_color lib c r depth world g =
      match world.hit r ⟨0.001, none⟩ g with
      | (some rec, g1) =>
        match lib.scatter rec.mat r rec g1 with
        | (some (attenuation, scattered), g2) =>
          ⟨attenuation * (ray_color lib c scattered (int_sub depth 1) world g2).value,
            (ray_color lib c scattered (int_sub depth 1) world g2).g,
            (ray_color lib c scattered (int_sub depth 1) world g2).hits + 1,
            (ray_color lib c scattered (int_sub depth 1) world g2).scatters + 1⟩
        | (none, g2) => ⟨⟨0, 0, 0⟩, g2, 1, 1⟩
      | (none, g1) =>
        ⟨(1.0 - 0.5 * ((unit_vector lib r.direction).y + 1.0)) * (⟨1.0, 1.0, 1.0⟩ : color K)
          + (0.5 * ((unit_vector lib r.direction).y + 1.0)) * (⟨0.5, 0.7, 1.0⟩ : color K),
          g1, 1, 0⟩ := by
  rw [ray_color]
  simp only [not_le.mpr h, dite_false]

/-- C4.  Depth exhaustion: called with a remaining depth `≤ 0` (in particular
with `max_depth = 0`), `ray_color` returns the colour `(0, 0, 0)` whatever the
ray, the scene and the materials are, and it does so without running
`world.hit` or `scatter` (no call of either, the random source untouched). -/
theorem depth_exhaustion (lib : library K G M) (c : camera K) (r : ray K) (depth : Int)
    (world : hittable K G M) (g : G) (h : depth ≤ 0) :
    (ray_color lib c r depth world g).value = ⟨0, 0, 0⟩ ∧
    (ray_color lib c r depth world g).hits = 0 ∧
    (ray_color lib c r depth world g).scatters = 0 ∧
    (ray_color lib c r depth world g).g = g := by
  rw [ray_color_exhausted lib c r depth world g h]
  exact ⟨rfl, rfl, rfl, rfl⟩

/-- C5.  A miss resolves to the background gradient: when the scene query on
`r` over `(0.001, +infinity)` reports no hit and `depth > 0`, `ray_color`
returns `(1 - a) * (1, 1, 1) + a * (0.5, 0.7, 1.0)` with `a = 0.5 * (y + 1)`,
`y` the vertical component of `unit_vector(r.direction())`; the value is the
same for every positive depth and every camera (so for every
`samples_per_pixel`). -/
theorem miss_is_background (lib : library K G M) (c : camera K) (r : ray K) (depth : Int)
    (world : hittable K G M) (g : G) (hd : 0 < depth)
    (hmiss : (world.hit r ⟨0.001, none⟩ g).1 = none) :
    (ray_color lib c r depth world g).value =
      ⟨(1 - 0.5 * ((unit_vector lib r.direction).y + 1)) * 1
          + 0.5 * ((unit_vector lib r.direction).y + 1) * 0.5,
        (1 - 0.5 * ((unit_vector lib r.direction).y + 1)) * 1
          + 0.5 * ((unit_vector lib r.direction).y + 1) * 0.7,
        (1 - 0.5 * ((unit_vector lib r.direction).y + 1)) * 1
          + 0.5 * ((unit_vector lib r.direction).y + 1) * 1⟩ ∧
    ∀ (c1 : camera K) (depth1 : Int), 0 < depth1 →
      (ray_color lib c1 r depth1 world g).value = (ray_color lib c r depth world g).value := by
  have key : ∀ (c1 : camera K) (depth1 : Int), 0 < depth1 →
      (ray_color lib c1 r depth1 world g).value =
        (1.0 - 0.5 * ((unit_vector lib r.direction).y + 1.0)) * (⟨1.0, 1.0, 1.0⟩ : color K)
          + (0.5 * ((unit_vector lib r.direction).y + 1.0)) * (⟨0.5, 0.7, 1.0⟩ : color K) := by
    intro c1 depth1 h1
    rw [ray_color_positive lib c1 r depth1 world g h1]
    rcases hq : world.hit r ⟨0.001, none⟩ g with ⟨o, g1⟩
    rw [hq] at hmiss
    simp only at hmiss
    subst hmiss
    rfl
  constructor
  · rw [key c depth hd]
    show vec3.add (vec3.smul _ _) (vec3.smul _ _) = _
    unfold vec3.add vec3.smul
    norm_num
  · intro c1 depth1 h1
    rw [key c1 depth1 h1, key c depth hd]

/-- C6.  The scatter recurrence: when `depth > 0`, `r` hits a surface
(`world.hit` returns the record `rec`) and the material of `rec` scatters with
attenuation `A` and outgoing ray `s`, `ray_color(r, depth, world)` is the
component-wise product of `A` and `ray_color(s, depth - 1, world)`. -/
theorem scatter_recurrence (lib : library K G M) (c : camera K) (r : ray K) (depth : Int)
    (world : hittable K G M) (g : G) (hd : 0 < depth) (hmax : depth ≤ INT_MAX)
    (rec : hit_record K M) (g1 : G) (hhit : world.hit r ⟨0.001, none⟩ g = (some rec, g1))
    (A : color K) (s : ray K) (g2 : G)
    (hsc : lib.scatter rec.mat r rec g1 = (some (A, s), g2)) :
    (ray_color lib c r depth world g).value =
      ⟨A.x * (ray_color lib c s (depth - 1) world g2).value.x,
        A.y * (ray_color lib c s (depth - 1) world g2).value.y,
        A.z * (ray_color lib c s (depth - 1) world g2).value.z⟩ := by
  have e : int_sub depth 1 = depth - 1 := by
    unfold int_sub
    exact wrap_int_of_range _ (by unfold INT_MIN; omega) (by omega)
  rw [ray_color_positive lib c r depth world g hd, hhit]
  simp only [hsc, e]
  rfl

end estimator

/-- C4 at depth `0`, in a scene where every ray hits a scattering surface. -/
theorem depth_exhaustion_witness :
    (0 : Int) ≤ 0 ∧
    (ray_color demo_library default_camera ⟨⟨0, 0, 0⟩, ⟨0, 0, -1⟩, 0⟩ 0 (wall_world true) 0).value
      = ⟨0, 0, 0⟩ ∧
    (ray_color demo_library default_camera ⟨⟨0, 0, 0⟩, ⟨0, 0, -1⟩, 0⟩ 0 (wall_world true) 0).hits
      = 0 ∧
    (ray_color demo_library default_camera ⟨⟨0, 0, 0⟩, ⟨0, 0, -1⟩, 0⟩ 0 (wall_world true)
      0).scatters = 0 ∧
    (ray_color demo_library default_camera ⟨⟨0, 0, 0⟩, ⟨0, 0, -1⟩, 0⟩ 0 (wall_world true) 0).g
      = 0 :=
  ⟨by decide, depth_exhaustion demo_library default_camera ⟨⟨0, 0, 0⟩, ⟨0, 0, -1⟩, 0⟩ 0
    (wall_world true) 0 (by decide)⟩

/-- C5 at the ray from the origin along `(0, 1, 0)` in the empty scene, at
depth `10`: the colour is the zenith colour. -/
theorem miss_is_background_witness :
    ((0 : Int) < 10 ∧
      (empty_world.hit ⟨⟨0, 0, 0⟩, ⟨0, 1, 0⟩, 0⟩ ⟨0.001, none⟩ 0).1 = none) ∧
    (ray_color demo_library default_camera ⟨⟨0, 0, 0⟩, ⟨0, 1, 0⟩, 0⟩ 10 empty_world 0).value =
      ⟨1 / 2, 7 / 10, 1⟩ := by
  refine ⟨⟨by decide, rfl⟩, ?_⟩
  rw [(miss_is_background demo_library default_camera ⟨⟨0, 0, 0⟩, ⟨0, 1, 0⟩, 0⟩ 10 empty_world 0
    (by decide) rfl).1]
  simp only [unit_vector, vec3.length, vec3.length_squared, demo_library, ray.direction]
  show vec3.mk _ _ _ = _
  norm_num [HDiv.hDiv, vec3.div, vec3.smul]

/-- C6 at a ray that hits the scattering wall, at depth `1`: the recursive call
is made at depth `0` and the product is black. -/
theorem scatter_recurrence_witness :
    ((0 : Int) < 1 ∧ (1 : Int) ≤ INT_MAX ∧
      (wall_world true).hit ⟨⟨0, 0, 0⟩, ⟨0, 0, -1⟩, 0⟩ ⟨0.001, none⟩ 0 =
        (some ⟨⟨0, 0, 0⟩, ⟨0, 0, 1⟩, true, 1, true⟩, 0) ∧
      demo_library.scatter true ⟨⟨0, 0, 0⟩, ⟨0, 0, -1⟩, 0⟩
        ⟨⟨0, 0, 0⟩, ⟨0, 0, 1⟩, true, 1, true⟩ 0 =
        (some (⟨1 / 2, 1 / 2, 1 / 2⟩, ⟨⟨0, 0, 0⟩, ⟨0, 0, 1⟩, 0⟩), 1)) ∧
    (ray_color demo_library default_camera ⟨⟨0, 0, 0⟩, ⟨0, 0, -1⟩, 0⟩ 1 (wall_world true) 0).value =
      ⟨1 / 2 * (ray_color demo_library default_camera ⟨⟨0, 0, 0⟩, ⟨0, 0, 1⟩, 0⟩ (1 - 1)
          (wall_world true) 1).value.x,
        1 / 2 * (ray_color demo_library default_camera ⟨⟨0, 0, 0⟩, ⟨0, 0, 1⟩, 0⟩ (1 - 1)
          (wall_world true) 1).value.y,
        1 / 2 * (ray_color demo_library default_camera ⟨⟨0, 0, 0⟩, ⟨0, 0, 1⟩, 0⟩ (1 - 1)
          (wall_world true) 1).value.z⟩ :=
  ⟨⟨by decide, by decide, rfl, rfl⟩,
    scatter_recurrence demo_library default_camera ⟨⟨0, 0, 0⟩, ⟨0, 0, -1⟩, 0⟩ 1 (wall_world true) 0
      (by decide) (by decide) ⟨⟨0, 0, 0⟩, ⟨0, 0, 1⟩, true, 1, true⟩ 0 rfl
      ⟨1 / 2, 1 / 2, 1 / 2⟩ ⟨⟨0, 0, 0⟩, ⟨0, 0, 1⟩, 0⟩ 1 rfl⟩


/-! ## The samples of a pixel -/

section pixels

variable {K G M : Type} [LinearOrderedField K]

theorem vec3_add_def (a b : vec3 K) : a + b = ⟨a.x + b.x, a.y + b.y, a.z + b.z⟩ := rfl

theorem vec3_smul_def (t : K) (a : vec3 K) : t * a = ⟨t * a.x, t * a.y, t * a.z⟩ := rfl

theorem length_pixel_samples (lib : library K G M) (c : camera K) (world : hittable K G M)
    (i j : Int) (n : Nat) : ∀ g : G, (pixel_samples lib c world i j n g).length = n := by
  induction n with
  | zero => intro g; rfl
  | succ m ih =>
    intro g
    rw [pixel_samples, List.length_cons, ih]

/-- Each entry of the samples of a pixel is `ray_color` run on the ray that
`get_ray(i, j)` generated just before, from some state of the random source. -/
theorem mem_pixel_samples (lib : library K G M) (c : camera K) (world : hittable K G M)
    (i j : Int) (n : Nat) :
    ∀ (g : G), ∀ s ∈ pixel_samples lib c world i j n g, ∃ g1 : G,
      s = ((get_ray lib c i j g1).1,
        ray_color lib c (get_ray lib c i j g1).1 c.max_depth world (get_ray lib c i j g1).2) := by
  induction n with
  | zero =>
    intro g s hs
    simp [pixel_samples] at hs
  | succ m ih =>
    intro g s hs
    rw [pixel_samples] at hs
    rcases List.mem_cons.mp hs with e | h
    · exact ⟨g, e⟩
    · exact ih _ s h

/-- The sample loop, started from any accumulated colour, over any list of
counter values. -/
theorem pixel_loop_fold (lib : library K G M) (c : camera K) (world : hittable K G M)
    (i j : Int) (l : List Int) :
    ∀ (acc : color K) (g : G),
      l.foldl
        (fun (acc : color K × G) _ =>
          (acc.1 + (ray_color lib c (get_ray lib c i j acc.2).1 c.max_depth world
              (get_ray lib c i j acc.2).2).value,
            (ray_color lib c (get_ray lib c i j acc.2).1 c.max_depth world
              (get_ray lib c i j acc.2).2).g))
        (acc, g) =
      (((pixel_samples lib c world i j l.length g).map fun s => s.2.value).foldl
          (fun a col => a + col) acc,
        final_state g (pixel_samples lib c world i j l.length g)) := by
  induction l with
  | nil =>
    intro acc g
    rfl
  | cons x xs ih =>
    intro acc g
    rw [List.foldl_cons, ih, List.length_cons, pixel_samples, List.map_cons, List.foldl_cons,
      final_state]

/-- The sample loop of `render_section` adds up the samples of the pixel. -/
theorem pixel_loop_eq (lib : library K G M) (c : camera K) (world : hittable K G M)
    (i j : Int) (g : G) :
    pixel_loop lib c world i j g =
      (color_sum ((pixel_samples lib c world i j c.samples_per_pixel.toNat g).map
          fun s => s.2.value),
        final_state g (pixel_samples lib c world i j c.samples_per_pixel.toNat g)) := by
  have h := pixel_loop_fold lib c world i j (int_loop 0 c.samples_per_pixel) ⟨0, 0, 0⟩ g
  rw [length_int_loop, Int.sub_zero] at h
  exact h

/-- What `render_section` stores for a pixel. -/
theorem render_pixel_eq (lib : library K G M) (c : camera K) (world : hittable K G M)
    (i j : Int) (g : G) :
    render_pixel lib c world i j g =
      ((int_add (int_mul j c.image_width) i,
        c.pixel_samples_scale *
          color_sum ((pixel_samples lib c world i j c.samples_per_pixel.toNat g).map
            fun s => s.2.value)),
        final_state g (pixel_samples lib c world i j c.samples_per_pixel.toNat g)) := by
  unfold render_pixel
  rw [pixel_loop_eq]

/-- Adding up `n` copies of one colour. -/
theorem foldl_add_const (col : color K) (l : List (color K)) (h : ∀ x ∈ l, x = col) :
    ∀ acc : color K, l.foldl (fun a x => a + x) acc =
      ⟨acc.x + l.length * col.x, acc.y + l.length * col.y, acc.z + l.length * col.z⟩ := by
  induction l with
  | nil =>
    intro acc
    simp
  | cons x xs ih =>
    intro acc
    rw [List.foldl_cons, ih (fun y hy => h y (List.mem_cons_of_mem _ hy)),
      h x (List.mem_cons_self _ _), vec3_add_def]
    simp only [List.length_cons]
    push_cast
    congr 1 <;> ring

/-- The mean of `n ≥ 1` copies of one colour is that colour. -/
theorem mean_of_equal_samples (n : Int) (hn : 1 ≤ n) (col : color K) (l : List (color K))
    (hlen : l.length = n.toNat) (h : ∀ x ∈ l, x = col) :
    (1 / (n : K)) * color_sum l = col := by
  unfold color_sum
  rw [foldl_add_const col l h, vec3_smul_def, hlen]
  have e : ((n.toNat : Nat) : K) = (n : K) := by
    have : ((n.toNat : Nat) : Int) = n := by omega
    exact_mod_cast congrArg (fun z : Int => (z : K)) this
  have hne : (n : K) ≠ 0 := by
    have : (0 : K) < (n : K) := by exact_mod_cast (show (0 : Int) < n by omega)
    exact ne_of_gt this
  rw [e]
  cases col with
  | mk x y z =>
    simp only [zero_add]
    congr 1 <;> field_simp

end pixels

section section_log

variable {K G M : Type} [LinearOrderedField K]

/-- Every assignment made by `render_section` is the one of a pixel of its
rows, computed from some state of the random source. -/
theorem render_section_mem (lib : library K G M) (c : camera K) (world : hittable K G M)
    (start stop : Int) (g : G) (wr : Int × color K)
    (h : wr ∈ (render_section lib c start stop world g).1) :
    ∃ j ∈ int_loop start stop, ∃ i ∈ int_loop 0 c.image_width, ∃ g1 : G,
      wr = (render_pixel lib c world i j g1).1 := by
  rw [render_section_eq] at h
  rcases foldl_thread_mem (fun j g1 => render_row lib c world j g1) _ [] g wr h with h0 | h1
  · exact absurd h0 (List.not_mem_nil wr)
  · obtain ⟨j, hj, g1, hrow⟩ := h1
    rw [render_row_eq] at hrow
    rcases foldl_thread_mem
      (fun i g2 => ([(render_pixel lib c world i j g2).1], (render_pixel lib c world i j g2).2))
      _ [] g1 wr hrow with h0 | h2
    · exact absurd h0 (List.not_mem_nil wr)
    · obtain ⟨i, hi, g2, hpix⟩ := h2
      exact ⟨j, hj, i, hi, g2, List.mem_singleton.mp hpix⟩

/-- Every pixel of the rows of `render_section` gets its assignment. -/
theorem render_section_round (lib : library K G M) (c : camera K) (world : hittable K G M)
    (start stop : Int) (g : G) (j : Int) (hj : j ∈ int_loop start stop) (i : Int)
    (hi : i ∈ int_loop 0 c.image_width) :
    ∃ g1 : G, (render_pixel lib c world i j g1).1 ∈ (render_section lib c start stop world g).1 := by
  obtain ⟨g1, hrow⟩ :=
    (foldl_thread_round (fun j g1 => render_row lib c world j g1) (int_loop start stop) [] g).2
      j hj
  obtain ⟨g2, hpix⟩ :=
    (foldl_thread_round
      (fun i g2 => ([(render_pixel lib c world i j g2).1], (render_pixel lib c world i j g2).2))
      (int_loop 0 c.image_width) [] g1).2 i hi
  refine ⟨g2, ?_⟩
  rw [render_section_eq]
  apply hrow
  show _ ∈ (render_row lib c world j g1).1
  rw [render_row_eq]
  exact hpix _ (List.mem_singleton.mpr rfl)

end section_log

theorem length_flatMap_const {α β : Type} (l : List α) (f : α → List β) (n : Nat)
    (h : ∀ a ∈ l, (f a).length = n) : (l.flatMap f).length = l.length * n := by
  induction l with
  | nil => simp
  | cons a t ih =>
    rw [List.flatMap_cons, List.length_append, h a (List.mem_cons_self _ _),
      ih (fun b hb => h b (List.mem_cons_of_mem _ hb)), List.length_cons]
    ring

section section_trace_lemmas

variable {K G M : Type} [LinearOrderedField K]

theorem render_pixel_assignment (lib : library K G M) (c : camera K) (world : hittable K G M)
    (i j : Int) (g : G) :
    render_pixel lib c world i j g =
      (assignment_of c ((i, j), pixel_samples lib c world i j c.samples_per_pixel.toNat g),
        final_state g (pixel_samples lib c world i j c.samples_per_pixel.toNat g)) :=
  render_pixel_eq lib c world i j g

theorem section_trace_append (lib : library K G M) (c : camera K) (world : hittable K G M)
    (n : Nat) (l1 l2 : List (Int × Int)) :
    ∀ g : G, section_trace lib c world n (l1 ++ l2) g =
      section_trace lib c world n l1 g ++
        section_trace lib c world n l2 (trace_state g (section_trace lib c world n l1 g)) := by
  induction l1 with
  | nil =>
    intro g
    rfl
  | cons p rest ih =>
    intro g
    rw [List.cons_append, section_trace, ih, section_trace, List.cons_append, trace_state]

omit [LinearOrderedField K] in
theorem trace_state_append (t1 t2 : List ((Int × Int) × List (ray K × radiance K G))) :
    ∀ g : G, trace_state g (t1 ++ t2) = trace_state (trace_state g t1) t2 := by
  induction t1 with
  | nil =>
    intro g
    rfl
  | cons e rest ih =>
    intro g
    rw [List.cons_append, trace_state, ih, trace_state]

/-- The trace has one entry for each pixel, in order. -/
theorem section_trace_pixels (lib : library K G M) (c : camera K) (world : hittable K G M)
    (n : Nat) (l : List (Int × Int)) :
    ∀ g : G, (section_trace lib c world n l g).map Prod.fst = l := by
  induction l with
  | nil =>
    intro g
    rfl
  | cons p rest ih =>
    intro g
    rw [section_trace, List.map_cons, ih]

/-- Every entry of the trace holds the `n` samples of its pixel, taken from
some state of the random source. -/
theorem section_trace_mem (lib : library K G M) (c : camera K) (world : hittable K G M)
    (n : Nat) (l : List (Int × Int)) :
    ∀ (g : G), ∀ e ∈ section_trace lib c world n l g,
      e.1 ∈ l ∧ ∃ g1 : G, e.2 = pixel_samples lib c world e.1.1 e.1.2 n g1 := by
  induction l with
  | nil =>
    intro g e he
    exact absurd he (List.not_mem_nil e)
  | cons p rest ih =>
    intro g e he
    rw [section_trace] at he
    rcases List.mem_cons.mp he with h | h
    · rw [h]
      exact ⟨List.mem_cons_self _ _, g, rfl⟩
    · obtain ⟨h1, h2⟩ := ih _ e h
      exact ⟨List.mem_cons_of_mem _ h1, h2⟩

/-- The column loop of `render_section`, started from any list of assignments
and over any list of columns. -/
theorem render_row_fold (lib : library K G M) (c : camera K) (world : hittable K G M)
    (j : Int) (cols : List Int) :
    ∀ (init : List (Int × color K)) (g : G),
      cols.foldl
        (fun (acc : List (Int × color K) × G) i =>
          (acc.1 ++ [(render_pixel lib c world i j acc.2).1],
            (render_pixel lib c world i j acc.2).2))
        (init, g) =
      (init ++ (section_trace lib c world c.samples_per_pixel.toNat
          (cols.map fun i => (i, j)) g).map (assignment_of c),
        trace_state g (section_trace lib c world c.samples_per_pixel.toNat
          (cols.map fun i => (i, j)) g)) := by
  induction cols with
  | nil =>
    intro init g
    simp only [List.foldl_nil, List.map_nil, section_trace, trace_state, List.append_nil]
  | cons i rest ih =>
    intro init g
    rw [List.foldl_cons, ih, render_pixel_assignment, List.map_cons, section_trace,
      List.map_cons, trace_state, List.append_assoc]
    rfl

/-- One row of `render_section`: one assignment for each pixel of the row,
in order, each from the `samples_per_pixel` samples of the pixel. -/
theorem render_row_trace (lib : library K G M) (c : camera K) (world : hittable K G M)
    (j : Int) (g : G) :
    render_row lib c world j g =
      ((section_trace lib c world c.samples_per_pixel.toNat
          ((int_loop 0 c.image_width).map fun i => (i, j)) g).map (assignment_of c),
        trace_state g (section_trace lib c world c.samples_per_pixel.toNat
          ((int_loop 0 c.image_width).map fun i => (i, j)) g)) := by
  rw [render_row_eq, render_row_fold, List.nil_append]

/-- The row loop of `render_section`, started from any list of assignments
and over any list of rows. -/
theorem render_section_fold (lib : library K G M) (c : camera K) (world : hittable K G M)
    (rows : List Int) :
    ∀ (init : List (Int × color K)) (g : G),
      rows.foldl
        (fun (acc : List (Int × color K) × G) j =>
          (acc.1 ++ (render_row lib c world j acc.2).1, (render_row lib c world j acc.2).2))
        (init, g) =
      (init ++ (section_trace lib c world c.samples_per_pixel.toNat
          (rows.flatMap fun j => (int_loop 0 c.image_width).map fun i => (i, j)) g).map
            (assignment_of c),
        trace_state g (section_trace lib c world c.samples_per_pixel.toNat
          (rows.flatMap fun j => (int_loop 0 c.image_width).map fun i => (i, j)) g)) := by
  induction rows with
  | nil =>
    intro init g
    simp only [List.foldl_nil, List.flatMap_nil, section_trace, trace_state, List.map_nil,
      List.append_nil]
  | cons j rest ih =>
    intro init g
    rw [List.foldl_cons, ih, render_row_trace, List.flatMap_cons, section_trace_append,
      List.map_append, trace_state_append, List.append_assoc]

/-- The assignments of `render_section`: exactly one for each pixel of its
rows, in the order of the loops, each from the `samples_per_pixel` samples of
the pixel; and the random source it leaves. -/
theorem render_section_trace (lib : library K G M) (c : camera K) (world : hittable K G M)
    (start stop : Int) (g : G) :
    render_section lib c start stop world g =
      ((section_trace lib c world c.samples_per_pixel.toNat
          (section_pixels start stop c.image_width) g).map (assignment_of c),
        trace_state g (section_trace lib c world c.samples_per_pixel.toNat
          (section_pixels start stop c.image_width) g)) := by
  rw [render_section_eq, render_section_fold, List.nil_append]
  rfl

theorem mem_section_pixels (start stop w i j : Int) :
    (i, j) ∈ section_pixels start stop w ↔ (start ≤ j ∧ j < stop) ∧ (0 ≤ i ∧ i < w) := by
  unfold section_pixels
  rw [List.mem_flatMap]
  constructor
  · rintro ⟨j1, hj1, hmem⟩
    obtain ⟨i1, hi1, e⟩ := List.mem_map.mp hmem
    simp only [Prod.mk.injEq] at e
    rw [← e.1, ← e.2]
    exact ⟨(mem_int_loop _ _ _).mp hj1, (mem_int_loop _ _ _).mp hi1⟩
  · rintro ⟨hj, hi⟩
    exact ⟨j, (mem_int_loop _ _ _).mpr hj,
      List.mem_map.mpr ⟨i, (mem_int_loop _ _ _).mpr hi, rfl⟩⟩

theorem length_section_pixels (start stop w : Int) :
    (section_pixels start stop w).length = (stop - start).toNat * w.toNat := by
  unfold section_pixels
  rw [length_flatMap_const _ _ w.toNat, length_int_loop]
  intro j _
  rw [List.length_map, length_int_loop, Int.sub_zero]

/-- No pixel occurs twice among the pixels of a section. -/
theorem section_pixels_nodup (start stop w : Int) : (section_pixels start stop w).Nodup := by
  unfold section_pixels
  rw [List.nodup_flatMap]
  constructor
  · intro j _
    exact (int_loop_nodup 0 w).map (fun a b h => (Prod.mk.inj h).1)
  · refine (int_loop_nodup start stop).imp ?_
    intro j1 j2 hne
    intro p h1 h2
    obtain ⟨i1, _, e1⟩ := List.mem_map.mp h1
    obtain ⟨i2, _, e2⟩ := List.mem_map.mp h2
    rw [← e2] at e1
    exact hne (Prod.mk.inj e1).2

end section_trace_lemmas

/-! ## C8 : the samples behind a framebuffer entry -/

section accounting

variable {K G M : Type} [LinearOrderedField K] [FloorRing K]

theorem initialize_pixel_samples_scale (lib : library K G M) (c : camera K) :
    (initialize_camera lib c).pixel_samples_scale = 1 / (c.samples_per_pixel : K) := rfl

/-- C8.  Per-pixel sample accounting, after `initialize` and for
`samples_per_pixel ≥ 1`.  For a pixel `(i, j)`, `render_section` takes the
samples `pixel_samples` of the pixel: `samples_per_pixel` rounds of
`get_ray(i, j)` followed by `ray_color`; it stores at index
`j * image_width + i` (computed in `int`, and equal to the exact value when
`(j + 1) * image_width` fits) the value `(1 / samples_per_pixel)` times the sum
of the sampled colours; when all samples are one colour, that colour is what is
stored.  Every pixel of the rows `[start, stop)` and of the columns
`[0, image_width)` gets such an assignment, and `render_section` makes no
other.  More precisely, the list of the assignments of `render_section` is
the list `section_trace` seen through `assignment_of`: it has exactly one
entry for each pixel of `section_pixels`, in the order of the loops, no pixel
occurring twice; each entry results from exactly `samples_per_pixel` samples
of its pixel, the first one drawn from the random source as the pixel before
has left it; so `render_section` makes `(stop - start) * image_width`
assignments, and the random source it leaves is the one after the last
sample. -/
theorem sample_accounting (lib : library K G M) (c0 : camera K) (world : hittable K G M)
    (start stop : Int) (g : G) (hspp : 1 ≤ c0.samples_per_pixel) :
    (∀ (i j : Int) (g1 : G),
      ((pixel_samples lib (initialize_camera lib c0) world i j
          c0.samples_per_pixel.toNat g1).length : Int) = c0.samples_per_pixel ∧
      (∀ s ∈ pixel_samples lib (initialize_camera lib c0) world i j
          c0.samples_per_pixel.toNat g1, ∃ g2 : G,
        s = ((get_ray lib (initialize_camera lib c0) i j g2).1,
          ray_color lib (initialize_camera lib c0)
            (get_ray lib (initialize_camera lib c0) i j g2).1 c0.max_depth world
            (get_ray lib (initialize_camera lib c0) i j g2).2)) ∧
      render_pixel lib (initialize_camera lib c0) world i j g1 =
        ((int_add (int_mul j c0.image_width) i,
          (1 / (c0.samples_per_pixel : K)) *
            color_sum ((pixel_samples lib (initialize_camera lib c0) world i j
              c0.samples_per_pixel.toNat g1).map fun s => s.2.value)),
          final_state g1 (pixel_samples lib (initialize_camera lib c0) world i j
            c0.samples_per_pixel.toNat g1)) ∧
      (0 ≤ j → 0 ≤ i → i < c0.image_width → (j + 1) * c0.image_width ≤ INT_MAX →
        int_add (int_mul j c0.image_width) i = j * c0.image_width + i) ∧
      (∀ col : color K,
        (∀ s ∈ pixel_samples lib (initialize_camera lib c0) world i j
          c0.samples_per_pixel.toNat g1, s.2.value = col) →
        (render_pixel lib (initialize_camera lib c0) world i j g1).1.2 = col)) ∧
    (∀ j ∈ int_loop start stop, ∀ i ∈ int_loop 0 c0.image_width, ∃ g1 : G,
      (render_pixel lib (initialize_camera lib c0) world i j g1).1 ∈
        (render_section lib (initialize_camera lib c0) start stop world g).1) ∧
    (∀ wr ∈ (render_section lib (initialize_camera lib c0) start stop world g).1,
      ∃ j ∈ int_loop start stop, ∃ i ∈ int_loop 0 c0.image_width, ∃ g1 : G,
        wr = (render_pixel lib (initialize_camera lib c0) world i j g1).1) ∧
    render_section lib (initialize_camera lib c0) start stop world g =
      ((section_trace lib (initialize_camera lib c0) world c0.samples_per_pixel.toNat
          (section_pixels start stop c0.image_width) g).map
            (assignment_of (initialize_camera lib c0)),
        trace_state g (section_trace lib (initialize_camera lib c0) world
          c0.samples_per_pixel.toNat (section_pixels start stop c0.image_width) g)) ∧
    (section_trace lib (initialize_camera lib c0) world c0.samples_per_pixel.toNat
        (section_pixels start stop c0.image_width) g).map Prod.fst =
      section_pixels start stop c0.image_width ∧
    (∀ e ∈ section_trace lib (initialize_camera lib c0) world c0.samples_per_pixel.toNat
        (section_pixels start stop c0.image_width) g,
      (e.2.length : Int) = c0.samples_per_pixel ∧
      ∃ g1 : G, e.2 = pixel_samples lib (initialize_camera lib c0) world e.1.1 e.1.2
        c0.samples_per_pixel.toNat g1) ∧
    (section_pixels start stop c0.image_width).Nodup ∧
    (∀ i j : Int, (i, j) ∈ section_pixels start stop c0.image_width ↔
      (start ≤ j ∧ j < stop) ∧ (0 ≤ i ∧ i < c0.image_width)) ∧
    (render_section lib (initialize_camera lib c0) start stop world g).1.length =
      (stop - start).toNat * c0.image_width.toNat := by
  have htrace := render_section_trace lib (initialize_camera lib c0) world start stop g
  refine ⟨?_, ?_, ?_, htrace, section_trace_pixels lib _ world _ _ g, ?_,
    section_pixels_nodup _ _ _, fun i j => mem_section_pixels _ _ _ i j, ?_⟩
  rotate_left 3
  · intro e he
    obtain ⟨_, g1, hg1⟩ := section_trace_mem lib (initialize_camera lib c0) world _ _ g e he
    refine ⟨?_, g1, hg1⟩
    rw [hg1, length_pixel_samples]
    omega
  · rw [htrace, List.length_map]
    have hl := congrArg List.length
      (section_trace_pixels lib (initialize_camera lib c0) world c0.samples_per_pixel.toNat
        (section_pixels start stop c0.image_width) g)
    rw [List.length_map] at hl
    show (section_trace lib (initialize_camera lib c0) world c0.samples_per_pixel.toNat
      (section_pixels start stop c0.image_width) g).length = _
    rw [hl, length_section_pixels]
  · intro i j g1
    have hpix := render_pixel_eq lib (initialize_camera lib c0) world i j g1
    refine ⟨?_, ?_, hpix, ?_, ?_⟩
    · rw [length_pixel_samples]
      omega
    · intro s hs
      exact mem_pixel_samples lib (initialize_camera lib c0) world i j _ g1 s hs
    · intro hj hi0 hi1 hfit
      have hjw : 0 ≤ j * c0.image_width := Int.mul_nonneg hj (by omega)
      have hexp : (j + 1) * c0.image_width = j * c0.image_width + c0.image_width := by ring
      unfold int_add int_mul
      rw [wrap_int_of_range (j * c0.image_width) (by unfold INT_MIN; omega) (by omega)]
      exact wrap_int_of_range _ (by unfold INT_MIN; omega) (by omega)
    · intro col hcol
      rw [hpix]
      apply mean_of_equal_samples c0.samples_per_pixel hspp col
      · rw [List.length_map]
        exact length_pixel_samples lib (initialize_camera lib c0) world i j _ g1
      · intro x hx
        obtain ⟨s, hs, rfl⟩ := List.mem_map.mp hx
        exact hcol s hs
  · intro j hj i hi
    exact render_section_round lib (initialize_camera lib c0) world start stop g j hj i hi
  · intro wr hwr
    exact render_section_mem lib (initialize_camera lib c0) world start stop g wr hwr

end accounting

/-- C8 at the 4 by 2 camera (10 samples per pixel) in the empty scene: pixel
`(0, 0)` has 10 samples, every pixel of the two rows gets its assignment, and
`render_section` on the two rows makes `8` assignments, one for each of the
`8` pixels, each from `10` samples. -/
theorem sample_accounting_witness :
    (1 : Int) ≤ camera_4x2.samples_per_pixel ∧
    ((pixel_samples demo_library (initialize_camera demo_library camera_4x2) empty_world 0 0
      camera_4x2.samples_per_pixel.toNat 0).length : Int) = camera_4x2.samples_per_pixel ∧
    (∀ j ∈ int_loop 0 2, ∀ i ∈ int_loop 0 camera_4x2.image_width, ∃ g1 : Nat,
      (render_pixel demo_library (initialize_camera demo_library camera_4x2) empty_world
        i j g1).1 ∈
        (render_section demo_library (initialize_camera demo_library camera_4x2) 0 2
          empty_world 0).1) ∧
    (render_section demo_library (initialize_camera demo_library camera_4x2) 0 2
        empty_world 0).1 =
      (section_trace demo_library (initialize_camera demo_library camera_4x2) empty_world 10
        (section_pixels 0 2 4) 0).map (assignment_of (initialize_camera demo_library camera_4x2)) ∧
    (section_trace demo_library (initialize_camera demo_library camera_4x2) empty_world 10
        (section_pixels 0 2 4) 0).map Prod.fst =
      [(0, 0), (1, 0), (2, 0), (3, 0), (0, 1), (1, 1), (2, 1), (3, 1)] ∧
    (∀ e ∈ section_trace demo_library (initialize_camera demo_library camera_4x2) empty_world
        10 (section_pixels 0 2 4) 0, (e.2.length : Int) = 10) ∧
    (render_section demo_library (initialize_camera demo_library camera_4x2) 0 2
      empty_world 0).1.length = 8 :=
  ⟨by decide,
    ((sample_accounting demo_library camera_4x2 empty_world 0 2 0 (by decide)).1 0 0 0).1,
    (sample_accounting demo_library camera_4x2 empty_world 0 2 0 (by decide)).2.1,
    congrArg Prod.fst
      (sample_accounting demo_library camera_4x2 empty_world 0 2 0 (by decide)).2.2.2.1,
    ((sample_accounting demo_library camera_4x2 empty_world 0 2 0
      (by decide)).2.2.2.2.1).trans (by decide),
    fun e he => ((sample_accounting demo_library camera_4x2 empty_world 0 2 0
      (by decide)).2.2.2.2.2.1 e he).1,
    ((sample_accounting demo_library camera_4x2 empty_world 0 2 0
      (by decide)).2.2.2.2.2.2.2.2).trans (by decide)⟩


/-! ## C7 : a scene that absorbs every ray -/

section absorbing

variable {K G M : Type} [LinearOrderedField K]

/-- The third branch of `ray_color`: a hit on a surface whose material
declines to scatter gives black, at every depth. -/
theorem ray_color_absorbed (lib : library K G M) (c : camera K) (r : ray K) (depth : Int)
    (world : hittable K G M) (g : G) (rec : hit_record K M) (g1 : G)
    (hhit : world.hit r ⟨0.001, none⟩ g = (some rec, g1))
    (hsc : (lib.scatter rec.mat r rec g1).1 = none) :
    (ray_color lib c r depth world g).value = ⟨0, 0, 0⟩ := by
  by_cases hd : depth ≤ 0
  · rw [ray_color_exhausted lib c r depth world g hd]
  · rw [ray_color_positive lib c r depth world g (by omega), hhit]
    rcases hq : lib.scatter rec.mat r rec g1 with ⟨o, g2⟩
    rw [hq] at hsc
    simp only at hsc
    subst hsc
    simp only [hq]

/-- C7.  A fully absorbing scene renders black.  If every ray that `get_ray`
generates for the pixels of the rows `[start, stop)` hits a surface whose
material declines to scatter, then `ray_color` returns `(0, 0, 0)` on each of
these rays at every depth, and for `samples_per_pixel > 0` every framebuffer
entry written by `render_section` is exactly `(0, 0, 0)`.  (Over exact
arithmetic the conclusion does not use `samples_per_pixel > 0`; the hypothesis
is the claim's.) -/
theorem absorbing_scene_is_black (lib : library K G M) (c : camera K)
    (world : hittable K G M) (start stop : Int) (g : G)
    (_hspp : 0 < c.samples_per_pixel)
    (habs : ∀ j ∈ int_loop start stop, ∀ i ∈ int_loop 0 c.image_width, ∀ g1 : G,
      ∃ (rec : hit_record K M) (g2 : G),
        world.hit (get_ray lib c i j g1).1 ⟨0.001, none⟩ (get_ray lib c i j g1).2
          = (some rec, g2) ∧
        (lib.scatter rec.mat (get_ray lib c i j g1).1 rec g2).1 = none) :
    (∀ j ∈ int_loop start stop, ∀ i ∈ int_loop 0 c.image_width, ∀ (g1 : G) (depth : Int),
      (ray_color lib c (get_ray lib c i j g1).1 depth world (get_ray lib c i j g1).2).value
        = ⟨0, 0, 0⟩) ∧
    (∀ wr ∈ (render_section lib c start stop world g).1, wr.2 = ⟨0, 0, 0⟩) := by
  have hray : ∀ j ∈ int_loop start stop, ∀ i ∈ int_loop 0 c.image_width,
      ∀ (g1 : G) (depth : Int),
      (ray_color lib c (get_ray lib c i j g1).1 depth world (get_ray lib c i j g1).2).value
        = ⟨0, 0, 0⟩ := by
    intro j hj i hi g1 depth
    obtain ⟨rec, g2, hhit, hsc⟩ := habs j hj i hi g1
    exact ray_color_absorbed lib c _ depth world _ rec g2 hhit hsc
  refine ⟨hray, ?_⟩
  intro wr hwr
  obtain ⟨j, hj, i, hi, g1, rfl⟩ := render_section_mem lib c world start stop g wr hwr
  rw [render_pixel_eq]
  show c.pixel_samples_scale * color_sum _ = _
  unfold color_sum
  rw [foldl_add_const ⟨0, 0, 0⟩ _ ?_, vec3_smul_def]
  · simp
  · intro x hx
    obtain ⟨s, hs, rfl⟩ := List.mem_map.mp hx
    obtain ⟨g2, rfl⟩ := mem_pixel_samples lib c world i j _ g1 s hs
    exact hray j hj i hi g2 c.max_depth

end absorbing

/-- C7 at the 4 by 2 camera in front of an absorbing wall. -/
theorem absorbing_scene_is_black_witness :
    (0 < (initialize_camera demo_library camera_4x2).samples_per_pixel ∧
      ∀ j ∈ int_loop 0 2,
        ∀ i ∈ int_loop 0 (initialize_camera demo_library camera_4x2).image_width,
        ∀ g1 : Nat, ∃ (rec : hit_record ℚ Bool) (g2 : Nat),
          (wall_world false).hit
            (get_ray demo_library (initialize_camera demo_library camera_4x2) i j g1).1
            ⟨0.001, none⟩
            (get_ray demo_library (initialize_camera demo_library camera_4x2) i j g1).2
            = (some rec, g2) ∧
          (demo_library.scatter rec.mat
            (get_ray demo_library (initialize_camera demo_library camera_4x2) i j g1).1
            rec g2).1 = none) ∧
    ∀ wr ∈ (render_section demo_library (initialize_camera demo_library camera_4x2) 0 2
        (wall_world false) 0).1, wr.2 = ⟨0, 0, 0⟩ :=
  ⟨⟨by decide, fun _ _ _ _ _ => ⟨_, _, rfl, rfl⟩⟩,
    (absorbing_scene_is_black demo_library (initialize_camera demo_library camera_4x2)
      (wall_world false) 0 2 0 (by decide)
      (fun _ _ _ _ _ => ⟨_, _, rfl, rfl⟩)).2⟩


/-! ## C9 : the image height -/

section image_height

variable {K G M : Type} [LinearOrderedField K] [FloorRing K]

/-- C9 (amended).  Image height: for an `int` `image_width ≥ 1` and
`aspect_ratio > 0`, let `q` be the `double` quotient
`image_width / aspect_ratio`, that is the exact quotient rounded to the
nearest `double`.  When the integer part of `q` fits an `int`, the
`image_height` computed by `initialize` is `max(1, ⌊q⌋)`: the quotient is
truncated toward zero (which for this non-negative quotient is the floor), not
rounded to the nearest integer.  (The exponent range of a `double`, which
`round_to_double` leaves out, plays no part here: a quotient too large for a
`double` does not fit an `int` either, and one too small for a normal `double`
is below `1` with or without it.) -/
theorem image_height_truncates (lib : library K G M) (c : camera K)
    (hw : 1 ≤ c.image_width) (ha : 0 < c.aspect_ratio)
    (hfit : Int.floor (round_to_double ((c.image_width : K) / c.aspect_ratio)) ≤ INT_MAX) :
    (initialize_camera lib c).image_height =
      max 1 (Int.floor (round_to_double ((c.image_width : K) / c.aspect_ratio))) := by
  have hw0 : (0 : K) ≤ (c.image_width : K) := by exact_mod_cast (show (0 : Int) ≤ c.image_width by omega)
  have hq : 0 ≤ round_to_double ((c.image_width : K) / c.aspect_ratio) :=
    round_to_double_nonneg _ (div_nonneg hw0 (le_of_lt ha))
  rw [initialize_image_height, double_to_int_of_nonneg _ hq hfit]
  rcases lt_or_le (Int.floor (round_to_double ((c.image_width : K) / c.aspect_ratio))) 1
    with h | h
  · rw [if_pos h, max_eq_left (by omega)]
  · rw [if_neg (by omega), max_eq_right h]

end image_height

theorem round_7_by_4 : round ((7 : ℚ) / 4) = 2 := by
  rw [round_eq, Int.floor_eq_iff]
  norm_num

/-- The quotient `7 / 4 = 1.75` is a `double`. -/
theorem double_7_by_4 : round_to_double ((7 : ℚ) / 4) = 7 / 4 := by
  have h := round_to_double_dyadic (K := ℚ) 7 2 (by decide)
  norm_num at h
  exact h

theorem height_7_by_4 : (initialize_camera demo_library camera_7_by_4).image_height = 1 := by
  rw [initialize_image_height]
  have e : double_to_int (round_to_double (((7 : Int) : ℚ) / 4)) = 1 := by
    have h7 : (((7 : Int) : ℚ) / 4) = (7 : ℚ) / 4 := by norm_num
    have hf : Int.floor ((7 : ℚ) / 4) = 1 := by
      rw [Int.floor_eq_iff]
      norm_num
    rw [h7, double_7_by_4, double_to_int_of_nonneg _ (by norm_num) (by rw [hf]; decide), hf]
  show (if double_to_int (round_to_double (((7 : Int) : ℚ) / 4)) < 1 then 1
    else double_to_int (round_to_double (((7 : Int) : ℚ) / 4))) = 1
  rw [e]
  rfl

/-- The `double` quotient of `3` by the `double` nearest to one tenth is `30`,
although the exact quotient is below `30`. -/
theorem double_3_by_tenth :
    round_to_double ((3 : ℚ) / (3602879701896397 / 36028797018963968)) = 30 := by
  have hl : Int.log 2 |(3 : ℚ) / (3602879701896397 / 36028797018963968)| = 4 := by
    apply int_log_two_eq
    · norm_num
    · rw [abs_of_pos (by norm_num)]
      norm_num
    · rw [abs_of_pos (by norm_num)]
      norm_num
  unfold round_to_double
  rw [if_neg (by norm_num), hl]
  have hf : Int.floor ((3 : ℚ) / (3602879701896397 / 36028797018963968) / 2 ^ ((4 : Int) - 52))
      = 8444249301319679 := by
    rw [Int.floor_eq_iff]
    norm_num
  have hr : round_half_even
      ((3 : ℚ) / (3602879701896397 / 36028797018963968) / 2 ^ ((4 : Int) - 52))
      = 8444249301319680 := by
    unfold round_half_even
    simp only [hf]
    rw [if_neg (by norm_num), if_pos (by norm_num)]
    norm_num
  simp only [hr]
  norm_num

/-- C9 at `image_width = 3`, `aspect_ratio = 0.1` (the `double` nearest to one
tenth): the exact quotient lies just below `30`, with integer part `29`; the
`double` quotient is `30`, and so is the image height. -/
theorem image_height_truncates_witness :
    ((1 : Int) ≤ camera_3_by_tenth.image_width ∧ 0 < camera_3_by_tenth.aspect_ratio ∧
      Int.floor (round_to_double
        ((camera_3_by_tenth.image_width : ℚ) / camera_3_by_tenth.aspect_ratio)) ≤ INT_MAX) ∧
    (initialize_camera demo_library camera_3_by_tenth).image_height =
      max 1 (Int.floor (round_to_double
        ((camera_3_by_tenth.image_width : ℚ) / camera_3_by_tenth.aspect_ratio))) ∧
    Int.floor ((camera_3_by_tenth.image_width : ℚ) / camera_3_by_tenth.aspect_ratio) = 29 ∧
    (initialize_camera demo_library camera_3_by_tenth).image_height = 30 := by
  have hq : ((camera_3_by_tenth.image_width : ℚ) / camera_3_by_tenth.aspect_ratio) =
      (3 : ℚ) / (3602879701896397 / 36028797018963968) := by
    show (((3 : Int) : ℚ) / (3602879701896397 / 36028797018963968)) = _
    norm_num
  have h1 : (1 : Int) ≤ camera_3_by_tenth.image_width := by decide
  have h2 : 0 < camera_3_by_tenth.aspect_ratio := by
    show (0 : ℚ) < 3602879701896397 / 36028797018963968
    norm_num
  have hfl : Int.floor (round_to_double
      ((camera_3_by_tenth.image_width : ℚ) / camera_3_by_tenth.aspect_ratio)) = 30 := by
    rw [hq, double_3_by_tenth]
    exact Int.floor_intCast 30
  have h3 : Int.floor (round_to_double
      ((camera_3_by_tenth.image_width : ℚ) / camera_3_by_tenth.aspect_ratio)) ≤ INT_MAX := by
    rw [hfl]
    decide
  have hthm := image_height_truncates demo_library camera_3_by_tenth h1 h2 h3
  refine ⟨⟨h1, h2, h3⟩, hthm, ?_, ?_⟩
  · rw [hq, Int.floor_eq_iff]
    norm_num
  · rw [hthm, hfl]
    decide

/-- C9 fails as stated: for `image_width = 7` and `aspect_ratio = 4` the
quotient is `1.75`, a `double`; `initialize` computes `image_height = 1`,
whereas `max(1, round(1.75)) = 2`. -/
theorem image_height_round_counterexample :
    (1 : Int) ≤ camera_7_by_4.image_width ∧ 0 < camera_7_by_4.aspect_ratio ∧
    round_to_double ((camera_7_by_4.image_width : ℚ) / camera_7_by_4.aspect_ratio) = 7 / 4 ∧
    (initialize_camera demo_library camera_7_by_4).image_height = 1 ∧
    max 1 (round ((camera_7_by_4.image_width : ℚ) / camera_7_by_4.aspect_ratio)) = 2 ∧
    (initialize_camera demo_library camera_7_by_4).image_height ≠
      max 1 (round ((camera_7_by_4.image_width : ℚ) / camera_7_by_4.aspect_ratio)) := by
  have h7 : ((camera_7_by_4.image_width : ℚ) / camera_7_by_4.aspect_ratio) = (7 : ℚ) / 4 := by
    show (((7 : Int) : ℚ) / 4) = (7 : ℚ) / 4
    norm_num
  have h2 : 0 < camera_7_by_4.aspect_ratio := by
    show (0 : ℚ) < 4
    norm_num
  refine ⟨by decide, h2, ?_, height_7_by_4, ?_, ?_⟩
  · rw [h7, double_7_by_4]
  · rw [h7, round_7_by_4]
    decide
  · rw [h7, round_7_by_4, height_7_by_4]
    decide


/-! ## C10 : degenerate dimensions -/

section clamping

variable {K G M : Type} [LinearOrderedField K] [FloorRing K]

/-- The two pixel deltas computed by `initialize`, with their divisors. -/
theorem initialize_pixel_deltas (lib : library K G M) (c : camera K) :
    (initialize_camera lib c).pixel_delta_u =
      ((2 * lib.tan (degrees_to_radians lib c.vfov / 2) * c.focus_dist *
          ((c.image_width : K) / ((initialize_camera lib c).image_height : K))) *
        (initialize_camera lib c).u) / (c.image_width : K) ∧
    (initialize_camera lib c).pixel_delta_v =
      ((2 * lib.tan (degrees_to_radians lib c.vfov / 2) * c.focus_dist) *
        (-(initialize_camera lib c).v)) / ((initialize_camera lib c).image_height : K) :=
  ⟨rfl, rfl⟩

/-- C10 (amended).  Only the derived height is clamped.  For every
configuration (any `image_width`, any `aspect_ratio`), after `initialize` the
image height is `≥ 1`, so the divisor of `pixel_delta_v` is not zero; the image
width is left as configured, and the divisor of `pixel_delta_u`, which is
`image_width`, is not zero exactly when the configured `image_width` is not
zero (in particular when `image_width ≥ 1`). -/
theorem height_is_clamped (lib : library K G M) (c : camera K) :
    1 ≤ (initialize_camera lib c).image_height ∧
    ((initialize_camera lib c).image_height : K) ≠ 0 ∧
    (initialize_camera lib c).image_width = c.image_width ∧
    (((initialize_camera lib c).image_width : K) ≠ 0 ↔ c.image_width ≠ 0) ∧
    (initialize_camera lib c).pixel_delta_u =
      ((2 * lib.tan (degrees_to_radians lib c.vfov / 2) * c.focus_dist *
          ((c.image_width : K) / ((initialize_camera lib c).image_height : K))) *
        (initialize_camera lib c).u) / ((initialize_camera lib c).image_width : K) ∧
    (initialize_camera lib c).pixel_delta_v =
      ((2 * lib.tan (degrees_to_radians lib c.vfov / 2) * c.focus_dist) *
        (-(initialize_camera lib c).v)) / ((initialize_camera lib c).image_height : K) := by
  have h1 : 1 ≤ (initialize_camera lib c).image_height := by
    rw [initialize_image_height]
    split <;> omega
  refine ⟨h1, ?_, rfl, ?_, (initialize_pixel_deltas lib c).1, (initialize_pixel_deltas lib c).2⟩
  · have : (0 : K) < ((initialize_camera lib c).image_height : K) := by
      exact_mod_cast (show (0 : Int) < (initialize_camera lib c).image_height by omega)
    exact ne_of_gt this
  · rw [initialize_image_width]
    exact Int.cast_ne_zero

end clamping

/-- C10 fails as stated: with `image_width = 0` (and `aspect_ratio = 1`) the
image width after `initialize` is still `0`, not `≥ 1`, and it is the divisor
of `pixel_delta_u`; only the height has become `1`. -/
theorem width_not_clamped_counterexample :
    0 < camera_width_0.aspect_ratio ∧
    (initialize_camera demo_library camera_width_0).image_height = 1 ∧
    (initialize_camera demo_library camera_width_0).image_width = 0 ∧
    (((initialize_camera demo_library camera_width_0).image_width : Int) : ℚ) = 0 ∧
    ¬ (1 ≤ (initialize_camera demo_library camera_width_0).image_width ∧
        1 ≤ (initialize_camera demo_library camera_width_0).image_height) := by
  have ha : 0 < camera_width_0.aspect_ratio := by
    show (0 : ℚ) < 1
    norm_num
  have hh : (initialize_camera demo_library camera_width_0).image_height = 1 := by
    rw [initialize_image_height]
    have e : double_to_int (round_to_double (((0 : Int) : ℚ) / 1)) = 0 := by
      have h0 : (((0 : Int) : ℚ) / 1) = ((0 : Int) : ℚ) := by norm_num
      rw [h0, round_to_double_intCast 0 (by decide),
        double_to_int_intCast 0 (by decide) (by decide)]
    show (if double_to_int (round_to_double (((0 : Int) : ℚ) / 1)) < 1 then 1
      else double_to_int (round_to_double (((0 : Int) : ℚ) / 1))) = 1
    rw [e]
    rfl
  have hw : (initialize_camera demo_library camera_width_0).image_width = 0 := rfl
  refine ⟨ha, hh, hw, ?_, ?_⟩
  · rw [hw]
    norm_num
  · rw [hw]
    intro h
    exact absurd h.1 (by decide)


/-! ## C11 : the pinhole camera -/

section pinhole

variable {K G M : Type} [LinearOrderedField K] [FloorRing K]

theorem initialize_center (lib : library K G M) (c : camera K) :
    (initialize_camera lib c).center = c.lookfrom := rfl

theorem initialize_defocus_angle (lib : library K G M) (c : camera K) :
    (initialize_camera lib c).defocus_angle = c.defocus_angle := rfl

/-- C11.  Pinhole origin: when `defocus_angle ≤ 0`, for every pixel `(i, j)`
and every state of the random source, the ray returned by `get_ray` after
`initialize` has its origin equal to the camera centre, which is `lookfrom`;
`random_in_unit_disk` is not run: replacing it by any other function leaves
`get_ray` unchanged, and the random source is left as after exactly three
calls of `random_double` (two for the jitter, one for the time). -/
theorem pinhole_origin (lib : library K G M) (c0 : camera K) (i j : Int) (g : G)
    (hd : c0.defocus_angle ≤ 0) :
    (initialize_camera lib c0).center = c0.lookfrom ∧
    (get_ray lib (initialize_camera lib c0) i j g).1.orig = c0.lookfrom ∧
    (get_ray lib (initialize_camera lib c0) i j g).1.origin
      = (initialize_camera lib c0).center ∧
    (∀ disk : G → vec3 K × G,
      get_ray { lib with random_in_unit_disk := disk } (initialize_camera lib c0) i j g =
        get_ray lib (initialize_camera lib c0) i j g) ∧
    (get_ray lib (initialize_camera lib c0) i j g).2 =
      (lib.random_double (lib.random_double (lib.random_double g).2).2).2 := by
  have hd1 : (initialize_camera lib c0).defocus_angle ≤ 0 := hd
  refine ⟨rfl, ?_, ?_, ?_, ?_⟩
  · unfold get_ray
    simp only [if_pos hd1]
    rfl
  · unfold get_ray ray.origin
    simp only [if_pos hd1]
  · intro disk
    unfold get_ray
    simp only [if_pos hd1]
    rfl
  · unfold get_ray
    simp only [if_pos hd1]
    rfl

end pinhole

/-- C11 at the default camera (`defocus_angle = 0`), pixel `(2, 1)`. -/
theorem pinhole_origin_witness :
    default_camera.defocus_angle ≤ 0 ∧
    (get_ray demo_library (initialize_camera demo_library default_camera) 2 1 0).1.orig
      = default_camera.lookfrom ∧
    (∀ disk : Nat → vec3 ℚ × Nat,
      get_ray { demo_library with random_in_unit_disk := disk }
        (initialize_camera demo_library default_camera) 2 1 0 =
        get_ray demo_library (initialize_camera demo_library default_camera) 2 1 0) :=
  ⟨le_refl _,
    (pinhole_origin demo_library default_camera 2 1 0 (le_refl _)).2.1,
    (pinhole_origin demo_library default_camera 2 1 0 (le_refl _)).2.2.2.1⟩


/-! ## C19 : more threads than rows -/

/-- C19.  Over-subscribed thread count: for `int`s `image_height ≥ 1` and
`num_threads > image_height`, `rows_per_thread` is `0`, every worker except the
last is handed the empty range `[0, 0)` and the last worker is handed
`[0, image_height)`; every row of `[0, image_height)` lies in exactly one of
the ranges handed out, that of the last worker, and the rows visited by the
workers, one worker after the other, are `0, 1, ..., image_height - 1`, each
once. -/
theorem oversubscribed_threads (image_height num_threads : Int)
    (hh : 1 ≤ image_height) (hn : image_height < num_threads)
    (hnmax : num_threads ≤ INT_MAX) :
    rows_per_thread image_height num_threads = some 0 ∧
    ∃ ranges : List (Int × Int),
      thread_ranges image_height num_threads = some ranges ∧
      ranges.length = num_threads.toNat ∧
      (∀ t : Fin ranges.length,
        (t.val + 1 < ranges.length → ranges.get t = (0, 0)) ∧
        (t.val + 1 = ranges.length → ranges.get t = (0, image_height))) ∧
      (∀ row, 0 ≤ row → row < image_height →
        ∃! t : Fin ranges.length, in_rows (ranges.get t) row) ∧
      (∀ row, 0 ≤ row → row < image_height → ∀ t : Fin ranges.length,
        in_rows (ranges.get t) row → t.val + 1 = ranges.length) ∧
      ranges.flatMap (fun rg => int_loop rg.1 rg.2) = int_loop 0 image_height := by
  have h0 : 0 ≤ image_height := by omega
  have hmax : image_height ≤ INT_MAX := by omega
  have hn1 : 1 ≤ num_threads := by omega
  have hq : image_height / num_threads = 0 := Int.ediv_eq_zero_of_lt h0 hn
  have hrpt := rows_per_thread_eq image_height num_threads h0 hmax hn1
  rw [hq] at hrpt
  obtain ⟨ranges, hr, hlen, hc⟩ :=
    thread_ranges_chain image_height num_threads h0 hmax hn1 hnmax
  have hf := thread_ranges_formula image_height num_threads h0 hmax hn1 hnmax
  rw [hr, hq] at hf
  have hranges := Option.some.inj hf
  have hget : ∀ t : Fin ranges.length,
      (t.val + 1 < ranges.length → ranges.get t = (0, 0)) ∧
      (t.val + 1 = ranges.length → ranges.get t = (0, image_height)) := by
    intro t
    have ht := t.isLt
    have e : ranges.get t =
        ((t.val : Int) * 0,
          if (t.val : Int) = num_threads - 1 then image_height else ((t.val : Int) + 1) * 0) := by
      simp only [List.get_eq_getElem, hranges, List.getElem_map, List.getElem_range]
    rw [e]
    constructor
    · intro hlt
      rw [if_neg (by omega)]
      simp
    · intro heq
      rw [if_pos (by omega)]
      simp
  refine ⟨hrpt, ranges, hr, hlen, hget, ?_, ?_, ?_⟩
  · intro row h1 h2
    exact row_chain_exactly_one ranges 0 image_height hc row h1 h2
  · intro row h1 h2 t hin
    by_contra hne
    have hlt : t.val + 1 < ranges.length := by
      have := t.isLt
      omega
    rw [(hget t).1 hlt] at hin
    unfold in_rows at hin
    omega
  · have key := row_chain_flatten 1 (by decide) ranges 0 image_height hc
    rw [List.flatMap_def]
    simpa using key

/-- C19 at `image_height = 3`, `num_threads = 7`. -/
theorem oversubscribed_threads_witness :
    ((1 : Int) ≤ 3 ∧ (3 : Int) < 7 ∧ (7 : Int) ≤ INT_MAX) ∧
    rows_per_thread 3 7 = some 0 ∧
    thread_ranges 3 7 = some [(0, 0), (0, 0), (0, 0), (0, 0), (0, 0), (0, 0), (0, 3)] := by
  refine ⟨by decide, (oversubscribed_threads 3 7 (by decide) (by decide) (by decide)).1, ?_⟩
  decide


/-! ## C18 : the work of one estimator call -/

section bounded

variable {K G M : Type} [LinearOrderedField K]

/-- The depth handed to the recursive call is smaller, whatever the depth. -/
theorem int_sub_one_toNat_lt (depth : Int) (h : 0 < depth) :
    (int_sub depth 1).toNat < depth.toNat := by
  unfold int_sub wrap_int
  omega

theorem ray_color_work (lib : library K G M) (c : camera K) (world : hittable K G M)
    (n : Nat) :
    ∀ (depth : Int) (r : ray K) (g : G), depth.toNat ≤ n →
      (ray_color lib c r depth world g).hits ≤ depth.toNat ∧
      (ray_color lib c r depth world g).scatters ≤ depth.toNat := by
  induction n with
  | zero =>
    intro depth r g hn
    rw [ray_color_exhausted lib c r depth world g (by omega)]
    exact ⟨Nat.zero_le _, Nat.zero_le _⟩
  | succ m ih =>
    intro depth r g hn
    by_cases hd : depth ≤ 0
    · rw [ray_color_exhausted lib c r depth world g hd]
      exact ⟨Nat.zero_le _, Nat.zero_le _⟩
    · have hpos : 0 < depth := by omega
      have hlt := int_sub_one_toNat_lt depth hpos
      rw [ray_color_positive lib c r depth world g hpos]
      rcases world.hit r ⟨0.001, none⟩ g with ⟨o, g1⟩
      cases o with
      | none =>
        simp only
        omega
      | some rec =>
        simp only
        rcases lib.scatter rec.mat r rec g1 with ⟨so, g2⟩
        cases so with
        | none =>
          simp only
          omega
        | some p =>
          obtain ⟨attenuation, scattered⟩ := p
          simp only
          have := ih (int_sub depth 1) scattered g2 (by omega)
          omega

/-- C18.  Bounded recursion of the estimator: `ray_color` is a total function
of its arguments (its recursion is accepted on the measure `max(depth, 0)`,
which the recursive call, made only when `depth > 0`, strictly lowers); for
every ray, scene, library and integer depth, negative values included, one
call runs `world.hit` at most `max(depth, 0)` times and `scatter` at most
`max(depth, 0)` times. -/
theorem bounded_recursion (lib : library K G M) (c : camera K) (r : ray K) (depth : Int)
    (world : hittable K G M) (g : G) :
    ((ray_color lib c r depth world g).hits : Int) ≤ max depth 0 ∧
    ((ray_color lib c r depth world g).scatters : Int) ≤ max depth 0 ∧
    (0 < depth → ((int_sub depth 1).toNat : Int) < max depth 0) := by
  have h := ray_color_work lib c world depth.toNat depth r g (le_refl _)
  have e : ((depth.toNat : Nat) : Int) = max depth 0 := by
    rw [Int.toNat_eq_max]
  refine ⟨?_, ?_, ?_⟩
  · rw [← e]
    exact_mod_cast h.1
  · rw [← e]
    exact_mod_cast h.2
  · intro hpos
    rw [← e]
    exact_mod_cast int_sub_one_toNat_lt depth hpos

end bounded


/-! ## C14 : the order of the output -/

section serialisation

variable {K G M : Type} [LinearOrderedField K] [FloorRing K]

/-- What `render_image_multithreaded` hands to `write_color`: the entries of
the framebuffer left by the workers, read in the order of the two output
loops. -/
theorem render_written_eq (lib : library K G M) (c0 : camera K)
    (framebuffer : List (color K)) (world : hittable K G M) (num_threads : Int) (g : G)
    (out : render_output K G)
    (h : render_image_multithreaded lib c0 framebuffer world num_threads g = some out) :
    out.written =
      (int_loop 0 (initialize_camera lib c0).image_height).flatMap fun j =>
        (int_loop 0 (initialize_camera lib c0).image_width).map fun i =>
          out.framebuffer.getD
            (int_to_size_t (int_add (int_mul j (initialize_camera lib c0).image_width) i))
            ⟨0, 0, 0⟩ := by
  obtain ⟨_, _, _, _, _, hld⟩ := render_some lib c0 framebuffer world num_threads g out h
  obtain ⟨_, hw⟩ := load_all_some _ _ _ hld
  rw [hw, List.map_flatMap]
  simp only [List.map_map]
  rfl

/-- The number of calls of `write_color` of a render that returns. -/
theorem render_written_length (lib : library K G M) (c0 : camera K)
    (framebuffer : List (color K)) (world : hittable K G M) (num_threads : Int) (g : G)
    (out : render_output K G)
    (h : render_image_multithreaded lib c0 framebuffer world num_threads g = some out) :
    out.written.length =
      (initialize_camera lib c0).image_height.toNat *
        (initialize_camera lib c0).image_width.toNat := by
  rw [render_written_eq lib c0 framebuffer world num_threads g out h]
  rw [length_flatMap_const _ _ (initialize_camera lib c0).image_width.toNat]
  · rw [length_int_loop, Int.sub_zero]
  · intro j _
    rw [List.length_map, length_int_loop, Int.sub_zero]

end serialisation

theorem thread_ranges_defined (image_height num_threads : Int) (hn : num_threads ≠ 0) :
    ∃ ranges, thread_ranges image_height num_threads = some ranges := by
  unfold thread_ranges rows_per_thread int_div
  rw [if_neg hn]
  exact ⟨_, rfl⟩

section serialised

variable {K G M : Type} [LinearOrderedField K] [FloorRing K]

/-- Within the `int` range the code does what C14 says.  When
`image_width ≥ 1`, `image_height ≥ 1`, `image_width * image_height ≤ INT_MAX`
and `num_threads ≥ 1`, `render_image_multithreaded` returns; the framebuffer
it reads for the output is the one left after the writes of every worker;
`write_color` is called exactly `image_width * image_height` times, and the
`k`-th call receives `framebuffer[k]`: the arguments of the calls, in order,
are the framebuffer itself, that is the pixels in row-major order. -/
theorem serialisation_order (lib : library K G M) (c0 : camera K)
    (framebuffer : List (color K)) (world : hittable K G M) (num_threads : Int) (g : G)
    (hw : 1 ≤ (initialize_camera lib c0).image_width)
    (hh : 1 ≤ (initialize_camera lib c0).image_height)
    (hfit : (initialize_camera lib c0).image_width * (initialize_camera lib c0).image_height
      ≤ INT_MAX)
    (hn : 1 ≤ num_threads) (hnmax : num_threads ≤ INT_MAX) :
    ∃ (ranges : List (Int × Int)) (out : render_output K G),
      thread_ranges (initialize_camera lib c0).image_height num_threads = some ranges ∧
      render_image_multithreaded lib c0 framebuffer world num_threads g = some out ∧
      store_all (run_workers lib (initialize_camera lib c0) world ranges g).1.flatten
        (resize framebuffer ((initialize_camera lib c0).image_width *
          (initialize_camera lib c0).image_height).toNat) = some out.framebuffer ∧
      (out.written.length : Int) =
        (initialize_camera lib c0).image_width * (initialize_camera lib c0).image_height ∧
      out.written = out.framebuffer ∧
      (∀ j i : Int, 0 ≤ j → j < (initialize_camera lib c0).image_height → 0 ≤ i →
        i < (initialize_camera lib c0).image_width →
        out.written[(j * (initialize_camera lib c0).image_width + i).toNat]? =
          out.framebuffer[(j * (initialize_camera lib c0).image_width + i).toNat]?) := by
  obtain ⟨ranges, out, hr, _, _, _, _, hout, hst, hlenfb, hwr⟩ :=
    render_in_range lib c0 framebuffer world num_threads g hw hh hfit hn hnmax
  refine ⟨ranges, out, hr, hout, hst, ?_, hwr, ?_⟩
  · rw [hwr]
    exact hlenfb
  · intro j i _ _ _ _
    rw [hwr]

end serialised

/-- The statement of C14 within the `int` range, at the 4 by 2 camera with two
workers. -/
theorem serialisation_order_witness :
    (1 ≤ (initialize_camera demo_library camera_4x2).image_width ∧
      1 ≤ (initialize_camera demo_library camera_4x2).image_height ∧
      (initialize_camera demo_library camera_4x2).image_width *
        (initialize_camera demo_library camera_4x2).image_height ≤ INT_MAX ∧
      (1 : Int) ≤ 2 ∧ (2 : Int) ≤ INT_MAX) ∧
    ∃ out : render_output ℚ Nat,
      render_image_multithreaded demo_library camera_4x2 [] empty_world 2 0 = some out ∧
      (out.written.length : Int) = 8 ∧
      out.written = out.framebuffer := by
  have hw : (initialize_camera demo_library camera_4x2).image_width = 4 := rfl
  have hh := height_4x2
  have h1 : 1 ≤ (initialize_camera demo_library camera_4x2).image_width := by rw [hw]; decide
  have h2 : 1 ≤ (initialize_camera demo_library camera_4x2).image_height := by rw [hh]; decide
  have h3 : (initialize_camera demo_library camera_4x2).image_width *
      (initialize_camera demo_library camera_4x2).image_height ≤ INT_MAX := by
    rw [hw, hh]; decide
  obtain ⟨_, out, _, hout, _, hlen, hwr, _⟩ :=
    serialisation_order demo_library camera_4x2 [] empty_world 2 0 h1 h2 h3 (by decide)
      (by decide)
  refine ⟨⟨h1, h2, h3, by decide, by decide⟩, out, hout, ?_, hwr⟩
  rw [hlen, hw, hh]
  decide

/-- C14.  The code at `image_width = 65536`, `aspect_ratio = 1`, where
`initialize` derives `image_height = 65536`: both dimensions are `≥ 1`, and
`image_width * image_height` is `2^32` calls of `write_color`.  The `int`
product in `framebuffer.resize(image_width * image_height)` overflows before
any worker is started, and the render has no defined result, for any
framebuffer, scene and number of threads: there is no run in which
`write_color` is called `2^32` times.  On a machine that wraps, the
framebuffer is left empty and there is no `framebuffer[0]` to hand to the
first call. -/
theorem serialisation_overflow_65536 :
    1 ≤ (initialize_camera demo_library camera_65536).image_width ∧
    1 ≤ (initialize_camera demo_library camera_65536).image_height ∧
    (initialize_camera demo_library camera_65536).image_width *
      (initialize_camera demo_library camera_65536).image_height = 4294967296 ∧
    (∀ (framebuffer : List (color ℚ)) (world : hittable ℚ Nat Bool) (num_threads : Int)
      (g : Nat) (out : render_output ℚ Nat),
      render_image_multithreaded demo_library camera_65536 framebuffer world num_threads g
        ≠ some out) ∧
    int_to_size_t (int_mul (initialize_camera demo_library camera_65536).image_width
      (initialize_camera demo_library camera_65536).image_height) = 0 ∧
    load (resize ([] : List (color ℚ)) 0) 0 = none := by
  have hw : (initialize_camera demo_library camera_65536).image_width = 65536 := rfl
  have hh := height_65536
  refine ⟨by rw [hw]; decide, by rw [hh]; decide, by rw [hw, hh]; decide, ?_,
    by rw [hw, hh]; decide, rfl⟩
  intro framebuffer world num_threads g out
  rw [render_overflow demo_library camera_65536 framebuffer world num_threads g
    (by rw [hw, hh]; decide)]
  exact fun h => Option.noConfusion h


/-! ## Vector algebra -/

section vectors

variable {K : Type} [LinearOrderedField K]

omit [LinearOrderedField K] in
theorem vec3_eq (a b : vec3 K) (hx : a.x = b.x) (hy : a.y = b.y) (hz : a.z = b.z) : a = b := by
  cases a
  cases b
  simp only [vec3.mk.injEq]
  exact ⟨hx, hy, hz⟩

theorem vec3_sub_def (a b : vec3 K) : a - b = ⟨a.x - b.x, a.y - b.y, a.z - b.z⟩ := rfl

theorem vec3_neg_def (a : vec3 K) : -a = ⟨-a.x, -a.y, -a.z⟩ := rfl

theorem vec3_div_def (a : vec3 K) (t : K) :
    a / t = ⟨1 / t * a.x, 1 / t * a.y, 1 / t * a.z⟩ := rfl

theorem vec3_mul_scalar_def (a : vec3 K) (t : K) : a * t = ⟨t * a.x, t * a.y, t * a.z⟩ := rfl

theorem dot_smul_left (t : K) (a b : vec3 K) : dot (t * a) b = t * dot a b := by
  rw [vec3_smul_def]
  unfold dot
  ring

theorem dot_smul_right (t : K) (a b : vec3 K) : dot a (t * b) = t * dot a b := by
  rw [vec3_smul_def]
  unfold dot
  ring

theorem dot_comm (a b : vec3 K) : dot a b = dot b a := by
  unfold dot
  ring

theorem cross_smul_left (t : K) (a b : vec3 K) : cross (t * a) b = t * cross a b := by
  rw [vec3_smul_def, vec3_smul_def]
  unfold cross
  apply vec3_eq <;> simp only <;> ring

theorem cross_smul_right (t : K) (a b : vec3 K) : cross a (t * b) = t * cross a b := by
  rw [vec3_smul_def, vec3_smul_def]
  unfold cross
  apply vec3_eq <;> simp only <;> ring

theorem dot_cross_left (a b : vec3 K) : dot (cross a b) a = 0 := by
  unfold dot cross
  ring

theorem dot_cross_right (a b : vec3 K) : dot (cross a b) b = 0 := by
  unfold dot cross
  ring

/-- Lagrange's identity. -/
theorem dot_cross_cross (a b : vec3 K) :
    dot (cross a b) (cross a b) = dot a a * dot b b - dot a b * dot a b := by
  unfold dot cross
  ring

/-- The triple product `a × (b × a)`. -/
theorem cross_cross (a b : vec3 K) :
    cross a (cross b a) = ⟨dot a a * b.x - dot a b * a.x, dot a a * b.y - dot a b * a.y,
      dot a a * b.z - dot a b * a.z⟩ := by
  unfold dot cross
  apply vec3_eq <;> simp only <;> ring

theorem div_eq_smul (a : vec3 K) (t : K) : a / t = (1 / t) * a := rfl

theorem dot_self_nonneg (a : vec3 K) : 0 ≤ dot a a := by
  unfold dot
  nlinarith [mul_self_nonneg a.x, mul_self_nonneg a.y, mul_self_nonneg a.z]

theorem dot_self_eq_zero (a : vec3 K) (h : dot a a = 0) : a = ⟨0, 0, 0⟩ := by
  unfold dot at h
  have hx := mul_self_nonneg a.x
  have hy := mul_self_nonneg a.y
  have hz := mul_self_nonneg a.z
  apply vec3_eq
  · exact mul_self_eq_zero.mp (by linarith)
  · exact mul_self_eq_zero.mp (by linarith)
  · exact mul_self_eq_zero.mp (by linarith)

theorem dot_self_pos (a : vec3 K) (h : a ≠ ⟨0, 0, 0⟩) : 0 < dot a a :=
  lt_of_le_of_ne (dot_self_nonneg a) (fun e => h (dot_self_eq_zero a e.symm))

end vectors

section square_root

variable {K G M : Type} [LinearOrderedField K]

theorem sqrt_pos (lib : library K G M) (hs : sqrt_exact lib) (x : K) (hx : 0 < x) :
    0 < lib.sqrt x := by
  obtain ⟨h0, h1⟩ := hs x (le_of_lt hx)
  rcases lt_or_eq_of_le h0 with h | h
  · exact h
  · rw [← h] at h1
    simp at h1
    exact absurd h1 (ne_of_lt hx)

theorem sqrt_one (lib : library K G M) (hs : sqrt_exact lib) : lib.sqrt 1 = 1 := by
  obtain ⟨h0, h1⟩ := hs 1 zero_le_one
  nlinarith

theorem sqrt_mul_self (lib : library K G M) (hs : sqrt_exact lib) (t : K) (ht : 0 ≤ t) :
    lib.sqrt (t * t) = t := by
  obtain ⟨h0, h1⟩ := hs (t * t) (mul_self_nonneg t)
  nlinarith [mul_self_nonneg (lib.sqrt (t * t) - t)]

theorem length_squared_eq_dot (a : vec3 K) : a.length_squared = dot a a := rfl

/-- A unit vector has unit length, when the vector is not zero. -/
theorem dot_unit_vector (lib : library K G M) (hs : sqrt_exact lib) (a : vec3 K)
    (ha : a ≠ ⟨0, 0, 0⟩) : dot (unit_vector lib a) (unit_vector lib a) = 1 := by
  have hpos := dot_self_pos a ha
  have hsp := sqrt_pos lib hs (dot a a) hpos
  obtain ⟨_, h1⟩ := hs (dot a a) (le_of_lt hpos)
  unfold unit_vector vec3.length
  rw [length_squared_eq_dot, div_eq_smul, dot_smul_left, dot_smul_right]
  have hne : lib.sqrt (dot a a) ≠ 0 := ne_of_gt hsp
  field_simp
  rw [h1]

theorem unit_vector_ne_zero (lib : library K G M) (hs : sqrt_exact lib) (a : vec3 K)
    (ha : a ≠ ⟨0, 0, 0⟩) : unit_vector lib a ≠ ⟨0, 0, 0⟩ := by
  intro e
  have h := dot_unit_vector lib hs a ha
  rw [e] at h
  unfold dot at h
  simp at h

end square_root

/-! ## C15 : the camera basis -/

section basis

variable {K G M : Type} [LinearOrderedField K] [FloorRing K]

omit [FloorRing K] in
theorem smul_ne_zero_vec (t : K) (a : vec3 K) (ht : t ≠ 0) (ha : a ≠ ⟨0, 0, 0⟩) :
    t * a ≠ ⟨0, 0, 0⟩ := by
  intro e
  have h : dot (t * a) (t * a) = 0 := by
    rw [e]
    unfold dot
    simp
  rw [dot_smul_left, dot_smul_right] at h
  have hpos := dot_self_pos a ha
  have : t * (t * dot a a) ≠ 0 := mul_ne_zero ht (mul_ne_zero ht (ne_of_gt hpos))
  exact this h

omit [FloorRing K] in
theorem sub_ne_zero_vec (a b : vec3 K) (h : a ≠ b) : a - b ≠ ⟨0, 0, 0⟩ := by
  intro e
  rw [vec3_sub_def] at e
  simp only [vec3.mk.injEq] at e
  exact h (vec3_eq a b (by linarith [e.1]) (by linarith [e.2.1]) (by linarith [e.2.2]))

theorem initialize_basis (lib : library K G M) (c : camera K) :
    (initialize_camera lib c).w = unit_vector lib (c.lookfrom - c.lookat) ∧
    (initialize_camera lib c).u =
      unit_vector lib (cross c.vup (initialize_camera lib c).w) ∧
    (initialize_camera lib c).v =
      cross (initialize_camera lib c).w (initialize_camera lib c).u :=
  ⟨rfl, rfl, rfl⟩

/-- The basis computed by `initialize` is orthonormal and right-handed. -/
theorem initialize_orthonormal (lib : library K G M) (c : camera K) (hs : sqrt_exact lib)
    (hne : c.lookfrom ≠ c.lookat)
    (hnp : cross c.vup (c.lookfrom - c.lookat) ≠ ⟨0, 0, 0⟩) :
    orthonormal (initialize_camera lib c).u (initialize_camera lib c).v
      (initialize_camera lib c).w ∧
    cross (initialize_camera lib c).u (initialize_camera lib c).v
      = (initialize_camera lib c).w := by
  obtain ⟨hw, hu, hv⟩ := initialize_basis lib c
  have hd := sub_ne_zero_vec c.lookfrom c.lookat hne
  have hww : dot (initialize_camera lib c).w (initialize_camera lib c).w = 1 := by
    rw [hw]
    exact dot_unit_vector lib hs _ hd
  have hcw : cross c.vup (initialize_camera lib c).w ≠ ⟨0, 0, 0⟩ := by
    rw [hw]
    unfold unit_vector
    rw [div_eq_smul, cross_smul_right]
    apply smul_ne_zero_vec _ _ _ hnp
    have := sqrt_pos lib hs _ (dot_self_pos _ hd)
    exact one_div_ne_zero (ne_of_gt this)
  have huu : dot (initialize_camera lib c).u (initialize_camera lib c).u = 1 := by
    rw [hu]
    exact dot_unit_vector lib hs _ hcw
  have huw : dot (initialize_camera lib c).u (initialize_camera lib c).w = 0 := by
    rw [hu]
    unfold unit_vector
    rw [div_eq_smul, dot_smul_left, dot_cross_right, mul_zero]
  have hwu : dot (initialize_camera lib c).w (initialize_camera lib c).u = 0 := by
    rw [dot_comm]
    exact huw
  have hvw : dot (initialize_camera lib c).v (initialize_camera lib c).w = 0 := by
    rw [hv]
    exact dot_cross_left _ _
  have hvu : dot (initialize_camera lib c).v (initialize_camera lib c).u = 0 := by
    rw [hv]
    exact dot_cross_right _ _
  have hvv : dot (initialize_camera lib c).v (initialize_camera lib c).v = 1 := by
    rw [hv, dot_cross_cross, hww, huu, hwu]
    ring
  refine ⟨⟨huu, hvv, hww, ?_, hvw, hwu⟩, ?_⟩
  · rw [dot_comm]
    exact hvu
  · rw [hv, cross_cross, huu, huw]
    apply vec3_eq <;> simp

/-- C15.  Orthonormal camera basis, over exact arithmetic with `sqrt` the real
square root: when `lookfrom ≠ lookat` and `vup` is not parallel to
`lookfrom - lookat` (their cross product is not zero), the vectors computed by
`initialize` satisfy `|u| = |v| = |w| = 1`, `u.v = v.w = w.u = 0`,
`w = (lookfrom - lookat) / |lookfrom - lookat|` and `cross(u, v) = w`. -/
theorem orthonormal_basis (lib : library K G M) (c : camera K) (hs : sqrt_exact lib)
    (hne : c.lookfrom ≠ c.lookat)
    (hnp : cross c.vup (c.lookfrom - c.lookat) ≠ ⟨0, 0, 0⟩) :
    vec3.length lib (initialize_camera lib c).u = 1 ∧
    vec3.length lib (initialize_camera lib c).v = 1 ∧
    vec3.length lib (initialize_camera lib c).w = 1 ∧
    dot (initialize_camera lib c).u (initialize_camera lib c).v = 0 ∧
    dot (initialize_camera lib c).v (initialize_camera lib c).w = 0 ∧
    dot (initialize_camera lib c).w (initialize_camera lib c).u = 0 ∧
    (initialize_camera lib c).w =
      (c.lookfrom - c.lookat) / vec3.length lib (c.lookfrom - c.lookat) ∧
    cross (initialize_camera lib c).u (initialize_camera lib c).v
      = (initialize_camera lib c).w := by
  obtain ⟨⟨huu, hvv, hww, huv, hvw, hwu⟩, hcross⟩ := initialize_orthonormal lib c hs hne hnp
  have h1 := sqrt_one lib hs
  refine ⟨?_, ?_, ?_, huv, hvw, hwu, rfl, hcross⟩
  · unfold vec3.length
    rw [length_squared_eq_dot, huu, h1]
  · unfold vec3.length
    rw [length_squared_eq_dot, hvv, h1]
  · unfold vec3.length
    rw [length_squared_eq_dot, hww, h1]

end basis


/-! ### The real numbers as `double` -/

/-- Over the reals, a library whose `sqrt` is `Real.sqrt` has an exact square
root. -/
theorem real_sqrt_exact (lib : library ℝ Unit Unit) (h : lib.sqrt = Real.sqrt) :
    sqrt_exact lib := by
  intro x hx
  rw [h]
  exact ⟨Real.sqrt_nonneg x, Real.mul_self_sqrt hx⟩

theorem standard_camera_looks (K : Type) [LinearOrderedField K] :
    (standard_camera K).lookfrom ≠ (standard_camera K).lookat ∧
    cross (standard_camera K).vup ((standard_camera K).lookfrom - (standard_camera K).lookat)
      ≠ ⟨0, 0, 0⟩ := by
  constructor
  · intro h
    have hz := congrArg vec3.z h
    simp [standard_camera] at hz
  · intro h
    have hx := congrArg vec3.x h
    simp [standard_camera, cross, vec3_sub_def] at hx

/-- C15 over the real numbers, with `Real.sqrt`, at the default camera. -/
theorem orthonormal_basis_witness :
    ∃ lib : library ℝ Unit Unit,
      lib.sqrt = Real.sqrt ∧
      (sqrt_exact lib ∧ (standard_camera ℝ).lookfrom ≠ (standard_camera ℝ).lookat ∧
        cross (standard_camera ℝ).vup
          ((standard_camera ℝ).lookfrom - (standard_camera ℝ).lookat) ≠ ⟨0, 0, 0⟩) ∧
      vec3.length lib (initialize_camera lib (standard_camera ℝ)).u = 1 ∧
      vec3.length lib (initialize_camera lib (standard_camera ℝ)).v = 1 ∧
      vec3.length lib (initialize_camera lib (standard_camera ℝ)).w = 1 ∧
      dot (initialize_camera lib (standard_camera ℝ)).u
        (initialize_camera lib (standard_camera ℝ)).v = 0 ∧
      dot (initialize_camera lib (standard_camera ℝ)).v
        (initialize_camera lib (standard_camera ℝ)).w = 0 ∧
      dot (initialize_camera lib (standard_camera ℝ)).w
        (initialize_camera lib (standard_camera ℝ)).u = 0 ∧
      (initialize_camera lib (standard_camera ℝ)).w =
        ((standard_camera ℝ).lookfrom - (standard_camera ℝ).lookat) /
          vec3.length lib ((standard_camera ℝ).lookfrom - (standard_camera ℝ).lookat) ∧
      cross (initialize_camera lib (standard_camera ℝ)).u
        (initialize_camera lib (standard_camera ℝ)).v
        = (initialize_camera lib (standard_camera ℝ)).w :=
  ⟨⟨Real.pi, Real.tan, Real.sqrt, fun g => (0, g), fun g => (⟨0, 0, 0⟩, g),
      fun _ _ _ g => (none, g)⟩,
    rfl,
    ⟨real_sqrt_exact _ rfl, (standard_camera_looks ℝ).1, (standard_camera_looks ℝ).2⟩,
    orthonormal_basis _ (standard_camera ℝ) (real_sqrt_exact _ rfl)
      (standard_camera_looks ℝ).1 (standard_camera_looks ℝ).2⟩


/-! ## The viewport and the rays -/

section rays

variable {K G M : Type} [LinearOrderedField K] [FloorRing K]

/-- The members set by `initialize`, in terms of its locals. -/
theorem initialize_viewport (lib : library K G M) (c : camera K) :
    (initialize_camera lib c).pixel_delta_u = viewport_u lib c / (c.image_width : K) ∧
    (initialize_camera lib c).pixel_delta_v =
      viewport_v lib c / ((initialize_camera lib c).image_height : K) ∧
    (initialize_camera lib c).pixel00_loc =
      viewport_upper_left lib c +
        (0.5 : K) * ((initialize_camera lib c).pixel_delta_u
          + (initialize_camera lib c).pixel_delta_v) ∧
    (initialize_camera lib c).defocus_disk_u =
      (initialize_camera lib c).u *
        (c.focus_dist * lib.tan (degrees_to_radians lib (c.defocus_angle / 2))) ∧
    (initialize_camera lib c).defocus_disk_v =
      (initialize_camera lib c).v *
        (c.focus_dist * lib.tan (degrees_to_radians lib (c.defocus_angle / 2))) :=
  ⟨rfl, rfl, rfl, rfl, rfl⟩

omit [FloorRing K] in
/-- The ray of `get_ray` points from its origin to the sample point. -/
theorem get_ray_direction (lib : library K G M) (c : camera K) (i j : Int) (g : G) :
    (get_ray lib c i j g).1.dir =
      pixel_sample c i j (sample_square lib g).1 - (get_ray lib c i j g).1.orig := rfl

omit [FloorRing K] in
/-- The origin of the ray of `get_ray`. -/
theorem get_ray_origin (lib : library K G M) (c : camera K) (i j : Int) (g : G) :
    (get_ray lib c i j g).1.orig =
      if c.defocus_angle ≤ 0 then c.center
      else (defocus_disk_sample lib c (sample_square lib g).2).1 := by
  by_cases h : c.defocus_angle ≤ 0
  · rw [if_pos h]
    unfold get_ray
    simp only [if_pos h]
  · rw [if_neg h]
    unfold get_ray
    simp only [if_neg h]

omit [FloorRing K] in
theorem sample_square_eq (lib : library K G M) (g : G) :
    (sample_square lib g).1 =
      ⟨(lib.random_double g).1 - 0.5,
        (lib.random_double (lib.random_double g).2).1 - 0.5, 0⟩ := rfl

omit [FloorRing K] in
theorem defocus_disk_sample_eq (lib : library K G M) (c : camera K) (g : G) :
    (defocus_disk_sample lib c g).1 =
      c.center + ((lib.random_in_unit_disk g).1.get 0 * c.defocus_disk_u)
        + ((lib.random_in_unit_disk g).1.get 1 * c.defocus_disk_v) := rfl

end rays

/-! ## C20 : the focus plane -/

section focus_plane

variable {K G M : Type} [LinearOrderedField K] [FloorRing K]

/-- Every sample point lies in the plane at distance `focus_dist` in front of
the camera centre. -/
theorem pixel_sample_in_focus_plane (lib : library K G M) (c0 : camera K) (i j : Int)
    (offset : vec3 K)
    (hon : orthonormal (initialize_camera lib c0).u (initialize_camera lib c0).v
      (initialize_camera lib c0).w) :
    dot (pixel_sample (initialize_camera lib c0) i j offset - (initialize_camera lib c0).center)
      (initialize_camera lib c0).w = -c0.focus_dist := by
  obtain ⟨_, _, hww, _, hvw, hwu⟩ := hon
  obtain ⟨h1, h2, h3, _, _⟩ := initialize_viewport lib c0
  unfold pixel_sample
  rw [h3, h1, h2]
  unfold viewport_upper_left viewport_u viewport_v
  generalize (initialize_camera lib c0).u = U at *
  generalize (initialize_camera lib c0).v = V at *
  generalize (initialize_camera lib c0).w = W at *
  generalize (initialize_camera lib c0).center = C at *
  generalize ((initialize_camera lib c0).image_height : K) = H at *
  generalize viewport_width lib c0 = vw at *
  generalize viewport_height lib c0 = vh at *
  unfold dot at hww hvw hwu ⊢
  simp only [vec3_add_def, vec3_sub_def, vec3_smul_def, vec3_div_def, vec3_neg_def]
  linear_combination (-c0.focus_dist) * hww
    + (-(1 / 2) * vw + 0.5 * (1 / (c0.image_width : K)) * vw
        + ((i : K) + offset.x) * (1 / (c0.image_width : K)) * vw) * hwu
    + ((1 / 2) * vh - 0.5 * (1 / H) * vh - ((j : K) + offset.y) * (1 / H) * vh) * hvw

/-- Every point of the defocus disk lies in the plane through the camera
centre orthogonal to `w`. -/
theorem defocus_disk_in_lens_plane (lib : library K G M) (c0 : camera K) (p0 p1 : K)
    (hon : orthonormal (initialize_camera lib c0).u (initialize_camera lib c0).v
      (initialize_camera lib c0).w) :
    dot (((initialize_camera lib c0).center
        + (p0 * (initialize_camera lib c0).defocus_disk_u)
        + (p1 * (initialize_camera lib c0).defocus_disk_v))
      - (initialize_camera lib c0).center) (initialize_camera lib c0).w = 0 := by
  obtain ⟨_, _, _, _, hvw, hwu⟩ := hon
  obtain ⟨_, _, _, h4, h5⟩ := initialize_viewport lib c0
  rw [h4, h5]
  generalize (initialize_camera lib c0).u = U at *
  generalize (initialize_camera lib c0).v = V at *
  generalize (initialize_camera lib c0).w = W at *
  generalize (initialize_camera lib c0).center = C at *
  generalize c0.focus_dist * lib.tan (degrees_to_radians lib (c0.defocus_angle / 2)) = rad at *
  unfold dot at hvw hwu ⊢
  simp only [vec3_add_def, vec3_sub_def, vec3_smul_def, vec3_mul_scalar_def]
  linear_combination (p0 * rad) * hwu + (p1 * rad) * hvw

omit [FloorRing K] in
theorem dot_sub_left (a b w : vec3 K) : dot (a - b) w = dot a w - dot b w := by
  rw [vec3_sub_def]
  unfold dot
  ring

/-- C20.  Samples lie in the focus plane: over exact arithmetic, when the
`u`, `v`, `w` of the initialised camera are orthonormal, for every pixel
`(i, j)` and every jitter offset the sample point `p` of `get_ray` satisfies
`(p - center) . w = -focus_dist`; every defocus-disk origin
`o = center + p0 * defocus_disk_u + p1 * defocus_disk_v` satisfies
`(o - center) . w = 0`; hence the direction of every ray generated by `get_ray`
has `w`-component exactly `-focus_dist`, whatever `defocus_angle` is. -/
theorem samples_in_focus_plane (lib : library K G M) (c0 : camera K) (i j : Int) (g : G)
    (hon : orthonormal (initialize_camera lib c0).u (initialize_camera lib c0).v
      (initialize_camera lib c0).w) :
    (∀ offset : vec3 K,
      dot (pixel_sample (initialize_camera lib c0) i j offset
        - (initialize_camera lib c0).center) (initialize_camera lib c0).w = -c0.focus_dist) ∧
    (∀ p0 p1 : K,
      dot (((initialize_camera lib c0).center
          + (p0 * (initialize_camera lib c0).defocus_disk_u)
          + (p1 * (initialize_camera lib c0).defocus_disk_v))
        - (initialize_camera lib c0).center) (initialize_camera lib c0).w = 0) ∧
    dot (get_ray lib (initialize_camera lib c0) i j g).1.dir (initialize_camera lib c0).w
      = -c0.focus_dist := by
  have hp := fun offset => pixel_sample_in_focus_plane lib c0 i j offset hon
  have hdisk := fun p0 p1 => defocus_disk_in_lens_plane lib c0 p0 p1 hon
  refine ⟨hp, hdisk, ?_⟩
  rw [get_ray_direction, get_ray_origin]
  have hps := hp (sample_square lib g).1
  rw [dot_sub_left] at hps
  rw [dot_sub_left]
  split
  · linarith
  · rw [defocus_disk_sample_eq]
    have hd := hdisk
      ((lib.random_in_unit_disk (sample_square lib g).2).1.get 0)
      ((lib.random_in_unit_disk (sample_square lib g).2).1.get 1)
    rw [dot_sub_left] at hd
    linarith

end focus_plane

/-- C20 over the real numbers, with `Real.sqrt`, at the default camera and
pixel `(3, 5)`. -/
theorem samples_in_focus_plane_witness :
    ∃ lib : library ℝ Unit Unit,
      lib.sqrt = Real.sqrt ∧
      orthonormal (initialize_camera lib (standard_camera ℝ)).u
        (initialize_camera lib (standard_camera ℝ)).v
        (initialize_camera lib (standard_camera ℝ)).w ∧
      dot (get_ray lib (initialize_camera lib (standard_camera ℝ)) 3 5 ()).1.dir
        (initialize_camera lib (standard_camera ℝ)).w = -(standard_camera ℝ).focus_dist :=
  ⟨⟨Real.pi, Real.tan, Real.sqrt, fun g => (0, g), fun g => (⟨0, 0, 0⟩, g),
      fun _ _ _ g => (none, g)⟩,
    rfl,
    (initialize_orthonormal _ (standard_camera ℝ) (real_sqrt_exact _ rfl)
      (standard_camera_looks ℝ).1 (standard_camera_looks ℝ).2).1,
    (samples_in_focus_plane _ (standard_camera ℝ) 3 5 ()
      (initialize_orthonormal _ (standard_camera ℝ) (real_sqrt_exact _ rfl)
        (standard_camera_looks ℝ).1 (standard_camera_looks ℝ).2).1).2.2⟩


/-! ## C16 : where a pixel is sampled -/

section pixel_centre

variable {K G M : Type} [LinearOrderedField K] [FloorRing K]

omit [FloorRing K] in
/-- The jitter of `sample_square` lies in `[-0.5, 0.5)` in both coordinates. -/
theorem sample_square_bounds (lib : library K G M) (hdraw : draws_in_unit_interval lib)
    (g : G) :
    -0.5 ≤ (sample_square lib g).1.x ∧ (sample_square lib g).1.x < 0.5 ∧
    -0.5 ≤ (sample_square lib g).1.y ∧ (sample_square lib g).1.y < 0.5 := by
  rw [sample_square_eq]
  have h1 := hdraw g
  have h2 := hdraw (lib.random_double g).2
  simp only
  norm_num
  refine ⟨by linarith [h1.1], by linarith [h1.2], by linarith [h2.1], by linarith [h2.2]⟩

/-- The sample point in terms of the upper left corner of the viewport. -/
theorem pixel_sample_from_corner (lib : library K G M) (c0 : camera K) (i j : Int)
    (offset : vec3 K) :
    pixel_sample (initialize_camera lib c0) i j offset =
      viewport_upper_left lib c0
        + (((i : K) + 0.5 + offset.x) * (initialize_camera lib c0).pixel_delta_u)
        + (((j : K) + 0.5 + offset.y) * (initialize_camera lib c0).pixel_delta_v) := by
  obtain ⟨_, _, h3, _, _⟩ := initialize_viewport lib c0
  unfold pixel_sample
  rw [h3]
  generalize (initialize_camera lib c0).pixel_delta_u = du
  generalize (initialize_camera lib c0).pixel_delta_v = dv
  generalize viewport_upper_left lib c0 = ul
  simp only [vec3_add_def, vec3_smul_def]
  apply vec3_eq <;> simp only <;> ring

/-- The sample point as a point of the viewport rectangle. -/
theorem pixel_sample_in_viewport (lib : library K G M) (c0 : camera K) (i j : Int)
    (offset : vec3 K) :
    pixel_sample (initialize_camera lib c0) i j offset =
      viewport_upper_left lib c0
        + ((((i : K) + 0.5 + offset.x) / (c0.image_width : K)) * viewport_u lib c0)
        + ((((j : K) + 0.5 + offset.y) / ((initialize_camera lib c0).image_height : K))
            * viewport_v lib c0) := by
  obtain ⟨h1, h2, _, _, _⟩ := initialize_viewport lib c0
  rw [pixel_sample_from_corner, h1, h2]
  generalize viewport_u lib c0 = vu
  generalize viewport_v lib c0 = vv
  generalize viewport_upper_left lib c0 = ul
  generalize ((initialize_camera lib c0).image_height : K) = H
  simp only [vec3_add_def, vec3_smul_def, vec3_div_def]
  apply vec3_eq <;> simp only <;> ring

end pixel_centre

section pixel_centre_claim

variable {K G M : Type} [LinearOrderedField K] [FloorRing K]

/-- C16.  Pixel-centre sampling: after `initialize` with `image_width ≥ 1`
(the height is then `≥ 1` too), for every pixel `(i, j)` the ray of `get_ray`
points from its origin to the sample point `pixel_sample` taken with the jitter
of `sample_square`; for a jitter `(ox, oy)` the sample point is
`viewport_upper_left + (i + 0.5 + ox) * pixel_delta_u +
(j + 0.5 + oy) * pixel_delta_v`; with zero jitter it is the centre of the cell
`(i, j)`, midway between the corners `(i, j)` and `(i + 1, j + 1)`; the jitter
of `sample_square` lies in `[-0.5, 0.5)^2`, and for every such jitter the
coefficients lie in `[i, i + 1) x [j, j + 1)`; so for `0 ≤ i < image_width`
and `0 ≤ j < image_height` the sample is
`viewport_upper_left + s * viewport_u + t * viewport_v` with `s` and `t` in
`[0, 1)`: it stays inside the viewport rectangle. -/
theorem pixel_centre_sampling (lib : library K G M) (c0 : camera K) (i j : Int) (g : G)
    (hw : 1 ≤ c0.image_width) (hdraw : draws_in_unit_interval lib) :
    1 ≤ (initialize_camera lib c0).image_height ∧
    (get_ray lib (initialize_camera lib c0) i j g).1.dir =
      pixel_sample (initialize_camera lib c0) i j (sample_square lib g).1
        - (get_ray lib (initialize_camera lib c0) i j g).1.orig ∧
    (∀ offset : vec3 K,
      pixel_sample (initialize_camera lib c0) i j offset =
        viewport_upper_left lib c0
          + (((i : K) + 0.5 + offset.x) * (initialize_camera lib c0).pixel_delta_u)
          + (((j : K) + 0.5 + offset.y) * (initialize_camera lib c0).pixel_delta_v)) ∧
    pixel_sample (initialize_camera lib c0) i j ⟨0, 0, 0⟩ =
      (0.5 : K) *
        ((viewport_upper_left lib c0
            + ((i : K) * (initialize_camera lib c0).pixel_delta_u)
            + ((j : K) * (initialize_camera lib c0).pixel_delta_v))
          + (viewport_upper_left lib c0
            + (((i : K) + 1) * (initialize_camera lib c0).pixel_delta_u)
            + (((j : K) + 1) * (initialize_camera lib c0).pixel_delta_v))) ∧
    (-0.5 ≤ (sample_square lib g).1.x ∧ (sample_square lib g).1.x < 0.5 ∧
      -0.5 ≤ (sample_square lib g).1.y ∧ (sample_square lib g).1.y < 0.5) ∧
    (∀ offset : vec3 K, -0.5 ≤ offset.x → offset.x < 0.5 → -0.5 ≤ offset.y → offset.y < 0.5 →
      ((i : K) ≤ (i : K) + 0.5 + offset.x ∧ (i : K) + 0.5 + offset.x < (i : K) + 1 ∧
        (j : K) ≤ (j : K) + 0.5 + offset.y ∧ (j : K) + 0.5 + offset.y < (j : K) + 1) ∧
      (0 ≤ i → i < c0.image_width → 0 ≤ j → j < (initialize_camera lib c0).image_height →
        ∃ s t : K, 0 ≤ s ∧ s < 1 ∧ 0 ≤ t ∧ t < 1 ∧
          pixel_sample (initialize_camera lib c0) i j offset =
            viewport_upper_left lib c0 + (s * viewport_u lib c0) + (t * viewport_v lib c0))) := by
  have hh : 1 ≤ (initialize_camera lib c0).image_height := by
    rw [initialize_image_height]
    split <;> omega
  refine ⟨hh, get_ray_direction lib _ i j g, pixel_sample_from_corner lib c0 i j, ?_,
    sample_square_bounds lib hdraw g, ?_⟩
  · rw [pixel_sample_from_corner]
    generalize (initialize_camera lib c0).pixel_delta_u = du
    generalize (initialize_camera lib c0).pixel_delta_v = dv
    generalize viewport_upper_left lib c0 = ul
    simp only [vec3_add_def, vec3_smul_def]
    apply vec3_eq <;> simp only <;> ring
  · intro offset hx0 hx1 hy0 hy1
    refine ⟨⟨by linarith, by linarith, by linarith, by linarith⟩, ?_⟩
    intro hi0 hi1 hj0 hj1
    have hW : (0 : K) < (c0.image_width : K) := by
      exact_mod_cast (show (0 : Int) < c0.image_width by omega)
    have hH : (0 : K) < ((initialize_camera lib c0).image_height : K) := by
      exact_mod_cast (show (0 : Int) < (initialize_camera lib c0).image_height by omega)
    have hi0K : (0 : K) ≤ (i : K) := by exact_mod_cast hi0
    have hj0K : (0 : K) ≤ (j : K) := by exact_mod_cast hj0
    have hi1K : (i : K) + 1 ≤ (c0.image_width : K) := by
      exact_mod_cast (show i + 1 ≤ c0.image_width by omega)
    have hj1K : (j : K) + 1 ≤ ((initialize_camera lib c0).image_height : K) := by
      exact_mod_cast (show j + 1 ≤ (initialize_camera lib c0).image_height by omega)
    refine ⟨((i : K) + 0.5 + offset.x) / (c0.image_width : K),
      ((j : K) + 0.5 + offset.y) / ((initialize_camera lib c0).image_height : K),
      ?_, ?_, ?_, ?_, pixel_sample_in_viewport lib c0 i j offset⟩
    · exact div_nonneg (by linarith) (le_of_lt hW)
    · rw [div_lt_one hW]
      linarith
    · exact div_nonneg (by linarith) (le_of_lt hH)
    · rw [div_lt_one hH]
      linarith

end pixel_centre_claim

theorem demo_draws : draws_in_unit_interval demo_library := by
  intro g
  show (0 : ℚ) ≤ ((g % 4 : Nat) : ℚ) / 4 ∧ ((g % 4 : Nat) : ℚ) / 4 < 1
  have h : g % 4 < 4 := Nat.mod_lt g (by decide)
  have hq : ((g % 4 : Nat) : ℚ) < 4 := by exact_mod_cast h
  constructor
  · positivity
  · linarith

/-- C16 at the 4 by 2 camera, pixel `(3, 1)`. -/
theorem pixel_centre_sampling_witness :
    ((1 : Int) ≤ camera_4x2.image_width ∧ draws_in_unit_interval demo_library) ∧
    (∀ offset : vec3 ℚ,
      pixel_sample (initialize_camera demo_library camera_4x2) 3 1 offset =
        viewport_upper_left demo_library camera_4x2
          + ((((3 : Int) : ℚ) + 0.5 + offset.x)
              * (initialize_camera demo_library camera_4x2).pixel_delta_u)
          + ((((1 : Int) : ℚ) + 0.5 + offset.y)
              * (initialize_camera demo_library camera_4x2).pixel_delta_v)) :=
  ⟨⟨by decide, demo_draws⟩,
    (pixel_centre_sampling demo_library camera_4x2 3 1 0 (by decide) demo_draws).2.2.1⟩


/-! ## C17 : square pixels -/

section pixel_shape

variable {K G M : Type} [LinearOrderedField K] [FloorRing K]

omit [FloorRing K] in
/-- The length of a multiple of a unit vector. -/
theorem length_smul_unit (lib : library K G M) (hs : sqrt_exact lib) (t : K) (a : vec3 K)
    (ha : dot a a = 1) : vec3.length lib (t * a) = |t| := by
  unfold vec3.length
  rw [length_squared_eq_dot, dot_smul_left, dot_smul_right, ha, mul_one,
    ← abs_mul_abs_self t]
  exact sqrt_mul_self lib hs |t| (abs_nonneg t)

theorem initialize_height_pos (lib : library K G M) (c : camera K) :
    1 ≤ (initialize_camera lib c).image_height := by
  rw [initialize_image_height]
  split <;> omega

/-- The pixel deltas as multiples of `u` and `v`. -/
theorem pixel_deltas_along_basis (lib : library K G M) (c : camera K)
    (hw : 1 ≤ c.image_width) :
    (initialize_camera lib c).pixel_delta_u =
      (viewport_height lib c / ((initialize_camera lib c).image_height : K))
        * (initialize_camera lib c).u ∧
    (initialize_camera lib c).pixel_delta_v =
      (-(viewport_height lib c / ((initialize_camera lib c).image_height : K)))
        * (initialize_camera lib c).v := by
  obtain ⟨h1, h2, _, _, _⟩ := initialize_viewport lib c
  have hW : (c.image_width : K) ≠ 0 := by
    have : (0 : K) < (c.image_width : K) := by
      exact_mod_cast (show (0 : Int) < c.image_width by omega)
    exact ne_of_gt this
  have hH : ((initialize_camera lib c).image_height : K) ≠ 0 := by
    have : (0 : K) < ((initialize_camera lib c).image_height : K) := by
      exact_mod_cast (show (0 : Int) < (initialize_camera lib c).image_height by
        have := initialize_height_pos lib c
        omega)
    exact ne_of_gt this
  rw [h1, h2]
  unfold viewport_u viewport_v viewport_width
  generalize (initialize_camera lib c).u = U
  generalize (initialize_camera lib c).v = V
  generalize ((initialize_camera lib c).image_height : K) = H at hH ⊢
  generalize viewport_height lib c = vh
  simp only [vec3_smul_def, vec3_div_def, vec3_neg_def]
  constructor
  · apply vec3_eq <;> simp only <;> field_simp <;> ring
  · apply vec3_eq <;> simp only <;> ring

/-- C17 (amended).  Square pixels from the actual ratio, over exact arithmetic
with `sqrt` the real square root: for every `image_width ≥ 1` and orthonormal
`u`, `v`, `w`, the viewport width computed by `initialize` is
`viewport_height * image_width / image_height`, with `image_height` the
clamped integer height; `pixel_delta_u = (viewport_height / image_height) * u`
and `pixel_delta_v = -(viewport_height / image_height) * v`; consequently
`|pixel_delta_u| = |pixel_delta_v| = |viewport_height| / image_height`, which is
`viewport_height / image_height` when `viewport_height ≥ 0`. -/
theorem square_pixels (lib : library K G M) (c : camera K) (hs : sqrt_exact lib)
    (hw : 1 ≤ c.image_width)
    (hon : orthonormal (initialize_camera lib c).u (initialize_camera lib c).v
      (initialize_camera lib c).w) :
    viewport_width lib c =
      viewport_height lib c * (c.image_width : K)
        / ((initialize_camera lib c).image_height : K) ∧
    (initialize_camera lib c).pixel_delta_u =
      (viewport_height lib c / ((initialize_camera lib c).image_height : K))
        * (initialize_camera lib c).u ∧
    (initialize_camera lib c).pixel_delta_v =
      (-(viewport_height lib c / ((initialize_camera lib c).image_height : K)))
        * (initialize_camera lib c).v ∧
    vec3.length lib (initialize_camera lib c).pixel_delta_u =
      |viewport_height lib c| / ((initialize_camera lib c).image_height : K) ∧
    vec3.length lib (initialize_camera lib c).pixel_delta_v =
      |viewport_height lib c| / ((initialize_camera lib c).image_height : K) ∧
    (0 ≤ viewport_height lib c →
      vec3.length lib (initialize_camera lib c).pixel_delta_u =
        viewport_height lib c / ((initialize_camera lib c).image_height : K) ∧
      vec3.length lib (initialize_camera lib c).pixel_delta_v =
        viewport_height lib c / ((initialize_camera lib c).image_height : K)) := by
  obtain ⟨huu, hvv, _, _, _, _⟩ := hon
  obtain ⟨hdu, hdv⟩ := pixel_deltas_along_basis lib c hw
  have hH : (0 : K) < ((initialize_camera lib c).image_height : K) := by
    exact_mod_cast (show (0 : Int) < (initialize_camera lib c).image_height by
      have := initialize_height_pos lib c
      omega)
  have habs : |viewport_height lib c / ((initialize_camera lib c).image_height : K)| =
      |viewport_height lib c| / ((initialize_camera lib c).image_height : K) := by
    rw [abs_div, abs_of_pos hH]
  have hlu : vec3.length lib (initialize_camera lib c).pixel_delta_u =
      |viewport_height lib c| / ((initialize_camera lib c).image_height : K) := by
    rw [hdu, length_smul_unit lib hs _ _ huu, habs]
  have hlv : vec3.length lib (initialize_camera lib c).pixel_delta_v =
      |viewport_height lib c| / ((initialize_camera lib c).image_height : K) := by
    rw [hdv, length_smul_unit lib hs _ _ hvv, abs_neg, habs]
  refine ⟨?_, hdu, hdv, hlu, hlv, ?_⟩
  · unfold viewport_width
    ring
  · intro h0
    rw [hlu, hlv, abs_of_nonneg h0]
    exact ⟨rfl, rfl⟩

end pixel_shape

theorem plain_sqrt_exact (p : ℝ) (t : ℝ → ℝ) : sqrt_exact (plain_library ℝ p t Real.sqrt) :=
  real_sqrt_exact _ rfl

theorem camera_focus_behind_looks (K : Type) [LinearOrderedField K] :
    (camera_focus_behind K).lookfrom ≠ (camera_focus_behind K).lookat ∧
    cross (camera_focus_behind K).vup
      ((camera_focus_behind K).lookfrom - (camera_focus_behind K).lookat) ≠ ⟨0, 0, 0⟩ :=
  standard_camera_looks K

/-- C17 over the real numbers at the default camera. -/
theorem square_pixels_witness :
    (sqrt_exact (plain_library ℝ Real.pi Real.tan Real.sqrt) ∧
      1 ≤ (standard_camera ℝ).image_width ∧
      orthonormal
        (initialize_camera (plain_library ℝ Real.pi Real.tan Real.sqrt) (standard_camera ℝ)).u
        (initialize_camera (plain_library ℝ Real.pi Real.tan Real.sqrt) (standard_camera ℝ)).v
        (initialize_camera (plain_library ℝ Real.pi Real.tan Real.sqrt)
          (standard_camera ℝ)).w) ∧
    vec3.length (plain_library ℝ Real.pi Real.tan Real.sqrt)
        (initialize_camera (plain_library ℝ Real.pi Real.tan Real.sqrt)
          (standard_camera ℝ)).pixel_delta_u =
      |viewport_height (plain_library ℝ Real.pi Real.tan Real.sqrt) (standard_camera ℝ)|
        / ((initialize_camera (plain_library ℝ Real.pi Real.tan Real.sqrt)
            (standard_camera ℝ)).image_height : ℝ) ∧
    vec3.length (plain_library ℝ Real.pi Real.tan Real.sqrt)
        (initialize_camera (plain_library ℝ Real.pi Real.tan Real.sqrt)
          (standard_camera ℝ)).pixel_delta_v =
      |viewport_height (plain_library ℝ Real.pi Real.tan Real.sqrt) (standard_camera ℝ)|
        / ((initialize_camera (plain_library ℝ Real.pi Real.tan Real.sqrt)
            (standard_camera ℝ)).image_height : ℝ) :=
  ⟨⟨plain_sqrt_exact _ _, by decide,
      (initialize_orthonormal _ (standard_camera ℝ) (plain_sqrt_exact _ _)
        (standard_camera_looks ℝ).1 (standard_camera_looks ℝ).2).1⟩,
    (square_pixels _ (standard_camera ℝ) (plain_sqrt_exact _ _) (by decide)
      (initialize_orthonormal _ (standard_camera ℝ) (plain_sqrt_exact _ _)
        (standard_camera_looks ℝ).1 (standard_camera_looks ℝ).2).1).2.2.2.1,
    (square_pixels _ (standard_camera ℝ) (plain_sqrt_exact _ _) (by decide)
      (initialize_orthonormal _ (standard_camera ℝ) (plain_sqrt_exact _ _)
        (standard_camera_looks ℝ).1 (standard_camera_looks ℝ).2).1).2.2.2.2.1⟩

theorem viewport_height_focus_behind :
    viewport_height (plain_library ℝ Real.pi Real.tan Real.sqrt) (camera_focus_behind ℝ)
      = -20 := by
  show 2 * Real.tan ((90 : ℝ) * Real.pi / 180 / 2) * (-10) = -20
  have e : (90 : ℝ) * Real.pi / 180 / 2 = Real.pi / 4 := by ring
  rw [e, Real.tan_pi_div_four]
  norm_num

/-- C17 fails as stated: over the real numbers, with `focus_dist = -10` (and
`vfov = 90`, `image_width = 100`, `aspect_ratio = 1`), the basis is
orthonormal and `viewport_height = -20`, so `viewport_height / image_height`
is negative and cannot be the length of `pixel_delta_v`. -/
theorem square_pixels_counterexample :
    1 ≤ (camera_focus_behind ℝ).image_width ∧
    0 < (camera_focus_behind ℝ).aspect_ratio ∧
    orthonormal
      (initialize_camera (plain_library ℝ Real.pi Real.tan Real.sqrt)
        (camera_focus_behind ℝ)).u
      (initialize_camera (plain_library ℝ Real.pi Real.tan Real.sqrt)
        (camera_focus_behind ℝ)).v
      (initialize_camera (plain_library ℝ Real.pi Real.tan Real.sqrt)
        (camera_focus_behind ℝ)).w ∧
    viewport_height (plain_library ℝ Real.pi Real.tan Real.sqrt) (camera_focus_behind ℝ)
      = -20 ∧
    vec3.length (plain_library ℝ Real.pi Real.tan Real.sqrt)
        (initialize_camera (plain_library ℝ Real.pi Real.tan Real.sqrt)
          (camera_focus_behind ℝ)).pixel_delta_v ≠
      viewport_height (plain_library ℝ Real.pi Real.tan Real.sqrt) (camera_focus_behind ℝ)
        / ((initialize_camera (plain_library ℝ Real.pi Real.tan Real.sqrt)
            (camera_focus_behind ℝ)).image_height : ℝ) := by
  have hH : (0 : ℝ) < ((initialize_camera (plain_library ℝ Real.pi Real.tan Real.sqrt)
      (camera_focus_behind ℝ)).image_height : ℝ) := by
    exact_mod_cast (show (0 : Int) < (initialize_camera
        (plain_library ℝ Real.pi Real.tan Real.sqrt) (camera_focus_behind ℝ)).image_height by
      have := initialize_height_pos (plain_library ℝ Real.pi Real.tan Real.sqrt)
        (camera_focus_behind ℝ)
      omega)
  have ha : 0 < (camera_focus_behind ℝ).aspect_ratio := by
    show (0 : ℝ) < 1
    norm_num
  refine ⟨by decide, ha,
    (initialize_orthonormal _ (camera_focus_behind ℝ) (plain_sqrt_exact _ _)
      (camera_focus_behind_looks ℝ).1 (camera_focus_behind_looks ℝ).2).1,
    viewport_height_focus_behind, ?_⟩
  rw [viewport_height_focus_behind]
  intro h
  have hlen : 0 ≤ vec3.length (plain_library ℝ Real.pi Real.tan Real.sqrt)
      (initialize_camera (plain_library ℝ Real.pi Real.tan Real.sqrt)
        (camera_focus_behind ℝ)).pixel_delta_v := Real.sqrt_nonneg _
  rw [h] at hlen
  have hneg : (-20 : ℝ) / ((initialize_camera (plain_library ℝ Real.pi Real.tan Real.sqrt)
      (camera_focus_behind ℝ)).image_height : ℝ) < 0 :=
    div_neg_of_neg_of_pos (by norm_num) hH
  linarith


/-! ## C13 : radiance is non-negative -/

section nonnegative

variable {K G M : Type} [LinearOrderedField K]

/-- The length of a vector that is not zero is not zero. -/
theorem length_ne_zero (lib : library K G M) (hs : sqrt_exact lib) (d : vec3 K)
    (hd : d ≠ ⟨0, 0, 0⟩) : vec3.length lib d ≠ 0 :=
  ne_of_gt (sqrt_pos lib hs (dot d d) (dot_self_pos d hd))

/-- The vertical component of the unit vector of a vector of non-zero length
lies in `[-1, 1]`. -/
theorem unit_vector_y_bounds (lib : library K G M) (hs : sqrt_exact lib) (d : vec3 K)
    (hlen : vec3.length lib d ≠ 0) :
    -1 ≤ (unit_vector lib d).y ∧ (unit_vector lib d).y ≤ 1 := by
  obtain ⟨h0, h1⟩ := hs (dot d d) (dot_self_nonneg d)
  have hy : d.y * d.y ≤ dot d d := by
    unfold dot
    nlinarith [mul_self_nonneg d.x, mul_self_nonneg d.z]
  have hpos : 0 < lib.sqrt (dot d d) := lt_of_le_of_ne h0 (Ne.symm hlen)
  unfold unit_vector vec3.length
  rw [length_squared_eq_dot, vec3_div_def]
  simp only
  have habs : |d.y| ≤ lib.sqrt (dot d d) := by
    apply abs_le_of_sq_le_sq _ h0
    rw [sq, sq, h1]
    exact hy
  have hb := abs_le.mp habs
  rw [one_div, inv_mul_eq_div]
  constructor
  · rw [le_div_iff₀ hpos]
    linarith [hb.1]
  · rw [div_le_iff₀ hpos]
    linarith [hb.2]

/-- The background gradient is non-negative as soon as `y ≤ 1`. -/
theorem gradient_nonneg (y : K) (h2 : y ≤ 1) :
    nonneg ((1.0 - 0.5 * (y + 1.0)) * (⟨1.0, 1.0, 1.0⟩ : color K)
      + (0.5 * (y + 1.0)) * (⟨0.5, 0.7, 1.0⟩ : color K)) := by
  simp only [vec3_add_def, vec3_smul_def]
  unfold nonneg
  refine ⟨?_, ?_, ?_⟩ <;> norm_num <;> linarith

theorem nonneg_zero : nonneg (⟨0, 0, 0⟩ : color K) :=
  ⟨le_refl _, le_refl _, le_refl _⟩

theorem nonneg_add (a b : color K) (ha : nonneg a) (hb : nonneg b) : nonneg (a + b) :=
  ⟨add_nonneg ha.1 hb.1, add_nonneg ha.2.1 hb.2.1, add_nonneg ha.2.2 hb.2.2⟩

theorem nonneg_mul (a b : color K) (ha : nonneg a) (hb : nonneg b) : nonneg (a * b) :=
  ⟨mul_nonneg ha.1 hb.1, mul_nonneg ha.2.1 hb.2.1, mul_nonneg ha.2.2 hb.2.2⟩

theorem nonneg_smul (t : K) (a : color K) (ht : 0 ≤ t) (ha : nonneg a) : nonneg (t * a) :=
  ⟨mul_nonneg ht ha.1, mul_nonneg ht ha.2.1, mul_nonneg ht ha.2.2⟩

/-- The first branch of `ray_color_checked`. -/
theorem ray_color_checked_exhausted (lib : library K G M) (c : camera K) (r : ray K)
    (depth : Int) (world : hittable K G M) (g : G) (h : depth ≤ 0) :
    ray_color_checked lib c r depth world g = some ⟨⟨0, 0, 0⟩, g, 0, 0⟩ := by
  rw [ray_color_checked]
  simp only [h, dite_true]

/-- The body of `ray_color_checked` at a positive depth. -/
theorem ray_color_checked_positive (lib : library K G M) (c : camera K) (r : ray K)
    (depth : Int) (world : hittable K G M) (g : G) (h : 0 < depth) :
    ray_color_checked lib c r depth world g =
      match world.hit r ⟨0.001, none⟩ g with
      | (some rec, g1) =>
        match lib.scatter rec.mat r rec g1 with
        | (some (attenuation, scattered), g2) =>
          match ray_color_checked lib c scattered (int_sub depth 1) world g2 with
          | some sub =>
            some ⟨attenuation * sub.value, sub.g, sub.hits + 1, sub.scatters + 1⟩
          | none => none
        | (none, g2) => some ⟨⟨0, 0, 0⟩, g2, 1, 1⟩
      | (none, g1) =>
        if vec3.length lib r.direction = 0 then none
        else
          some ⟨(1.0 - 0.5 * ((unit_vector lib r.direction).y + 1.0)) *
              (⟨1.0, 1.0, 1.0⟩ : color K)
            + (0.5 * ((unit_vector lib r.direction).y + 1.0)) * (⟨0.5, 0.7, 1.0⟩ : color K),
            g1, 1, 0⟩ := by
  rw [ray_color_checked]
  simp only [not_le.mpr h, dite_false]

/-- A ray of zero length that hits nothing: `unit_vector` divides by zero, and
`ray_color` has no colour to return. -/
theorem ray_color_checked_zero (lib : library K G M) (c : camera K) (r : ray K)
    (depth : Int) (world : hittable K G M) (g : G) (hd : 0 < depth)
    (hmiss : (world.hit r ⟨0.001, none⟩ g).1 = none)
    (hlen : vec3.length lib r.direction = 0) :
    ray_color_checked lib c r depth world g = none := by
  rw [ray_color_checked_positive lib c r depth world g hd]
  rcases hq : world.hit r ⟨0.001, none⟩ g with ⟨o, g1⟩
  rw [hq] at hmiss
  simp only at hmiss
  subst hmiss
  simp only [hlen, if_true]

/-- Where `ray_color_checked` has a result, it is that of `ray_color`, and its
colour is non-negative when attenuations are. -/
theorem ray_color_checked_sound (lib : library K G M) (c : camera K) (world : hittable K G M)
    (hs : sqrt_exact lib)
    (hatt : ∀ (m : M) (r : ray K) (rec : hit_record K M) (g : G) (A : color K) (s : ray K)
      (g1 : G), lib.scatter m r rec g = (some (A, s), g1) → nonneg A)
    (n : Nat) :
    ∀ (depth : Int) (r : ray K) (g : G), depth.toNat ≤ n →
      ∀ res : radiance K G, ray_color_checked lib c r depth world g = some res →
        res = ray_color lib c r depth world g ∧ nonneg res.value := by
  induction n with
  | zero =>
    intro depth r g hn res hres
    rw [ray_color_checked_exhausted lib c r depth world g (by omega)] at hres
    rw [ray_color_exhausted lib c r depth world g (by omega), ← Option.some.inj hres]
    exact ⟨rfl, nonneg_zero⟩
  | succ m ih =>
    intro depth r g hn res hres
    by_cases hd : depth ≤ 0
    · rw [ray_color_checked_exhausted lib c r depth world g hd] at hres
      rw [ray_color_exhausted lib c r depth world g hd, ← Option.some.inj hres]
      exact ⟨rfl, nonneg_zero⟩
    · have hpos : 0 < depth := by omega
      have hlt := int_sub_one_toNat_lt depth hpos
      rw [ray_color_checked_positive lib c r depth world g hpos] at hres
      rw [ray_color_positive lib c r depth world g hpos]
      generalize world.hit r ⟨0.001, none⟩ g = hit at hres ⊢
      obtain ⟨o, g1⟩ := hit
      cases o with
      | none =>
        simp only at hres ⊢
        by_cases hlen : vec3.length lib r.direction = 0
        · rw [if_pos hlen] at hres
          exact absurd hres (by simp)
        · rw [if_neg hlen] at hres
          rw [← Option.some.inj hres]
          obtain ⟨_, hy2⟩ := unit_vector_y_bounds lib hs r.direction hlen
          exact ⟨rfl, gradient_nonneg _ hy2⟩
      | some rec =>
        simp only at hres ⊢
        rcases hq : lib.scatter rec.mat r rec g1 with ⟨so, g2⟩
        rw [hq] at hres
        cases so with
        | none =>
          simp only at hres ⊢
          rw [← Option.some.inj hres]
          exact ⟨rfl, nonneg_zero⟩
        | some p =>
          obtain ⟨attenuation, scattered⟩ := p
          simp only at hres ⊢
          cases hsub : ray_color_checked lib c scattered (int_sub depth 1) world g2 with
          | none =>
            rw [hsub] at hres
            exact absurd hres (by simp)
          | some sub =>
            rw [hsub] at hres
            simp only at hres
            obtain ⟨e, hnn⟩ := ih (int_sub depth 1) scattered g2 (by omega) sub hsub
            rw [← Option.some.inj hres, ← e]
            exact ⟨rfl, nonneg_mul _ _ (hatt _ _ _ _ _ _ _ hq) hnn⟩

/-- `ray_color_checked` has a result on a ray of non-zero direction, when the
rays that the materials scatter have a non-zero direction. -/
theorem ray_color_checked_defined (lib : library K G M) (c : camera K)
    (world : hittable K G M) (hs : sqrt_exact lib)
    (hdir : ∀ (m : M) (r : ray K) (rec : hit_record K M) (g : G) (A : color K) (s : ray K)
      (g1 : G), lib.scatter m r rec g = (some (A, s), g1) → s.dir ≠ ⟨0, 0, 0⟩)
    (n : Nat) :
    ∀ (depth : Int) (r : ray K) (g : G), depth.toNat ≤ n → r.dir ≠ ⟨0, 0, 0⟩ →
      ∃ res : radiance K G, ray_color_checked lib c r depth world g = some res := by
  induction n with
  | zero =>
    intro depth r g hn _
    exact ⟨_, ray_color_checked_exhausted lib c r depth world g (by omega)⟩
  | succ m ih =>
    intro depth r g hn hr
    by_cases hd : depth ≤ 0
    · exact ⟨_, ray_color_checked_exhausted lib c r depth world g hd⟩
    · have hpos : 0 < depth := by omega
      have hlt := int_sub_one_toNat_lt depth hpos
      rw [ray_color_checked_positive lib c r depth world g hpos]
      rcases world.hit r ⟨0.001, none⟩ g with ⟨o, g1⟩
      cases o with
      | none =>
        simp only
        rw [if_neg (length_ne_zero lib hs r.direction hr)]
        exact ⟨_, rfl⟩
      | some rec =>
        simp only
        rcases hq : lib.scatter rec.mat r rec g1 with ⟨so, g2⟩
        cases so with
        | none => exact ⟨_, rfl⟩
        | some p =>
          obtain ⟨attenuation, scattered⟩ := p
          simp only
          obtain ⟨sub, hsub⟩ := ih (int_sub depth 1) scattered g2 (by omega)
            (hdir _ _ _ _ _ _ _ hq)
          rw [hsub]
          exact ⟨_, rfl⟩

theorem foldl_add_nonneg (l : List (color K)) (h : ∀ x ∈ l, nonneg x) :
    ∀ acc : color K, nonneg acc → nonneg (l.foldl (fun a x => a + x) acc) := by
  induction l with
  | nil =>
    intro acc ha
    exact ha
  | cons x xs ih =>
    intro acc ha
    rw [List.foldl_cons]
    exact ih (fun y hy => h y (List.mem_cons_of_mem _ hy)) _
      (nonneg_add _ _ ha (h x (List.mem_cons_self _ _)))

theorem store_all_nonneg (log : List (Int × color K)) :
    ∀ l fb1 : List (color K), (∀ e ∈ l, nonneg e) → (∀ wr ∈ log, nonneg wr.2) →
      store_all log l = some fb1 → ∀ e ∈ fb1, nonneg e := by
  induction log with
  | nil =>
    intro l fb1 hl _ h e he
    rw [store_all_nil] at h
    rw [← Option.some.inj h] at he
    exact hl e he
  | cons wr rest ih =>
    intro l fb1 hl hlog h e he
    obtain ⟨fb2, h1, h2⟩ := (store_all_cons wr rest l fb1).mp h
    apply ih fb2 fb1 _ (fun w hw => hlog w (List.mem_cons_of_mem _ hw)) h2 e he
    intro x hx
    rw [(store_eq_some l fb2 wr h1).2] at hx
    rcases List.mem_or_eq_of_mem_set hx with h | h
    · exact hl x h
    · rw [h]
      exact hlog wr (List.mem_cons_self _ _)

theorem resize_nonneg (l : List (color K)) (n : Nat) (hl : ∀ e ∈ l, nonneg e) :
    ∀ e ∈ resize l n, nonneg e := by
  intro e he
  unfold resize at he
  rcases List.mem_append.mp he with h | h
  · exact hl e (List.mem_of_mem_take h)
  · rw [List.eq_of_mem_replicate h]
    exact nonneg_zero

/-- Every assignment of a worker is an assignment of `render_section` on some
range, from some state of the random source. -/
theorem run_workers_mem (lib : library K G M) (c : camera K) (world : hittable K G M)
    (ranges : List (Int × Int)) (g : G) (wr : Int × color K)
    (h : wr ∈ (run_workers lib c world ranges g).1.flatten) :
    ∃ rg ∈ ranges, ∃ g1 : G, wr ∈ (render_section lib c rg.1 rg.2 world g1).1 := by
  obtain ⟨l, hl, hwr⟩ := List.mem_flatten.mp h
  rw [run_workers_eq] at hl
  rcases foldl_thread_mem
    (fun (rg : Int × Int) g1 => ([(render_section lib c rg.1 rg.2 world g1).1],
      (render_section lib c rg.1 rg.2 world g1).2)) ranges [] g l hl with h0 | h1
  · exact absurd h0 (List.not_mem_nil l)
  · obtain ⟨rg, hrg, g1, hmem⟩ := h1
    rw [List.mem_singleton.mp hmem] at hwr
    exact ⟨rg, hrg, g1, hwr⟩

end nonnegative

section nonnegative_claim

variable {K G M : Type} [LinearOrderedField K] [FloorRing K]

/-- With an orthonormal basis, the direction of every generated ray has the
component `-focus_dist` along `w`. -/
theorem get_ray_direction_along_w (lib : library K G M) (c0 : camera K) (i j : Int) (g : G)
    (hon : orthonormal (initialize_camera lib c0).u (initialize_camera lib c0).v
      (initialize_camera lib c0).w) :
    dot (get_ray lib (initialize_camera lib c0) i j g).1.dir (initialize_camera lib c0).w
      = -c0.focus_dist := by
  rw [get_ray_direction, get_ray_origin]
  have hps := pixel_sample_in_focus_plane lib c0 i j (sample_square lib g).1 hon
  rw [dot_sub_left] at hps
  rw [dot_sub_left]
  split
  · linarith
  · rw [defocus_disk_sample_eq]
    have hd := defocus_disk_in_lens_plane lib c0
      ((lib.random_in_unit_disk (sample_square lib g).2).1.get 0)
      ((lib.random_in_unit_disk (sample_square lib g).2).1.get 1) hon
    rw [dot_sub_left] at hd
    linarith

/-- With an orthonormal basis and `focus_dist ≠ 0`, no generated ray has the
direction zero. -/
theorem get_ray_direction_ne_zero (lib : library K G M) (c0 : camera K) (i j : Int) (g : G)
    (hon : orthonormal (initialize_camera lib c0).u (initialize_camera lib c0).v
      (initialize_camera lib c0).w)
    (hfd : c0.focus_dist ≠ 0) :
    (get_ray lib (initialize_camera lib c0) i j g).1.dir ≠ ⟨0, 0, 0⟩ := by
  intro e
  have h := get_ray_direction_along_w lib c0 i j g hon
  rw [e] at h
  unfold dot at h
  simp only [zero_mul, add_zero] at h
  exact hfd (neg_eq_zero.mp h.symm)

/-- With `focus_dist = 0` and no defocus blur, the viewport shrinks to the
camera centre, and every generated ray has the direction zero. -/
theorem get_ray_direction_zero_focus (lib : library K G M) (c0 : camera K) (i j : Int) (g : G)
    (hfd : c0.focus_dist = 0) (hda : c0.defocus_angle ≤ 0) :
    (get_ray lib (initialize_camera lib c0) i j g).1.dir = ⟨0, 0, 0⟩ := by
  rw [get_ray_direction, get_ray_origin, if_pos (by rw [initialize_defocus_angle]; exact hda)]
  obtain ⟨h1, h2, h3, _, _⟩ := initialize_viewport lib c0
  unfold pixel_sample
  rw [h3, h1, h2]
  unfold viewport_upper_left viewport_u viewport_v viewport_width viewport_height
  rw [hfd]
  simp only [vec3_add_def, vec3_sub_def, vec3_smul_def, vec3_div_def, vec3_neg_def]
  apply vec3_eq <;> simp

/-- What a render that returns leaves in the framebuffer. -/
theorem render_framebuffer_eq (lib : library K G M) (c0 : camera K)
    (framebuffer : List (color K)) (world : hittable K G M) (num_threads : Int) (g : G)
    (out : render_output K G)
    (h : render_image_multithreaded lib c0 framebuffer world num_threads g = some out) :
    ∃ ranges : List (Int × Int),
      thread_ranges (initialize_camera lib c0).image_height num_threads = some ranges ∧
      store_all (run_workers lib (initialize_camera lib c0) world ranges g).1.flatten
        (resize framebuffer ((initialize_camera lib c0).image_width *
          (initialize_camera lib c0).image_height).toNat) = some out.framebuffer := by
  obtain ⟨_, _, ranges, hr, hst, _⟩ := render_some lib c0 framebuffer world num_threads g out h
  exact ⟨ranges, hr, hst⟩

/-- C13 (amended).  Non-negative radiance, over exact arithmetic with `sqrt`
the real square root, for a configuration with `samples_per_pixel ≥ 1` and
`max_depth ≥ 0`, every scene, and materials whose attenuation colours are
non-negative in each channel and whose scattered rays have a non-zero
direction.  For every ray of non-zero direction and every depth, `ray_color`
has a colour to return (no division by zero occurs), and that colour is `≥ 0`
in each channel.  When moreover `image_width ≥ 1`, `lookfrom ≠ lookat`, `vup`
is not parallel to the viewing direction and `focus_dist ≠ 0`, every ray that
`get_ray` generates has a non-zero direction, every sample of every pixel has
a colour, every value `render_section` stores is `≥ 0` in each channel, and
after `render_image_multithreaded` every entry of the framebuffer is `≥ 0` in
each channel, provided the entries the framebuffer held before were (at the
start of the program it is empty). -/
theorem nonnegative_radiance (lib : library K G M) (c0 : camera K) (hs : sqrt_exact lib)
    (hatt : ∀ (m : M) (r : ray K) (rec : hit_record K M) (g : G) (A : color K) (s : ray K)
      (g1 : G), lib.scatter m r rec g = (some (A, s), g1) → nonneg A)
    (hdir : ∀ (m : M) (r : ray K) (rec : hit_record K M) (g : G) (A : color K) (s : ray K)
      (g1 : G), lib.scatter m r rec g = (some (A, s), g1) → s.dir ≠ ⟨0, 0, 0⟩)
    (hspp : 1 ≤ c0.samples_per_pixel) (_hdepth : 0 ≤ c0.max_depth) :
    (∀ (c : camera K) (world : hittable K G M) (r : ray K) (depth : Int) (g : G),
      r.dir ≠ ⟨0, 0, 0⟩ →
      ray_color_checked lib c r depth world g = some (ray_color lib c r depth world g) ∧
      nonneg (ray_color lib c r depth world g).value) ∧
    (1 ≤ c0.image_width → c0.lookfrom ≠ c0.lookat →
      cross c0.vup (c0.lookfrom - c0.lookat) ≠ ⟨0, 0, 0⟩ → c0.focus_dist ≠ 0 →
      (∀ (i j : Int) (g : G),
        (get_ray lib (initialize_camera lib c0) i j g).1.dir ≠ ⟨0, 0, 0⟩) ∧
      (∀ (world : hittable K G M) (i j : Int) (g : G),
        ray_color_checked lib (initialize_camera lib c0)
          (get_ray lib (initialize_camera lib c0) i j g).1 c0.max_depth world
          (get_ray lib (initialize_camera lib c0) i j g).2 =
        some (ray_color lib (initialize_camera lib c0)
          (get_ray lib (initialize_camera lib c0) i j g).1 c0.max_depth world
          (get_ray lib (initialize_camera lib c0) i j g).2)) ∧
      (∀ (world : hittable K G M) (start stop : Int) (g : G),
        ∀ wr ∈ (render_section lib (initialize_camera lib c0) start stop world g).1,
          nonneg wr.2) ∧
      (∀ (framebuffer : List (color K)) (world : hittable K G M) (num_threads : Int) (g : G)
        (out : render_output K G), (∀ e ∈ framebuffer, nonneg e) →
        render_image_multithreaded lib c0 framebuffer world num_threads g = some out →
        ∀ e ∈ out.framebuffer, nonneg e)) := by
  have hray : ∀ (c : camera K) (world : hittable K G M) (r : ray K) (depth : Int) (g : G),
      r.dir ≠ ⟨0, 0, 0⟩ →
      ray_color_checked lib c r depth world g = some (ray_color lib c r depth world g) ∧
      nonneg (ray_color lib c r depth world g).value := by
    intro c world r depth g hr
    obtain ⟨res, hres⟩ :=
      ray_color_checked_defined lib c world hs hdir depth.toNat depth r g (le_refl _) hr
    obtain ⟨e, hnn⟩ :=
      ray_color_checked_sound lib c world hs hatt depth.toNat depth r g (le_refl _) res hres
    rw [← e]
    exact ⟨hres, hnn⟩
  refine ⟨hray, ?_⟩
  intro _ hne hnp hfd
  have hon := (initialize_orthonormal lib c0 hs hne hnp).1
  have hgen : ∀ (i j : Int) (g : G),
      (get_ray lib (initialize_camera lib c0) i j g).1.dir ≠ ⟨0, 0, 0⟩ :=
    fun i j g => get_ray_direction_ne_zero lib c0 i j g hon hfd
  have hsec : ∀ (world : hittable K G M) (start stop : Int) (g : G),
      ∀ wr ∈ (render_section lib (initialize_camera lib c0) start stop world g).1,
        nonneg wr.2 := by
    intro world start stop g wr hwr
    obtain ⟨j, _, i, _, g1, rfl⟩ :=
      render_section_mem lib (initialize_camera lib c0) world start stop g wr hwr
    rw [render_pixel_eq]
    show nonneg ((initialize_camera lib c0).pixel_samples_scale * color_sum _)
    apply nonneg_smul
    · rw [initialize_pixel_samples_scale]
      have : (0 : K) < (c0.samples_per_pixel : K) := by
        exact_mod_cast (show (0 : Int) < c0.samples_per_pixel by omega)
      exact le_of_lt (one_div_pos.mpr this)
    · unfold color_sum
      apply foldl_add_nonneg _ _ _ nonneg_zero
      intro x hx
      obtain ⟨s, hs1, rfl⟩ := List.mem_map.mp hx
      obtain ⟨g2, rfl⟩ := mem_pixel_samples lib _ world i j _ g1 s hs1
      exact (hray _ _ _ _ _ (hgen i j g2)).2
  refine ⟨hgen, fun world i j g => (hray _ world _ _ _ (hgen i j g)).1, hsec, ?_⟩
  intro framebuffer world num_threads g out hfb hout
  obtain ⟨ranges, _, hst⟩ :=
    render_framebuffer_eq lib c0 framebuffer world num_threads g out hout
  apply store_all_nonneg _ _ _ (resize_nonneg framebuffer _ hfb) _ hst
  intro wr hwr
  obtain ⟨rg, _, g1, hmem⟩ := run_workers_mem lib _ world ranges g wr hwr
  exact hsec world rg.1 rg.2 g1 wr hmem

end nonnegative_claim


theorem grey_attenuation (K : Type) [LinearOrderedField K] (p : K) (t s : K → K)
    (m : Unit) (r : ray K) (rec : hit_record K Unit) (g : Unit) (A : color K) (sc : ray K)
    (g1 : Unit) (h : (grey_library K p t s).scatter m r rec g = (some (A, sc), g1)) :
    nonneg A := by
  have e : (some ((⟨1 / 2, 1 / 2, 1 / 2⟩ : color K), (⟨rec.p, ⟨0, 1, 0⟩, 0⟩ : ray K)), g) =
      (some (A, sc), g1) := h
  simp only [Prod.mk.injEq, Option.some.injEq] at e
  rw [← e.1.1]
  unfold nonneg
  norm_num

theorem grey_direction (K : Type) [LinearOrderedField K] (p : K) (t s : K → K)
    (m : Unit) (r : ray K) (rec : hit_record K Unit) (g : Unit) (A : color K) (sc : ray K)
    (g1 : Unit) (h : (grey_library K p t s).scatter m r rec g = (some (A, sc), g1)) :
    sc.dir ≠ ⟨0, 0, 0⟩ := by
  have e : (some ((⟨1 / 2, 1 / 2, 1 / 2⟩ : color K), (⟨rec.p, ⟨0, 1, 0⟩, 0⟩ : ray K)), g) =
      (some (A, sc), g1) := h
  simp only [Prod.mk.injEq, Option.some.injEq] at e
  rw [← e.1.2]
  intro h0
  have hy := congrArg vec3.y h0
  simp at hy

/-- C13 (amended) over the real numbers, with `Real.sqrt` and materials that
scatter straight up with attenuation `(1/2, 1/2, 1/2)`, at the default camera:
the hypotheses hold, `ray_color` has a non-negative colour on every ray of
non-zero direction, no generated ray has the direction zero, and a render
leaves a non-negative framebuffer. -/
theorem nonnegative_radiance_witness :
    (sqrt_exact (grey_library ℝ Real.pi Real.tan Real.sqrt) ∧
      (∀ (m : Unit) (r : ray ℝ) (rec : hit_record ℝ Unit) (g : Unit) (A : color ℝ)
        (s : ray ℝ) (g1 : Unit),
        (grey_library ℝ Real.pi Real.tan Real.sqrt).scatter m r rec g = (some (A, s), g1) →
        nonneg A) ∧
      (∀ (m : Unit) (r : ray ℝ) (rec : hit_record ℝ Unit) (g : Unit) (A : color ℝ)
        (s : ray ℝ) (g1 : Unit),
        (grey_library ℝ Real.pi Real.tan Real.sqrt).scatter m r rec g = (some (A, s), g1) →
        s.dir ≠ ⟨0, 0, 0⟩) ∧
      1 ≤ (standard_camera ℝ).samples_per_pixel ∧ 0 ≤ (standard_camera ℝ).max_depth ∧
      1 ≤ (standard_camera ℝ).image_width ∧
      (standard_camera ℝ).lookfrom ≠ (standard_camera ℝ).lookat ∧
      cross (standard_camera ℝ).vup ((standard_camera ℝ).lookfrom - (standard_camera ℝ).lookat)
        ≠ ⟨0, 0, 0⟩ ∧
      (standard_camera ℝ).focus_dist ≠ 0) ∧
    (∀ (c : camera ℝ) (world : hittable ℝ Unit Unit) (r : ray ℝ) (depth : Int) (g : Unit),
      r.dir ≠ ⟨0, 0, 0⟩ →
      ray_color_checked (grey_library ℝ Real.pi Real.tan Real.sqrt) c r depth world g =
        some (ray_color (grey_library ℝ Real.pi Real.tan Real.sqrt) c r depth world g) ∧
      nonneg (ray_color (grey_library ℝ Real.pi Real.tan Real.sqrt) c r depth world g).value) ∧
    (∀ (i j : Int) (g : Unit),
      (get_ray (grey_library ℝ Real.pi Real.tan Real.sqrt)
        (initialize_camera (grey_library ℝ Real.pi Real.tan Real.sqrt) (standard_camera ℝ))
        i j g).1.dir ≠ ⟨0, 0, 0⟩) ∧
    (∀ (framebuffer : List (color ℝ)) (world : hittable ℝ Unit Unit) (num_threads : Int)
      (g : Unit) (out : render_output ℝ Unit), (∀ e ∈ framebuffer, nonneg e) →
      render_image_multithreaded (grey_library ℝ Real.pi Real.tan Real.sqrt) (standard_camera ℝ)
        framebuffer world num_threads g = some out →
      ∀ e ∈ out.framebuffer, nonneg e) := by
  have hfd : (standard_camera ℝ).focus_dist ≠ 0 := by
    show (10 : ℝ) ≠ 0
    norm_num
  have hthm := nonnegative_radiance (grey_library ℝ Real.pi Real.tan Real.sqrt)
    (standard_camera ℝ) (real_sqrt_exact _ rfl)
    (grey_attenuation ℝ Real.pi Real.tan Real.sqrt)
    (grey_direction ℝ Real.pi Real.tan Real.sqrt) (by decide) (by decide)
  have hrest := hthm.2 (by decide) (standard_camera_looks ℝ).1 (standard_camera_looks ℝ).2 hfd
  exact ⟨⟨real_sqrt_exact _ rfl, grey_attenuation ℝ Real.pi Real.tan Real.sqrt,
      grey_direction ℝ Real.pi Real.tan Real.sqrt, by decide, by decide, by decide,
      (standard_camera_looks ℝ).1, (standard_camera_looks ℝ).2, hfd⟩,
    hthm.1, hrest.1, hrest.2.2.2⟩

/-- C13 fails as stated: the default camera with `focus_dist = 0` is a
configuration with `samples_per_pixel ≥ 1` and `max_depth ≥ 0`, `sqrt` is the
real square root, and the attenuations are non-negative; yet the ray that
`get_ray` generates for pixel `(0, 0)` has the direction zero, and in a scene
without surfaces `ray_color` divides zero by zero on it: it has no colour to
return (the C++ result is NaN), in particular none that is `≥ 0` in each
channel. -/
theorem nonnegative_radiance_counterexample :
    sqrt_exact (grey_library ℝ Real.pi Real.tan Real.sqrt) ∧
    (∀ (m : Unit) (r : ray ℝ) (rec : hit_record ℝ Unit) (g : Unit) (A : color ℝ)
      (s : ray ℝ) (g1 : Unit),
      (grey_library ℝ Real.pi Real.tan Real.sqrt).scatter m r rec g = (some (A, s), g1) →
      nonneg A) ∧
    1 ≤ (camera_focus_0 ℝ).samples_per_pixel ∧ 0 ≤ (camera_focus_0 ℝ).max_depth ∧
    (get_ray (grey_library ℝ Real.pi Real.tan Real.sqrt)
      (initialize_camera (grey_library ℝ Real.pi Real.tan Real.sqrt) (camera_focus_0 ℝ))
      0 0 ()).1.dir = ⟨0, 0, 0⟩ ∧
    ray_color_checked (grey_library ℝ Real.pi Real.tan Real.sqrt)
      (initialize_camera (grey_library ℝ Real.pi Real.tan Real.sqrt) (camera_focus_0 ℝ))
      (get_ray (grey_library ℝ Real.pi Real.tan Real.sqrt)
        (initialize_camera (grey_library ℝ Real.pi Real.tan Real.sqrt) (camera_focus_0 ℝ))
        0 0 ()).1
      (camera_focus_0 ℝ).max_depth (void_world ℝ) () = none ∧
    ¬ ∃ res : radiance ℝ Unit,
      ray_color_checked (grey_library ℝ Real.pi Real.tan Real.sqrt)
        (initialize_camera (grey_library ℝ Real.pi Real.tan Real.sqrt) (camera_focus_0 ℝ))
        (get_ray (grey_library ℝ Real.pi Real.tan Real.sqrt)
          (initialize_camera (grey_library ℝ Real.pi Real.tan Real.sqrt) (camera_focus_0 ℝ))
          0 0 ()).1
        (camera_focus_0 ℝ).max_depth (void_world ℝ) () = some res ∧ nonneg res.value := by
  have hdir0 := get_ray_direction_zero_focus (grey_library ℝ Real.pi Real.tan Real.sqrt)
    (camera_focus_0 ℝ) 0 0 () rfl (by
      show (0 : ℝ) ≤ 0
      exact le_refl _)
  have hnone : ray_color_checked (grey_library ℝ Real.pi Real.tan Real.sqrt)
      (initialize_camera (grey_library ℝ Real.pi Real.tan Real.sqrt) (camera_focus_0 ℝ))
      (get_ray (grey_library ℝ Real.pi Real.tan Real.sqrt)
        (initialize_camera (grey_library ℝ Real.pi Real.tan Real.sqrt) (camera_focus_0 ℝ))
        0 0 ()).1
      (camera_focus_0 ℝ).max_depth (void_world ℝ) () = none := by
    apply ray_color_checked_zero _ _ _ _ _ _ (by decide) rfl
    show Real.sqrt (vec3.length_squared _) = 0
    rw [show (get_ray (grey_library ℝ Real.pi Real.tan Real.sqrt)
      (initialize_camera (grey_library ℝ Real.pi Real.tan Real.sqrt) (camera_focus_0 ℝ))
      0 0 ()).1.direction = ⟨0, 0, 0⟩ from hdir0]
    simp [vec3.length_squared]
  refine ⟨real_sqrt_exact _ rfl, grey_attenuation ℝ Real.pi Real.tan Real.sqrt, by decide,
    by decide, hdir0, hnone, ?_⟩
  rintro ⟨res, hres, _⟩
  rw [hnone] at hres
  exact Option.noConfusion hres


/-! ## C12 : the empty scene, 4 by 2 -/

section scenario

variable {K G M : Type} [LinearOrderedField K] [FloorRing K]

omit [FloorRing K] in
/-- `unit_vector` leaves a vector of length one unchanged. -/
theorem unit_vector_of_unit (lib : library K G M) (hs : sqrt_exact lib) (a : vec3 K)
    (ha : dot a a = 1) : unit_vector lib a = a := by
  unfold unit_vector vec3.length
  rw [length_squared_eq_dot, ha, sqrt_one lib hs, vec3_div_def]
  apply vec3_eq <;> simp

theorem scenario_height (lib : library K G M) (fd : K) (md : Int) :
    (initialize_camera lib (scenario_camera K fd md)).image_height = 2 := by
  apply initialize_height_of_integer lib (scenario_camera K fd md) 2 _ (by decide) (by decide)
  show (((4 : Int) : K) / 2) = ((2 : Int) : K)
  norm_num

theorem scenario_basis (lib : library K G M) (hs : sqrt_exact lib) (fd : K) (md : Int) :
    (initialize_camera lib (scenario_camera K fd md)).w = ⟨0, 0, 1⟩ ∧
    (initialize_camera lib (scenario_camera K fd md)).u = ⟨1, 0, 0⟩ ∧
    (initialize_camera lib (scenario_camera K fd md)).v = ⟨0, 1, 0⟩ := by
  obtain ⟨hw, hu, hv⟩ := initialize_basis lib (scenario_camera K fd md)
  have hd : (scenario_camera K fd md).lookfrom - (scenario_camera K fd md).lookat
      = (⟨0, 0, 1⟩ : vec3 K) := by
    show (⟨0, 0, 0⟩ : vec3 K) - ⟨0, 0, -1⟩ = ⟨0, 0, 1⟩
    rw [vec3_sub_def]
    apply vec3_eq <;> simp
  have hw1 : (initialize_camera lib (scenario_camera K fd md)).w = ⟨0, 0, 1⟩ := by
    rw [hw, hd]
    apply unit_vector_of_unit lib hs
    unfold dot
    simp
  have hu1 : (initialize_camera lib (scenario_camera K fd md)).u = ⟨1, 0, 0⟩ := by
    rw [hu, hw1]
    have hc : cross (scenario_camera K fd md).vup (⟨0, 0, 1⟩ : vec3 K) = ⟨1, 0, 0⟩ := by
      show cross (⟨0, 1, 0⟩ : vec3 K) ⟨0, 0, 1⟩ = ⟨1, 0, 0⟩
      unfold cross
      apply vec3_eq <;> simp
    rw [hc]
    apply unit_vector_of_unit lib hs
    unfold dot
    simp
  refine ⟨hw1, hu1, ?_⟩
  rw [hv, hw1, hu1]
  unfold cross
  apply vec3_eq <;> simp

/-- The sample points of the scenario: their vertical and depth coordinates. -/
theorem scenario_pixel_sample (lib : library K G M) (hs : sqrt_exact lib)
    (htan : lib.tan (degrees_to_radians lib 90 / 2) = 1) (fd : K) (md : Int) (i j : Int)
    (offset : vec3 K) :
    (pixel_sample (initialize_camera lib (scenario_camera K fd md)) i j offset).y =
      fd * (0.5 - (j : K) - offset.y) ∧
    (pixel_sample (initialize_camera lib (scenario_camera K fd md)) i j offset).z = -fd := by
  obtain ⟨hw, hu, hv⟩ := scenario_basis lib hs fd md
  have hH := scenario_height lib fd md
  obtain ⟨h1, h2, h3, _, _⟩ := initialize_viewport lib (scenario_camera K fd md)
  have hvh : viewport_height lib (scenario_camera K fd md) = 2 * fd := by
    show 2 * lib.tan (degrees_to_radians lib 90 / 2) * fd = 2 * fd
    rw [htan]
    ring
  have hc : (initialize_camera lib (scenario_camera K fd md)).center = ⟨0, 0, 0⟩ := rfl
  have hW : ((scenario_camera K fd md).image_width : K) = 4 := by
    show (((4 : Int) : K)) = 4
    norm_num
  have hfd : (scenario_camera K fd md).focus_dist = fd := rfl
  unfold pixel_sample
  rw [h3, h1, h2]
  unfold viewport_upper_left viewport_u viewport_v viewport_width
  rw [hw, hu, hv, hH, hvh, hc, hW, hfd]
  simp only [vec3_add_def, vec3_sub_def, vec3_smul_def, vec3_div_def, vec3_neg_def]
  constructor
  · norm_num
    ring
  · norm_num

end scenario

section scenario_rays

variable {K G M : Type} [LinearOrderedField K]

/-- On a miss at positive depth `ray_color` returns the background gradient of
the ray's direction. -/
theorem ray_color_miss (lib : library K G M) (c : camera K) (r : ray K) (depth : Int)
    (world : hittable K G M) (g : G) (hd : 0 < depth)
    (hmiss : (world.hit r ⟨0.001, none⟩ g).1 = none) :
    (ray_color lib c r depth world g).value = background lib r.direction := by
  rw [ray_color_positive lib c r depth world g hd]
  rcases hq : world.hit r ⟨0.001, none⟩ g with ⟨o, g1⟩
  rw [hq] at hmiss
  simp only at hmiss
  subst hmiss
  simp only
  unfold background blend_weight
  simp only [vec3_add_def, vec3_smul_def]
  apply vec3_eq <;> simp only <;> norm_num

/-- The blend weight against the sign of the vertical component, for a
direction that is not zero. -/
theorem blend_weight_sign (lib : library K G M) (hs : sqrt_exact lib) (d : vec3 K)
    (hd : d ≠ ⟨0, 0, 0⟩) :
    (0 < d.y → 1 / 2 < blend_weight lib d) ∧ (d.y ≤ 0 → blend_weight lib d ≤ 1 / 2) := by
  have hpos := sqrt_pos lib hs (dot d d) (dot_self_pos d hd)
  have hy : (unit_vector lib d).y = 1 / lib.sqrt (dot d d) * d.y := rfl
  have hinv : 0 < 1 / lib.sqrt (dot d d) := one_div_pos.mpr hpos
  unfold blend_weight
  rw [hy]
  constructor
  · intro h
    have : 0 < 1 / lib.sqrt (dot d d) * d.y := mul_pos hinv h
    generalize 1 / lib.sqrt (dot d d) * d.y = t at this ⊢
    norm_num
    linarith
  · intro h
    have : 1 / lib.sqrt (dot d d) * d.y ≤ 0 :=
      mul_nonpos_of_nonneg_of_nonpos (le_of_lt hinv) h
    generalize 1 / lib.sqrt (dot d d) * d.y = t at this ⊢
    norm_num
    linarith

/-- With one sample per pixel, in a scene that reports no hit, the value
stored for a pixel is the background gradient of the one ray generated. -/
theorem render_pixel_one_sample (lib : library K G M) (c : camera K) (world : hittable K G M)
    (i j : Int) (g : G) (hspp : c.samples_per_pixel = 1) (hscale : c.pixel_samples_scale = 1)
    (hdepth : 1 ≤ c.max_depth)
    (hworld : ∀ (r : ray K) (iv : interval K) (g1 : G), (world.hit r iv g1).1 = none) :
    (render_pixel lib c world i j g).1 =
      (int_add (int_mul j c.image_width) i, background lib (get_ray lib c i j g).1.dir) := by
  rw [render_pixel_eq, hspp, hscale]
  have e : (1 : Int).toNat = 1 := rfl
  rw [e]
  simp only [pixel_samples, List.map_cons, List.map_nil, color_sum, List.foldl_cons,
    List.foldl_nil]
  rw [ray_color_miss lib c _ c.max_depth world _ (by omega) (hworld _ _ _)]
  congr 1
  rw [vec3_add_def, vec3_smul_def]
  apply vec3_eq <;> simp [ray.direction]

omit [LinearOrderedField K] in
theorem store_getElem (fb fb1 : List (color K)) (wr : Int × color K) (k : Nat)
    (h : store fb wr = some fb1) :
    fb1[k]? = if int_to_size_t wr.1 = k then some wr.2 else fb[k]? := by
  obtain ⟨hb, e⟩ := store_eq_some fb fb1 wr h
  rw [e, List.getElem?_set]
  by_cases h1 : int_to_size_t wr.1 = k
  · subst h1
    simp only [hb, if_true]
  · simp only [h1, if_false]

omit [LinearOrderedField K] in
/-- An entry of the framebuffer after a list of assignments is the value of
one of them, or was there before and has not been assigned. -/
theorem store_all_getElem (log : List (Int × color K)) :
    ∀ (fb fb1 : List (color K)) (k : Nat) (e : color K),
      store_all log fb = some fb1 → fb1[k]? = some e →
      (∃ wr ∈ log, int_to_size_t wr.1 = k ∧ e = wr.2) ∨
        (fb[k]? = some e ∧ ∀ wr ∈ log, int_to_size_t wr.1 ≠ k) := by
  induction log with
  | nil =>
    intro fb fb1 k e hst h
    rw [store_all_nil] at hst
    rw [← Option.some.inj hst] at h
    exact Or.inr ⟨h, fun wr hwr => absurd hwr (List.not_mem_nil wr)⟩
  | cons wr rest ih =>
    intro fb fb1 k e hst h
    obtain ⟨fb2, h1, h2⟩ := (store_all_cons wr rest fb fb1).mp hst
    rcases ih fb2 fb1 k e h2 h with ⟨w, hw, hk, he⟩ | ⟨hget, hno⟩
    · exact Or.inl ⟨w, List.mem_cons_of_mem _ hw, hk, he⟩
    · rw [store_getElem fb fb2 wr k h1] at hget
      by_cases hc : int_to_size_t wr.1 = k
      · rw [if_pos hc] at hget
        exact Or.inl ⟨wr, List.mem_cons_self _ _, hc, (Option.some.inj hget).symm⟩
      · rw [if_neg hc] at hget
        refine Or.inr ⟨hget, ?_⟩
        intro w hw
        rcases List.mem_cons.mp hw with e1 | e1
        · rw [e1]
          exact hc
        · exact hno w e1

end scenario_rays

section scenario_claim

variable {K G M : Type} [LinearOrderedField K] [FloorRing K]

/-- The rays of the scenario: direction of the ray generated for pixel
`(i, j)`. -/
theorem scenario_direction (lib : library K G M) (hs : sqrt_exact lib)
    (htan : lib.tan (degrees_to_radians lib 90 / 2) = 1) (fd : K) (md : Int) (i j : Int)
    (g : G) :
    (get_ray lib (initialize_camera lib (scenario_camera K fd md)) i j g).1.dir.y =
      fd * (0.5 - (j : K) - (sample_square lib g).1.y) ∧
    (get_ray lib (initialize_camera lib (scenario_camera K fd md)) i j g).1.dir.z = -fd := by
  obtain ⟨hy, hz⟩ := scenario_pixel_sample lib hs htan fd md i j (sample_square lib g).1
  have hd0 : (initialize_camera lib (scenario_camera K fd md)).defocus_angle ≤ 0 :=
    le_refl _
  have horig : (get_ray lib (initialize_camera lib (scenario_camera K fd md)) i j g).1.orig
      = ⟨0, 0, 0⟩ := by
    rw [get_ray_origin, if_pos hd0]
    rfl
  rw [get_ray_direction, horig, vec3_sub_def]
  simp only
  rw [hy, hz]
  constructor <;> ring

/-- The blend weights of the scenario: above one half in the top row, at most
one half in the bottom row. -/
theorem scenario_blend (lib : library K G M) (hs : sqrt_exact lib)
    (htan : lib.tan (degrees_to_radians lib 90 / 2) = 1)
    (hdraw : draws_in_unit_interval lib) (fd : K) (hfd : 0 < fd) (md : Int) (i : Int)
    (g : G) :
    1 / 2 < blend_weight lib
      (get_ray lib (initialize_camera lib (scenario_camera K fd md)) i 0 g).1.dir ∧
    blend_weight lib
      (get_ray lib (initialize_camera lib (scenario_camera K fd md)) i 1 g).1.dir ≤ 1 / 2 := by
  obtain ⟨_, _, hy0, hy1⟩ := sample_square_bounds lib hdraw g
  have hne : ∀ j : Int,
      (get_ray lib (initialize_camera lib (scenario_camera K fd md)) i j g).1.dir
        ≠ ⟨0, 0, 0⟩ := by
    intro j e
    have hz := (scenario_direction lib hs htan fd md i j g).2
    rw [e] at hz
    simp only at hz
    linarith
  constructor
  · apply (blend_weight_sign lib hs _ (hne 0)).1
    rw [(scenario_direction lib hs htan fd md i 0 g).1]
    apply mul_pos hfd
    push_cast
    linarith
  · apply (blend_weight_sign lib hs _ (hne 1)).2
    rw [(scenario_direction lib hs htan fd md i 1 g).1]
    apply mul_nonpos_of_nonneg_of_nonpos (le_of_lt hfd)
    push_cast
    linarith

end scenario_claim

section scenario_render

variable {K G M : Type} [LinearOrderedField K] [FloorRing K]

/-- C12.  The empty scene, 4 by 2: with a scene that never reports a hit, the
camera at the origin looking at `(0, 0, -1)` with `vup = (0, 1, 0)`,
`vfov = 90` (`tan` of the half angle being `1`), `image_width = 4`,
`aspect_ratio = 2`, one sample per pixel, `defocus_angle = 0`,
`max_depth ≥ 1`, a positive `focus_dist` (the default is `10`) and draws of
`random_double` in `[0, 1)`, that is jitter in `[-0.5, 0.5)^2`: the image height
is `2`; `render_image_multithreaded` returns with a framebuffer of `8` entries,
and entry `k` is the background gradient of the direction of a ray generated
for pixel `(k mod 4, k div 4)`; the blend weight `a` of every ray of the top
row (`j = 0`) is greater than `1/2`, that of every ray of the bottom row
(`j = 1`) is at most `1/2`. -/
theorem empty_scene_4x2 (lib : library K G M) (world : hittable K G M) (fd : K) (md : Int)
    (framebuffer : List (color K)) (num_threads : Int) (g : G)
    (hs : sqrt_exact lib) (htan : lib.tan (degrees_to_radians lib 90 / 2) = 1)
    (hdraw : draws_in_unit_interval lib)
    (hworld : ∀ (r : ray K) (iv : interval K) (g1 : G), (world.hit r iv g1).1 = none)
    (hfd : 0 < fd) (hmd : 1 ≤ md) (hn : 1 ≤ num_threads) (hnmax : num_threads ≤ INT_MAX) :
    (initialize_camera lib (scenario_camera K fd md)).image_height = 2 ∧
    (∃ out : render_output K G,
      render_image_multithreaded lib (scenario_camera K fd md) framebuffer world num_threads g
        = some out ∧
      out.framebuffer.length = 8 ∧
      ∀ k : Nat, k < 8 → ∃ g1 : G,
        out.framebuffer[k]? =
          some (background lib
            (get_ray lib (initialize_camera lib (scenario_camera K fd md))
              ((k : Int) % 4) ((k : Int) / 4) g1).1.dir)) ∧
    (∀ (i : Int) (g1 : G),
      1 / 2 < blend_weight lib
        (get_ray lib (initialize_camera lib (scenario_camera K fd md)) i 0 g1).1.dir) ∧
    (∀ (i : Int) (g1 : G),
      blend_weight lib
        (get_ray lib (initialize_camera lib (scenario_camera K fd md)) i 1 g1).1.dir
        ≤ 1 / 2) := by
  have hH := scenario_height lib fd md
  have hW : (initialize_camera lib (scenario_camera K fd md)).image_width = 4 := rfl
  refine ⟨hH, ?_, fun i g1 => (scenario_blend lib hs htan hdraw fd hfd md i g1).1,
    fun i g1 => (scenario_blend lib hs htan hdraw fd hfd md i g1).2⟩
  have hfit : (initialize_camera lib (scenario_camera K fd md)).image_width *
      (initialize_camera lib (scenario_camera K fd md)).image_height ≤ INT_MAX := by
    rw [hW, hH]
    decide
  obtain ⟨ranges, out, hr, _, hc, _, hall, hout, hst, hlenfb, _⟩ :=
    render_in_range lib (scenario_camera K fd md) framebuffer world num_threads g
      (by rw [hW]; decide) (by rw [hH]; decide) hfit hn hnmax
  rw [hW, hH] at hlenfb hall
  have hlen : out.framebuffer.length = 8 := by omega
  refine ⟨out, hout, hlen, ?_⟩
  intro k hk
  have hk2 : k < out.framebuffer.length := by omega
  obtain ⟨e, he0⟩ : ∃ e, out.framebuffer[k]? = some e := ⟨_, List.getElem?_eq_getElem hk2⟩
  have hmemk : (k : Int) ∈ ((run_workers lib (initialize_camera lib (scenario_camera K fd md))
      world ranges g).1.flatten.map Prod.fst) := by
    rw [hall]
    exact (mem_int_loop _ _ _).mpr ⟨by omega, by omega⟩
  obtain ⟨wk, hwk, hwk1⟩ := List.mem_map.mp hmemk
  rcases store_all_getElem _ _ _ k e hst he0 with ⟨wr, hwr, hidx, he⟩ | ⟨_, hno⟩
  · obtain ⟨rg, hrg, g1, hsec⟩ := run_workers_mem lib _ world ranges g wr hwr
    obtain ⟨j, hj, i, hi, g2, hpix⟩ := render_section_mem lib _ world rg.1 rg.2 g1 wr hsec
    have hb := row_chain_bounds ranges 0 _ hc rg hrg
    rw [hH] at hb
    have hj2 := (mem_int_loop _ _ _).mp hj
    have hi2 := (mem_int_loop _ _ _).mp hi
    rw [hW] at hi2
    have hscale : (initialize_camera lib (scenario_camera K fd md)).pixel_samples_scale = 1 := by
      rw [initialize_pixel_samples_scale]
      show (1 : K) / (((1 : Int) : K)) = 1
      norm_num
    rw [render_pixel_one_sample lib _ world i j g2 rfl hscale hmd hworld, hW] at hpix
    have hwr1 : wr.1 = j * 4 + i := by
      rw [hpix]
      show int_add (int_mul j 4) i = j * 4 + i
      unfold int_add int_mul wrap_int
      omega
    have hkk : (k : Int) = j * 4 + i := by
      rw [← hwr1]
      unfold int_to_size_t at hidx
      omega
    have hi3 : (k : Int) % 4 = i := by omega
    have hj3 : (k : Int) / 4 = j := by omega
    refine ⟨g2, ?_⟩
    rw [he0, he, hpix, hi3, hj3]
  · exfalso
    apply hno wk hwk
    rw [hwk1]
    unfold int_to_size_t
    omega

end scenario_render


theorem real_tan_quarter_turn (s : ℝ → ℝ) :
    (plain_library ℝ Real.pi Real.tan s).tan
      (degrees_to_radians (plain_library ℝ Real.pi Real.tan s) 90 / 2) = 1 := by
  show Real.tan ((90 : ℝ) * Real.pi / 180 / 2) = 1
  have e : (90 : ℝ) * Real.pi / 180 / 2 = Real.pi / 4 := by ring
  rw [e, Real.tan_pi_div_four]

theorem plain_draws (K : Type) [LinearOrderedField K] (p : K) (t s : K → K) :
    draws_in_unit_interval (plain_library K p t s) := by
  intro g
  show (0 : K) ≤ 0 ∧ (0 : K) < 1
  exact ⟨le_refl _, zero_lt_one⟩

/-- C12 over the real numbers, with `Real.pi`, `Real.tan`, `Real.sqrt`, the
default `focus_dist = 10`, `max_depth = 10` and two workers. -/
theorem empty_scene_4x2_witness :
    (sqrt_exact (plain_library ℝ Real.pi Real.tan Real.sqrt) ∧
      (plain_library ℝ Real.pi Real.tan Real.sqrt).tan
        (degrees_to_radians (plain_library ℝ Real.pi Real.tan Real.sqrt) 90 / 2) = 1 ∧
      draws_in_unit_interval (plain_library ℝ Real.pi Real.tan Real.sqrt) ∧
      (∀ (r : ray ℝ) (iv : interval ℝ) (g1 : Unit), ((void_world ℝ).hit r iv g1).1 = none) ∧
      (0 : ℝ) < 10 ∧ (1 : Int) ≤ 10 ∧ (1 : Int) ≤ 2 ∧ (2 : Int) ≤ INT_MAX) ∧
    (initialize_camera (plain_library ℝ Real.pi Real.tan Real.sqrt)
      (scenario_camera ℝ 10 10)).image_height = 2 ∧
    (∃ out : render_output ℝ Unit,
      render_image_multithreaded (plain_library ℝ Real.pi Real.tan Real.sqrt)
        (scenario_camera ℝ 10 10) [] (void_world ℝ) 2 () = some out ∧
      out.framebuffer.length = 8 ∧
      ∀ k : Nat, k < 8 → ∃ g1 : Unit,
        out.framebuffer[k]? =
          some (background (plain_library ℝ Real.pi Real.tan Real.sqrt)
            (get_ray (plain_library ℝ Real.pi Real.tan Real.sqrt)
              (initialize_camera (plain_library ℝ Real.pi Real.tan Real.sqrt)
                (scenario_camera ℝ 10 10))
              ((k : Int) % 4) ((k : Int) / 4) g1).1.dir)) ∧
    (∀ (i : Int) (g1 : Unit),
      1 / 2 < blend_weight (plain_library ℝ Real.pi Real.tan Real.sqrt)
        (get_ray (plain_library ℝ Real.pi Real.tan Real.sqrt)
          (initialize_camera (plain_library ℝ Real.pi Real.tan Real.sqrt)
            (scenario_camera ℝ 10 10)) i 0 g1).1.dir) ∧
    (∀ (i : Int) (g1 : Unit),
      blend_weight (plain_library ℝ Real.pi Real.tan Real.sqrt)
        (get_ray (plain_library ℝ Real.pi Real.tan Real.sqrt)
          (initialize_camera (plain_library ℝ Real.pi Real.tan Real.sqrt)
            (scenario_camera ℝ 10 10)) i 1 g1).1.dir ≤ 1 / 2) :=
  ⟨⟨plain_sqrt_exact _ _, real_tan_quarter_turn _, plain_draws ℝ _ _ _, fun _ _ _ => rfl,
      by norm_num, by decide, by decide, by decide⟩,
    empty_scene_4x2 (plain_library ℝ Real.pi Real.tan Real.sqrt) (void_world ℝ) 10 10 [] 2 ()
      (plain_sqrt_exact _ _) (real_tan_quarter_turn _) (plain_draws ℝ _ _ _)
      (fun _ _ _ => rfl) (by norm_num) (by decide) (by decide) (by decide)⟩

end RayWeek
